import Mathlib

/-! Verification of the jdftx phonon engine: dynamical-matrix assembly and supercell
state mapping.

A shallow embedding of `Phonon::setup`, `Phonon::dump` and `Phonon::setSupState`
(`src/jdftx/phonon/Phonon.cpp`).

Number model.  The C++ type `double` is embedded as a field `R` with trivial
conjugation, `complex` as a field `K` that is an `R`-algebra with a conjugation
compatible with it (`R = ℝ`, `K = ℂ` is the intended instance; `R = K = ℚ` is the
executable one).  Arithmetic is exact: rounding is not modelled.  C++ `int`
values are embedded as `ℤ`/`ℕ` without wrap-around, except where a narrower
type is written in the source.

Arrays (`std::vector<T>`, the entries of a `matrix`) are embedded as total
functions on their indices; only indices inside the C++ bounds are meaningful.
`assert` follows `Util.h` without `NDEBUG`: a failed assertion ends the run,
which is embedded as `Except.error`.
-/

open Matrix

namespace Phonon

/-- The class `vector3<T>`: three components indexed 0, 1, 2. -/
abbrev vector3 (α : Type) := Fin 3 → α

/-- The method `vector3<int>::length_squared`. -/
def length_squared (v : vector3 ℤ) : ℤ := v 0 * v 0 + v 1 * v 1 + v 2 * v 2

/-- The class `matrix`: a dense complex matrix, entries addressed by (row, column). -/
abbrev matrix (K : Type) := Matrix ℕ ℕ K

/-- The function `dagger`: conjugate transpose of a `matrix`. -/
def dagger {K : Type} [Star K] (M : matrix K) : matrix K := Mᴴ

section Dump

variable {R K : Type} [Field R] [StarRing R] [TrivialStar R]
  [Field K] [StarRing K] [Algebra R K] [StarModule R K]

/-- The key `iter->first` of the `i`-th entry of `cellMap` in iteration order
(`std::map<vector3<int>,double>` is embedded as the list of its entries). -/
def cellKey (cellMap : List (vector3 ℤ × R)) (i : ℕ) : vector3 ℤ :=
  (cellMap.getD i (0, 0)).1

/-- The weight `iter->second` of the `i`-th entry of `cellMap` in iteration order. -/
def cellWeight (cellMap : List (vector3 ℤ × R)) (i : ℕ) : R :=
  (cellMap.getD i (0, 0)).2

/-- Body of the inner loop of "enforce hermiticity" (Phonon.cpp lines 272-278) for the
index pair `(iCell1, iCell2)`; the state is `(omegaSq, nSymmetrizedCells)`. -/
def hermitizePair (cellMap : List (vector3 ℤ × R)) (iCell1 : ℕ)
    (st : (ℕ → matrix K) × ℕ) (iCell2 : ℕ) : (ℕ → matrix K) × ℕ :=
  let iRsum := cellKey cellMap iCell1 + cellKey cellMap iCell2
  if length_squared iRsum = 0 ∧ iCell1 ≤ iCell2 then
    let M : matrix K := (1 / 2 : R) • (st.1 iCell1 + dagger (st.1 iCell2))
    (Function.update (Function.update st.1 iCell1 M) iCell2 (dagger M),
      st.2 + (if iCell1 = iCell2 then 1 else 2))
  else st

/-- The two nested loops of "enforce hermiticity" (Phonon.cpp lines 267-282), started with
`nSymmetrizedCells = 0`. -/
def hermitizeLoop (cellMap : List (vector3 ℤ × R)) (omegaSq : ℕ → matrix K) :
    (ℕ → matrix K) × ℕ :=
  (List.range cellMap.length).foldl
    (fun st iCell1 => (List.range cellMap.length).foldl (hermitizePair cellMap iCell1) st)
    (omegaSq, 0)

/-- The Hermitization step together with `assert(nSymmetrizedCells == cellMap.size())`
(Phonon.cpp lines 266-283). -/
def enforceHermiticity (cellMap : List (vector3 ℤ × R)) (omegaSq : ℕ → matrix K) :
    Except String (ℕ → matrix K) :=
  let r := hermitizeLoop cellMap omegaSq
  if r.2 = cellMap.length then Except.ok r.1
  else Except.error "assert(nSymmetrizedCells == cellMap.size())"

/-- Position in iteration order of the entry of `cellMap` whose key is the negative of the
key of entry `i`; it is `cellMap.length` when no entry has that key. -/
def negIdx (cellMap : List (vector3 ℤ × R)) (i : ℕ) : ℕ :=
  (cellMap.map Prod.fst).indexOf (-(cellKey cellMap i))

/-- The slicing operator `M(iStart,iStop, jStart,jStop)` of `matrix`: the block of rows
`[iStart,iStop)` and columns `[jStart,jStop)`, re-indexed from 0. -/
def matrix_slice (M : matrix K) (iStart iStop jStart jStop : ℕ) : matrix K :=
  fun i j => if i < iStop - iStart ∧ j < jStop - jStart then M (iStart + i) (jStart + j) else 0

/-- The method `matrix::set(iStart,iStop, jStart,jStop, B)`: overwrite the block of rows
`[iStart,iStop)` and columns `[jStart,jStop)` by `B`. -/
def matrix_set (M : matrix K) (iStart iStop jStart jStop : ℕ) (B : matrix K) : matrix K :=
  fun i j => if iStart ≤ i ∧ i < iStop ∧ jStart ≤ j ∧ j < jStop then B (i - iStart) (j - jStart)
    else M i j

/-- One displacement `struct Mode { int sp; int at; int dir; }` (Phonon.cpp line 178). -/
structure Mode where
  /-- Species index. -/
  sp : ℕ
  /-- Atom index within the species (`at` in the source). -/
  atom : ℕ
  /-- Cartesian direction 0, 1 or 2. -/
  dir : ℕ
deriving DecidableEq, Repr

/-- The expression `e.iInfo.species[modes[3*at].sp]->mass` (Phonon.cpp lines 291, 294);
`mass sp` is the mass of species `sp`. -/
def speciesMass (mass : ℕ → R) (modes : List Mode) (a : ℕ) : R :=
  mass (modes.getD (3 * a) ⟨0, 0, 0⟩).sp

/-- The loop `for(const matrix& M: omegaSq) omegaSqSum += M;` (Phonon.cpp lines 285-287). -/
def omegaSqSum (nCells : ℕ) (omegaSq : ℕ → matrix K) : matrix K :=
  (List.range nCells).foldl (fun acc iCell => acc + omegaSq iCell) 0

/-- The 3x3 matrix `Fmean` (Phonon.cpp lines 288-291); `nAtoms = modes.size()/3`. -/
def Fmean (prodSup : ℤ) (mass : ℕ → R) (modes : List Mode) (S : matrix K) : matrix K :=
  let nAtoms := modes.length / 3
  (List.range nAtoms).foldl
    (fun acc a => acc + speciesMass mass modes a •
      ((1 / (((nAtoms : ℤ) * prodSup : ℤ) : R)) •
        matrix_slice S (3 * a) (3 * (a + 1)) (3 * a) (3 * (a + 1))))
    0

/-- The matrix `omegaSqCorrection` (Phonon.cpp lines 292-294), starting from `zeroes`. -/
def omegaSqCorrection (mass : ℕ → R) (modes : List Mode) (F : matrix K) : matrix K :=
  (List.range (modes.length / 3)).foldl
    (fun acc a => matrix_set acc (3 * a) (3 * (a + 1)) (3 * a) (3 * (a + 1))
      ((1 / speciesMass mass modes a) • F))
    0

/-- The step "enforce translational invariance" (Phonon.cpp lines 284-299): every cell's block
loses its weight times `omegaSqCorrection`. -/
def enforceTranslationalInvariance (prodSup : ℤ) (mass : ℕ → R) (modes : List Mode)
    (cellMap : List (vector3 ℤ × R)) (omegaSq : ℕ → matrix K) : ℕ → matrix K :=
  let corr := omegaSqCorrection mass modes
    (Fmean prodSup mass modes (omegaSqSum cellMap.length omegaSq))
  fun iCell =>
    if iCell < cellMap.length then omegaSq iCell - cellWeight cellMap iCell • corr
    else omegaSq iCell

/-- Conversion of an `int` to `int16_t` (two's complement wrap). -/
def toInt16 (x : ℤ) : ℤ := (x + 32768) % 65536 - 32768

/-- Conversion of an `int` to `uint16_t`. -/
def toUInt16 (x : ℤ) : ℤ := x % 65536

/-- The function `positiveRemainder(int16_t x, uint16_t y)` of `Util.h` (lines 128-133) on
arguments already converted to their parameter types; `%` of C++ truncates towards zero. -/
def positiveRemainder (x y : ℤ) : ℤ :=
  let xMody := toInt16 (Int.tmod x y)
  if xMody < 0 then toUInt16 (y + xMody) else toUInt16 xMody

/-- The index `cellIndex` of the cell `iR` in the supercell (Phonon.cpp lines 252-254). -/
def cellIndex (sup iR : vector3 ℤ) : ℤ :=
  let r : vector3 ℤ := fun j => positiveRemainder (toInt16 (iR j)) (toUInt16 (sup j))
  (r 0 * sup 1 + r 1) * sup 2 + r 2

/-- The step "remap to cells" (Phonon.cpp lines 242-265).  `nAtpos sp` is
`e.iInfo.species[sp]->atpos.size()`, and `dgrad iMode sp at` is the force-derivative vector
`dgrad[iMode][sp][at]` of real components. -/
def remapToCells (sup : vector3 ℤ) (nAtpos : ℕ → ℕ) (modes : List Mode)
    (dgrad : ℕ → ℕ → ℤ → vector3 R) (cellMap : List (vector3 ℤ × R)) : ℕ → matrix K :=
  fun iCell iMode1 iMode2 =>
    if iCell < cellMap.length ∧ iMode1 < modes.length ∧ iMode2 < modes.length then
      let mode2 := modes.getD iMode2 ⟨0, 0, 0⟩
      let cellOffsetSp : ℤ := cellIndex sup (cellKey cellMap iCell) * (nAtpos mode2.sp : ℤ)
      algebraMap R K
        (cellWeight cellMap iCell *
          dgrad iMode1 mode2.sp ((mode2.atom : ℤ) + cellOffsetSp) (Fin.ofNat mode2.dir))
    else 0

/-- The construction of the frequency-squared matrices in `Phonon::dump` after the mass
weighting (Phonon.cpp lines 242-299): cell mapping, Hermitization, sum-rule correction. -/
def assembleOmegaSq (sup : vector3 ℤ) (nAtpos : ℕ → ℕ) (mass : ℕ → R) (modes : List Mode)
    (dgrad : ℕ → ℕ → ℤ → vector3 R) (cellMap : List (vector3 ℤ × R)) :
    Except String (ℕ → matrix K) :=
  match enforceHermiticity cellMap (remapToCells sup nAtpos modes dgrad cellMap) with
  | Except.ok omegaSq =>
    Except.ok (enforceTranslationalInvariance (sup 0 * sup 1 * sup 2) mass modes cellMap omegaSq)
  | Except.error msg => Except.error msg

end Dump

/-! ### `Phonon::setup`: state map -/

/-- The class `Phonon::StateMapEntry`: supercell state `qSup`, Bloch offset `iG`, ordinal
`nqPrev` and the index array (`nIndices` is the length of `index`). -/
structure StateMapEntry where
  /-- Index of the supercell state the unit-cell state folds into. -/
  qSup : ℕ
  /-- Integer offset of the Bloch phase. -/
  iG : vector3 ℤ
  /-- Number of earlier unit-cell states mapped to the same `qSup`. -/
  nqPrev : ℕ
  /-- Map from unit-cell to supercell plane-wave indices. -/
  index : List ℤ

/-- Body of the loop "Map states" of `Phonon::setup` (Phonon.cpp lines 100-114) for the
unit-cell state `q`.  `plookFind q` is the result of `plook.find(kSup, qnum, ...)` for that
state (`none` for `string::npos`) and `iGround q qSup` the rounded difference
`round(kSup - eSup.eInfo.qnums[qSup].k)`.  The state is `(stateMap, nqPrev)`;
`stateMap.push_back` writes position `q`. -/
def mapStatesStep (plookFind : ℕ → Option ℕ) (iGround : ℕ → ℕ → vector3 ℤ)
    (st : Except String ((ℕ → StateMapEntry) × (ℕ → ℕ))) (q : ℕ) :
    Except String ((ℕ → StateMapEntry) × (ℕ → ℕ)) :=
  match st with
  | Except.error msg => Except.error msg
  | Except.ok (stateMap, nqPrev) =>
    match plookFind q with
    | none => Except.error "assert(qSup != string::npos)"
    | some qSup =>
      Except.ok (Function.update stateMap q ⟨qSup, iGround q qSup, nqPrev qSup, []⟩,
        Function.update nqPrev qSup (nqPrev qSup + 1))

/-- The loop "Map states" alone (Phonon.cpp lines 99-114), started with an empty `stateMap`
and `nqPrev` zero everywhere. -/
def mapStatesLoop (nStates : ℕ) (plookFind : ℕ → Option ℕ) (iGround : ℕ → ℕ → vector3 ℤ) :
    Except String ((ℕ → StateMapEntry) × (ℕ → ℕ)) :=
  (List.range nStates).foldl (mapStatesStep plookFind iGround)
    (Except.ok (fun _ => ⟨0, 0, 0, []⟩, fun _ => 0))

/-- The state-mapping part of `Phonon::setup` (Phonon.cpp lines 97-115): the loop followed by
`for(int nq: nqPrev) assert(nq == prodSup)`; `nSup` is `eSup.eInfo.qnums.size()`. -/
def mapStates (nStates nSup : ℕ) (prodSup : ℤ) (plookFind : ℕ → Option ℕ)
    (iGround : ℕ → ℕ → vector3 ℤ) : Except String (ℕ → StateMapEntry) :=
  match mapStatesLoop nStates plookFind iGround with
  | Except.error msg => Except.error msg
  | Except.ok (stateMap, nqPrev) =>
    if ∀ qSup, qSup < nSup → (nqPrev qSup : ℤ) = prodSup then Except.ok stateMap
    else Except.error "assert(nq == prodSup)"

/-- Number of unit-cell states `q < k` whose lookup returns the supercell state `qSup`. -/
def lookupCount (plookFind : ℕ → Option ℕ) (k qSup : ℕ) : ℕ :=
  ((Finset.range k).filter (fun q => plookFind q = some qSup)).card

/-- Number of unit-cell states `q < nStates` that the state map sends to `qSup`. -/
def contributors (stateMap : ℕ → StateMapEntry) (nStates qSup : ℕ) : ℕ :=
  ((Finset.range nStates).filter (fun q => (stateMap q).qSup = qSup)).card

/-- The assignment `eSup.eInfo.nBands = e.eInfo.nBands * prodSup` (Phonon.cpp line 92). -/
def supNBands (nBands : ℤ) (prodSup : ℤ) : ℤ := nBands * prodSup

/-! ### `Phonon::setup`: plane-wave index maps -/

/-- The function `dot` on `vector3<int>`. -/
def dot (a b : vector3 ℤ) : ℤ := a 0 * b 0 + a 1 * b 1 + a 2 * b 2

/-- The vector `pitch` of the lookup table built from `iGbox` (Phonon.cpp lines 123-126). -/
def pitchOf (iGbox : vector3 ℤ) : vector3 ℤ :=
  let p2 : ℤ := 1
  let p1 : ℤ := p2 * (2 * iGbox 2 + 1)
  let p0 : ℤ := p1 * (2 * iGbox 1 + 1)
  ![p0, p1, p2]

/-- The table slot `dot(pitch, v + iGbox)` of the integer vector `v`. -/
def slotOf (iGbox v : vector3 ℤ) : ℤ := dot (pitchOf iGbox) (v + iGbox)

/-- The lookup table `supIndex` (Phonon.cpp lines 127-130): every slot starts at `-1`, then
slot `dot(pitch, basisSup.iGarr[n] + iGbox)` receives `n` for `n = 0, 1, ...`.  Slots are
addressed by integers; the C++ vector has the slots `0 .. pitch[0]*(2*iGbox[0]+1) - 1`. -/
def supIndexTable (iGbox : vector3 ℤ) (iGarrSup : List (vector3 ℤ)) : ℤ → ℤ :=
  (List.range iGarrSup.length).foldl
    (fun supIndex n => Function.update supIndex (slotOf iGbox (iGarrSup.getD n 0)) (n : ℤ))
    (fun _ => -1)

/-- The image `iGsup` of the unit-cell plane wave `v` in supercell reciprocal coordinates
(Phonon.cpp lines 136-138): scaled by `sup`, then offset by `iG`. -/
def iGsupOf (sup iG v : vector3 ℤ) : vector3 ℤ := fun j => v j * sup j + iG j

/-- The vector `indexVec` of one unit-cell state (Phonon.cpp lines 134-140): `iGarrSup` is
`basisSup.iGarr`, `iGarr` is `basis.iGarr`, `iG` is `stateMap[q]->iG`. -/
def indexVecOf (sup iGbox : vector3 ℤ) (iGarrSup iGarr : List (vector3 ℤ)) (iG : vector3 ℤ) :
    List ℤ :=
  (List.range iGarr.length).map
    (fun n => supIndexTable iGbox iGarrSup (slotOf iGbox (iGsupOf sup iG (iGarr.getD n 0))))

/-- The method `StateMapEntry::setIndex`. -/
def setIndex (sme : StateMapEntry) (indexVec : List ℤ) : StateMapEntry :=
  { sme with index := indexVec }

/-- Body of the loop over unit-cell states inside "Map corresponding basis objects"
(Phonon.cpp lines 132-143) for the pair `p = (qSup, q)`; `basisSup qSup` and `basis q` are the
arrays `iGarr` of the two bases. -/
def mapBasisStep (sup iGbox : vector3 ℤ) (basisSup basis : ℕ → List (vector3 ℤ))
    (st : Except String (ℕ → StateMapEntry)) (p : ℕ × ℕ) : Except String (ℕ → StateMapEntry) :=
  match st with
  | Except.error msg => Except.error msg
  | Except.ok stateMap =>
    if (stateMap p.2).qSup = p.1 then
      let indexVec := indexVecOf sup iGbox (basisSup p.1) (basis p.2) (stateMap p.2).iG
      if ∀ x ∈ indexVec, 0 ≤ x then
        Except.ok (Function.update stateMap p.2 (setIndex (stateMap p.2) indexVec))
      else Except.error "assert(*std::min_element(indexVec.begin(), indexVec.end()) >= 0)"
    else Except.ok stateMap

/-- The part "Map corresponding basis objects" of `Phonon::setup` (Phonon.cpp lines 117-144):
for every owned supercell state `qSup` in `[qStart, qStop)`, for every unit-cell state
`q < nStates`. -/
def mapBasis (qStart qStop nStates : ℕ) (sup iGbox : vector3 ℤ)
    (basisSup basis : ℕ → List (vector3 ℤ)) (stateMap : ℕ → StateMapEntry) :
    Except String (ℕ → StateMapEntry) :=
  (List.range' qStart (qStop - qStart)).foldl
    (fun st qSup => (List.range nStates).foldl
      (fun st q => mapBasisStep sup iGbox basisSup basis st (qSup, q)) st)
    (Except.ok stateMap)

/-- Membership of an integer vector in the box `-iGbox[j] <= v[j] <= iGbox[j]`. -/
def inBox (iGbox v : vector3 ℤ) : Prop := ∀ j, -iGbox j ≤ v j ∧ v j ≤ iGbox j

instance (iGbox v : vector3 ℤ) : Decidable (inBox iGbox v) := by
  unfold inBox
  infer_instance

/-! ### `Phonon::setSupState` -/

/-- The values of `ElecInfo::fillingsUpdate`. -/
inductive FillingsUpdate where
  | ConstantFillings
  | FermiFillingsMu
  | FermiFillingsAux
deriving DecidableEq, Repr

/-- The class `ColumnBundle`: the coefficient of a band (column) at a position inside the
column; position `s*nbasis + n` is plane wave `n` of spinor component `s`.  The pointer
`data + index(b, off)` advanced by `k` addresses position `off + k` of column `b`. -/
abbrev ColumnBundle (K : Type) := ℕ → ℤ → K

section SetSupState

variable {R K : Type} [Field R] [StarRing R] [TrivialStar R]
  [Field K] [StarRing K] [Algebra R K] [StarModule R K]

/-- The part of `eSup.eVars` written by `Phonon::setSupState`, per supercell state:
orbitals `C`, the copy `Y`, fillings `F` (a `diagMatrix`), auxiliary matrices `B`, and the
flag `HauxInitialized`. -/
structure SupVars (R K : Type) where
  /-- Orbitals `eSup.eVars.C`. -/
  C : ℕ → ColumnBundle K
  /-- Independent variables `eSup.eVars.Y`. -/
  Y : ℕ → ColumnBundle K
  /-- Fillings `eSup.eVars.F`. -/
  F : ℕ → ℕ → R
  /-- Auxiliary Hamiltonians `eSup.eVars.B`. -/
  B : ℕ → matrix K
  /-- Flag `eSup.eVars.HauxInitialized`. -/
  HauxInitialized : Bool

/-- Everything `Phonon::setSupState` reads and does not write: the unit-cell state
(`e.eInfo`, `e.eVars`, `e.basis`), the ownership range of the supercell states, the supercell
basis sizes, the state map, and `scaleFac = 1./sqrt(sup[0]*sup[1]*sup[2])`. -/
structure SynthInput (R K : Type) where
  /-- Range start `eSup.eInfo.qStart`. -/
  qStart : ℕ
  /-- Range end `eSup.eInfo.qStop`. -/
  qStop : ℕ
  /-- Count `e.eInfo.nStates`. -/
  nStates : ℕ
  /-- Count `e.eInfo.nBands`. -/
  nBands : ℕ
  /-- Value of `e.eInfo.spinorLength()`. -/
  nSpinor : ℕ
  /-- Setting `e.eInfo.fillingsUpdate`. -/
  fillingsUpdate : FillingsUpdate
  /-- Factor `scaleFac`. -/
  scaleFac : R
  /-- The state map built by setup. -/
  stateMap : ℕ → StateMapEntry
  /-- Size `e.basis[q].nbasis`. -/
  nbasis : ℕ → ℕ
  /-- Size `eSup.basis[qSup].nbasis`. -/
  nbasisSup : ℕ → ℕ
  /-- Orbitals `e.eVars.C`. -/
  C : ℕ → ColumnBundle K
  /-- Fillings `e.eVars.F`. -/
  F : ℕ → ℕ → R
  /-- Auxiliary Hamiltonians `e.eVars.B`. -/
  B : ℕ → matrix K

/-- The method `ElecInfo::isMine` of the supercell: `qStart <= q < qStop`. -/
def SynthInput.isMine (inp : SynthInput R K) (q : ℕ) : Prop := inp.qStart ≤ q ∧ q < inp.qStop

instance (inp : SynthInput R K) (q : ℕ) : Decidable (inp.isMine q) := by
  unfold SynthInput.isMine
  infer_instance

/-- The test `e.eInfo.fillingsUpdate==ElecInfo::FermiFillingsAux`. -/
def SynthInput.aux (inp : SynthInput R K) : Bool :=
  decide (inp.fillingsUpdate = FillingsUpdate.FermiFillingsAux)

/-- The routine `eblas_scatter_zdaxpy(N, a, index, x, y)`: `y[index[i]] += a*x[i]` for
`i < N`, with `N = index.length`; `y` is the column `col` entered at position `off`. -/
def eblas_scatter_zdaxpy (index : List ℤ) (a : R) (x : ℕ → K) (off : ℤ) (col : ℤ → K) :
    ℤ → K :=
  (List.range index.length).foldl
    (fun col i => Function.update col (off + index.getD i 0)
      (col (off + index.getD i 0) + a • x i))
    col

/-- The method `diagMatrix::set(iStart, iStop, m)`. -/
def diagMatrix_set (d : ℕ → R) (iStart iStop : ℕ) (m : ℕ → R) : ℕ → R :=
  fun k => if iStart ≤ k ∧ k < iStop then m (k - iStart) else d k

/-- The loops over bands `b` and spinor components `s` of `Phonon::setSupState`
(Phonon.cpp lines 341-345) for the unit-cell state `q`, acting on `Csup = eSup.eVars.C[qSup]`. -/
def scatterState (inp : SynthInput R K) (q : ℕ) (Csup : ColumnBundle K) : ColumnBundle K :=
  (List.range inp.nBands).foldl
    (fun Cs b => (List.range inp.nSpinor).foldl
      (fun Cs s => Function.update Cs (b + inp.nBands * (inp.stateMap q).nqPrev)
        (eblas_scatter_zdaxpy (inp.stateMap q).index inp.scaleFac
          (fun i => inp.C q b ((s * inp.nbasis q + i : ℕ) : ℤ))
          ((s * inp.nbasisSup (inp.stateMap q).qSup : ℕ) : ℤ)
          (Cs (b + inp.nBands * (inp.stateMap q).nqPrev))))
      Cs)
    Csup

/-- The first loop of `Phonon::setSupState` (Phonon.cpp lines 326-330): zero the orbitals of
the owned supercell states, and their auxiliary matrices in the `FermiFillingsAux` mode. -/
def zeroOwned (inp : SynthInput R K) (v : SupVars R K) : SupVars R K :=
  (List.range' inp.qStart (inp.qStop - inp.qStart)).foldl
    (fun v qSup =>
      { v with
        C := Function.update v.C qSup (fun _ _ => 0)
        B := if inp.aux then Function.update v.B qSup 0 else v.B })
    v

/-- Body of the second loop of `Phonon::setSupState` (Phonon.cpp lines 335-356) for the
unit-cell state `q`. -/
def setSupStateStep (inp : SynthInput R K) (v : SupVars R K) (q : ℕ) : SupVars R K :=
  if inp.isMine (inp.stateMap q).qSup then
    let nBandsPrev := inp.nBands * (inp.stateMap q).nqPrev
    let qSup := (inp.stateMap q).qSup
    { v with
      C := Function.update v.C qSup (scatterState inp q (v.C qSup))
      F := Function.update v.F qSup
        (diagMatrix_set (v.F qSup) nBandsPrev (nBandsPrev + inp.nBands) (inp.F q))
      B := if inp.aux then
          Function.update v.B qSup
            (matrix_set (v.B qSup) nBandsPrev (nBandsPrev + inp.nBands)
              nBandsPrev (nBandsPrev + inp.nBands) (inp.B q))
        else v.B }
  else v

/-- The third loop of `Phonon::setSupState` (Phonon.cpp lines 359-362), restricted to the
assignment `Y[qSup] = C[qSup]`. -/
def copyToY (inp : SynthInput R K) (v : SupVars R K) : SupVars R K :=
  (List.range' inp.qStart (inp.qStop - inp.qStart)).foldl
    (fun v qSup => { v with Y := Function.update v.Y qSup (v.C qSup) })
    v

/-- The function `Phonon::setSupState` (Phonon.cpp lines 323-370) on the variables `C`, `Y`,
`F`, `B` and `HauxInitialized` of the supercell.  The projections `VdagC` and the energies
written by `updateFillingsEnergies` are computed from these by code outside this file and are
not part of the embedded state. -/
def setSupState (inp : SynthInput R K) (v : SupVars R K) : SupVars R K :=
  let v1 := zeroOwned inp v
  let v2 := (List.range inp.nStates).foldl (setSupStateStep inp) v1
  let v3 := copyToY inp v2
  { v3 with HauxInitialized := if inp.aux then true else v3.HauxInitialized }

/-- Total amount that the scatter of the unit-cell state `q` adds to the coefficient at band
`B` and position `t` of its supercell state: one term `scaleFac * C[q](b, s*nbasis + i)` for
every `(b, s, i)` whose destination is `(B, t)`. -/
def contribution (inp : SynthInput R K) (q B : ℕ) (t : ℤ) : K :=
  ∑ b in Finset.range inp.nBands, ∑ s in Finset.range inp.nSpinor,
    if B = b + inp.nBands * (inp.stateMap q).nqPrev then
      ∑ i in Finset.range (inp.stateMap q).index.length,
        if ((s * inp.nbasisSup (inp.stateMap q).qSup : ℕ) : ℤ)
            + (inp.stateMap q).index.getD i 0 = t
        then inp.scaleFac • inp.C q b ((s * inp.nbasis q + i : ℕ) : ℤ) else 0
    else 0

/-- The properties of the state map that `Phonon::setup` establishes for the unit-cell
states folding into owned supercell states: the index array has one entry per unit-cell
plane wave, its entries are indices of the supercell basis, distinct plane waves have distinct
entries, and different states of the same supercell state have different ordinals. -/
def SynthInput.wellFormed (inp : SynthInput R K) : Prop :=
  (∀ q, q < inp.nStates → inp.isMine (inp.stateMap q).qSup →
    (inp.stateMap q).index.length = inp.nbasis q) ∧
  (∀ q i, q < inp.nStates → inp.isMine (inp.stateMap q).qSup → i < inp.nbasis q →
    0 ≤ (inp.stateMap q).index.getD i 0 ∧
    (inp.stateMap q).index.getD i 0 < (inp.nbasisSup (inp.stateMap q).qSup : ℤ)) ∧
  (∀ q i j, q < inp.nStates → inp.isMine (inp.stateMap q).qSup → i < inp.nbasis q →
    j < inp.nbasis q →
    (inp.stateMap q).index.getD i 0 = (inp.stateMap q).index.getD j 0 → i = j) ∧
  (∀ q q', q < inp.nStates → q' < inp.nStates → q ≠ q' →
    (inp.stateMap q).qSup = (inp.stateMap q').qSup →
    (inp.stateMap q).nqPrev ≠ (inp.stateMap q').nqPrev)

/-- Sum of the squared magnitudes of the coefficients of one band of a `ColumnBundle` with
`nSpinor` spinor components of `nbasis` plane waves. -/
def normSq (nSpinor nbasis : ℕ) (col : ℤ → K) : K :=
  ∑ s in Finset.range nSpinor, ∑ n in Finset.range nbasis,
    star (col ((s * nbasis + n : ℕ) : ℤ)) * col ((s * nbasis + n : ℕ) : ℤ)

end SetSupState

/-! ### Concrete inputs used by the examples -/

/-- Replication counts `sup = (2,1,1)`. -/
def exSup : vector3 ℤ := ![2, 1, 1]

/-- A cell map for `sup = (2,1,1)`: offsets `(-1,0,0)`, `(0,0,0)`, `(1,0,0)` in map order, with
weights 1/2, 1, 1/2 (sum `prod(sup) = 2`). -/
def exCellMap : List (vector3 ℤ × ℚ) :=
  [(![-1, 0, 0], 1 / 2), (![0, 0, 0], 1), (![1, 0, 0], 1 / 2)]

/-- Blocks before Hermitization: cell 2 has the single entry 1 at (0,0), the others are zero. -/
def exBlocks : ℕ → matrix ℚ :=
  fun iCell i j => if iCell = 2 ∧ i = 0 ∧ j = 0 then 1 else 0

/-- The mode list of one species with two atoms: `(0,0,dir)` then `(0,1,dir)`, `dir = 0,1,2`. -/
def exModes2 : List Mode := [⟨0, 0, 0⟩, ⟨0, 0, 1⟩, ⟨0, 0, 2⟩, ⟨0, 1, 0⟩, ⟨0, 1, 1⟩, ⟨0, 1, 2⟩]

/-- The mode list of one species with one atom. -/
def exModes1 : List Mode := [⟨0, 0, 0⟩, ⟨0, 0, 1⟩, ⟨0, 0, 2⟩]

/-- The cell map of a supercell equal to the unit cell: the single offset 0 with weight 1. -/
def exCellMapOne : List (vector3 ℤ × ℚ) := [(![0, 0, 0], 1)]

/-- Force derivatives of two atoms: mode 0 gives `1` on atom 0 along x, mode 3 gives `3` on
atom 1 along x, everything else vanishes. -/
def exDgrad2 : ℕ → ℕ → ℤ → vector3 ℚ :=
  fun iMode sp a dir =>
    if iMode = 0 ∧ sp = 0 ∧ a = 0 ∧ dir = 0 then 1
    else if iMode = 3 ∧ sp = 0 ∧ a = 1 ∧ dir = 0 then 3 else 0

/-- Force derivatives of one atom: mode 0 gives `1` on atom 0 (home cell) along x. -/
def exDgrad1 : ℕ → ℕ → ℤ → vector3 ℚ :=
  fun iMode sp a dir => if iMode = 0 ∧ sp = 0 ∧ a = 0 ∧ dir = 0 then 1 else 0

/-- A cell map for `sup = (2,1,1)` closed under negation whose weights differ between
`(-1,0,0)` and `(1,0,0)`: 1/4, 1, 3/4 (sum `prod(sup) = 2`). -/
def exCellMapSkew : List (vector3 ℤ × ℚ) :=
  [(![-1, 0, 0], 1 / 4), (![0, 0, 0], 1), (![1, 0, 0], 3 / 4)]

/-- Lookup of the two unit-cell k-points `(0,0,0)`, `(1/2,0,0)` for `sup = (2,1,1)`: both fold
onto the supercell zone centre (index 0); further states are not found. -/
def exFind : ℕ → Option ℕ := fun q => if q < 2 then some 0 else none

/-- Rounded offsets of the two k-points: `(0,0,0)` and `(1,0,0)`. -/
def exIGround : ℕ → ℕ → vector3 ℤ := fun q _ => ![(q : ℤ), 0, 0]

/-- The state map of the two example states: both fold onto supercell state 0, with offsets
`(0,0,0)`, `(1,0,0)` and ordinals 0, 1. -/
def exStateMap : ℕ → StateMapEntry := fun q => ⟨0, ![(q : ℤ), 0, 0], q, []⟩

/-- Bounding box of the supercell plane waves in the example. -/
def exBox : vector3 ℤ := ![2, 1, 1]

/-- Plane waves of the supercell state in the example. -/
def exBasisSup : ℕ → List (vector3 ℤ) :=
  fun _ => [![0, 0, 0], ![1, 0, 0], ![-1, 0, 0], ![2, 0, 0], ![-2, 0, 0]]

/-- Plane waves of the two unit-cell states: three for state 0, two for state 1. -/
def exBasis : ℕ → List (vector3 ℤ) :=
  fun q => if q = 0 then [![0, 0, 0], ![1, 0, 0], ![-1, 0, 0]] else [![0, 0, 0], ![-1, 0, 0]]

/-- Synthesis input for `sup = (2,2,1)` (`prod(sup) = 4`, `scaleFac = 1/sqrt(4) = 1/2`): four
unit-cell states with one band, one spinor component and the single plane wave `(0,0,0)` of
coefficient 1 (unit norm); state `q` folds onto the owned supercell state 0 with ordinal `q`,
and its plane wave lands on supercell plane wave `q` of four. -/
def exSynth : SynthInput ℚ ℚ where
  qStart := 0
  qStop := 1
  nStates := 4
  nBands := 1
  nSpinor := 1
  fillingsUpdate := FillingsUpdate.FermiFillingsAux
  scaleFac := 1 / 2
  stateMap := fun q => ⟨0, ![(q % 2 : ℕ), (q / 2 : ℕ), 0], q, [(q : ℤ)]⟩
  nbasis := fun _ => 1
  nbasisSup := fun _ => 4
  C := fun _ b t => if b = 0 ∧ t = 0 then 1 else 0
  F := fun _ _ => 2
  B := fun _ => 0

/-- A supercell state before synthesis, with arbitrary (non-zero) content. -/
def exSupVars : SupVars ℚ ℚ where
  C := fun _ _ _ => 7
  Y := fun _ _ _ => 7
  F := fun _ _ => 7
  B := fun _ _ _ => 7
  HauxInitialized := false

/-- A cell map lacking the negative of its second offset. -/
def exCellMapOpen : List (vector3 ℤ × ℚ) := [(![0, 0, 0], 1), (![1, 0, 0], 1)]

end Phonon

/-! ## `Phonon::setup`: checks of the input and replication of the atoms -/

namespace Phonon

/-- The method `vector3<T>::length_squared` for any scalar type (used for the k-point
coordinates, `vector3<double>`). -/
def vector3.length_squared {α : Type} [Add α] [Mul α] (v : vector3 α) : α :=
  v 0 * v 0 + v 1 * v 1 + v 2 * v 2

/-- The enumeration of the symmetry settings `e.symm.mode`.  `Phonon::setup` compares the mode
with `SymmetriesNone` only; the other two values stand for any enabled symmetry mode. -/
inductive SymmetryMode
  | SymmetriesNone
  | SymmetriesAutomatic
  | SymmetriesManual
deriving DecidableEq, Repr

/-- The ways in which the checks of `Phonon::setup` (Phonon.cpp lines 37-56) end the run: the
four calls of `die`, and the two operations that C++ leaves undefined (element 0 of an empty
`qnums`, and `%` with a zero divisor or with `INT_MIN % -1`). -/
inductive SetupError
  /-- Line 39: "phonon supercell must be specified using the phonon command." -/
  | supercellUnspecified
  /-- Line 46: "phonon does not support symmetries." -/
  | symmetriesUnsupported
  /-- Line 49: "phonon requires a Gamma-centered uniform kpoint mesh." -/
  | notGammaCentered
  /-- Line 52: "kpoint folding %d is not a multiple of supercell count %d for lattice
  direction %d.", with the three values printed. -/
  | kfoldNotMultiple (kfold sup : ℤ) (j : Fin 3)
  /-- Line 48: `qnums[0]` of an empty vector. -/
  | undefinedQnums
  /-- Line 51: `kfold[j] % sup[j]` is undefined. -/
  | undefinedModulo (j : Fin 3)
deriving DecidableEq, Repr

/-- The errors raised by a call of `die` (a fatal error with a message, `exit(1)`). -/
def SetupError.isDie : SetupError → Bool
  | .supercellUnspecified => true
  | .symmetriesUnsupported => true
  | .notGammaCentered => true
  | .kfoldNotMultiple _ _ _ => true
  | .undefinedQnums => false
  | .undefinedModulo _ => false

/-- Body of the loop over the lattice directions (Phonon.cpp lines 50-56) for direction `j`;
the state is `eSup.eInfo.kfold`.  `%` and `/` on `int` truncate towards zero. -/
def kfoldStep (sup kfold : vector3 ℤ) (st : Except SetupError (vector3 ℤ)) (j : Fin 3) :
    Except SetupError (vector3 ℤ) :=
  match st with
  | .error err => .error err
  | .ok kfoldSup =>
    if sup j = 0 ∨ (kfold j = -2147483648 ∧ sup j = -1) then .error (.undefinedModulo j)
    else if Int.tmod (kfold j) (sup j) ≠ 0 then
      .error (.kfoldNotMultiple (kfold j) (sup j) j)
    else .ok (Function.update kfoldSup j (Int.tdiv (kfold j) (sup j)))

/-- The checks at the head of `Phonon::setup` (Phonon.cpp lines 37-56).  `qnums` lists the
coordinates `k` of the k-points `e.eInfo.qnums`, `kfold` is `e.eInfo.kfold` and `kfoldSup0`
the value of `eSup.eInfo.kfold` before the call; the result is `eSup.eInfo.kfold` after the
loop.  `!sup.length()` holds exactly when `sup.length_squared()` is zero. -/
def setupChecks {R : Type} [Zero R] [Add R] [Mul R] [DecidableEq R] (sup : vector3 ℤ)
    (symmMode : SymmetryMode) (qnums : List (vector3 R)) (kfold kfoldSup0 : vector3 ℤ) :
    Except SetupError (vector3 ℤ) :=
  if length_squared sup = 0 then .error .supercellUnspecified
  else if symmMode ≠ .SymmetriesNone then .error .symmetriesUnsupported
  else if 1 < qnums.length then .error .notGammaCentered
  else
    match qnums.head? with
    | none => .error .undefinedQnums
    | some k =>
      if vector3.length_squared k ≠ 0 then .error .notGammaCentered
      else ([0, 1, 2] : List (Fin 3)).foldl (kfoldStep sup kfold) (.ok kfoldSup0)

/-- The sum `pos + iR` of a `vector3<double>` and a `vector3<int>`. -/
def addOffset {R : Type} [Ring R] (pos : vector3 R) (iR : vector3 ℤ) : vector3 R :=
  fun j => pos j + (iR j : R)

/-- The offset `iR` of the loop counters `(iR[0], iR[1], iR[2])`. -/
def offsetOf (i0 i1 i2 : ℕ) : vector3 ℤ := ![(i0 : ℤ), (i1 : ℤ), (i2 : ℤ)]

/-- The loop "Replicate atoms" of `Phonon::setup` (Phonon.cpp lines 76-81) for one species:
`atpos` is cleared and receives, by `push_back`, `invSup * (pos + iR)` for `iR[0]` (outermost),
`iR[1]`, `iR[2]` running from 0 below `sup[j]` and `pos` (innermost) running over the unit-cell
positions.  `invSup` is the value of `inv(Diag(vector3<>(sup)))`. -/
def replicateAtoms {R : Type} [Ring R] (sup : vector3 ℤ) (invSup : Matrix (Fin 3) (Fin 3) R)
    (atpos : List (vector3 R)) : List (vector3 R) :=
  (List.range (sup 0).toNat).foldl (fun acc0 i0 =>
    (List.range (sup 1).toNat).foldl (fun acc1 i1 =>
      (List.range (sup 2).toNat).foldl (fun acc2 i2 =>
        atpos.foldl (fun acc pos =>
          acc ++ [invSup.mulVec (addOffset pos (offsetOf i0 i1 i2))]) acc2) acc1) acc0) []

/-- Position in the supercell list `atpos` of the image of unit-cell atom `a` (of `n`) in the
cell with counters `(i0, i1, i2)`: `cellIndex * n + a` with
`cellIndex = (i0*sup[1] + i1)*sup[2] + i2`. -/
def imageIndex (sup : vector3 ℤ) (n i0 i1 i2 a : ℕ) : ℕ :=
  ((i0 * (sup 1).toNat + i1) * (sup 2).toNat + i2) * n + a

/-- The k-point list of a Gamma-only run. -/
def exQnumsGamma : List (vector3 ℚ) := [![0, 0, 0]]

/-- A k-point list with the single k-point `(1/2, 0, 0)`. -/
def exQnumsShifted : List (vector3 ℚ) := [![1 / 2, 0, 0]]

/-- Replication counts with negative components, `sup = (-2,-1,1)`. -/
def exSupNegative : vector3 ℤ := ![-2, -1, 1]

/-- Unit-cell positions of a species with two atoms. -/
def exAtpos : List (vector3 ℚ) := [![0, 0, 0], ![1 / 2, 1 / 2, 1 / 2]]

/-- The matrix `inv(Diag(sup))` for `sup = (2,1,1)`: the diagonal matrix of `1/2, 1, 1`. -/
def exInvSup : Matrix (Fin 3) (Fin 3) ℚ := Matrix.diagonal ![1 / 2, 1, 1]

end Phonon

/-! ## `Phonon::dump`: the displacement loop and the output files -/

namespace Phonon

/-- The calls that `Phonon::dump` makes on the supercell between lines 189 and 229, in the
order of execution.  A `step` records its arguments and the value that
`eSup.cntrl.dragWavefunctions` has when the call is made. -/
inductive DumpEvent (R : Type)
  /-- A call of `setSupState()`. -/
  | setSupState
  /-- A call of `imin.compute(&grad)`: energy and forces at the current geometry. -/
  | compute
  /-- A call of `getHsub()`. -/
  | getHsub
  /-- A call of `imin.step(dir, alpha)`. -/
  | step (dir : ℕ → ℕ → vector3 R) (alpha : R) (dragWavefunctions : Bool)

/-- The four kinds of calls, without their arguments. -/
inductive EventKind
  | setSupState
  | compute
  | getHsub
  | step
deriving DecidableEq, Repr

/-- The kind of a call. -/
def DumpEvent.kind {R : Type} : DumpEvent R → EventKind
  | .setSupState => .setSupState
  | .compute => .compute
  | .getHsub => .getHsub
  | .step _ _ _ => .step

/-- The settings `eSup.cntrl`: the flag `dragWavefunctions` and, in `rest`, every other
setting. -/
structure Control (C : Type) where
  /-- The flag `dragWavefunctions`. -/
  dragWavefunctions : Bool
  /-- All other settings. -/
  rest : C

/-- The part of the supercell that the displacement loop acts on: the atomic positions
`eSup.iInfo.species[sp]->atpos[at]`, the settings `eSup.cntrl` and the calls made so far. -/
structure DumpState (R C : Type) where
  /-- Atomic positions by species and atom. -/
  atpos : ℕ → ℕ → vector3 R
  /-- The settings `eSup.cntrl`. -/
  cntrl : Control C
  /-- The calls made so far, oldest first. -/
  log : List (DumpEvent R)

/-- The value of `dir` after `dir.init(eSup.iInfo)` (zeroes) and
`dir[mode.sp][mode.at][mode.dir] = 1.` (Phonon.cpp lines 209-210). -/
def unitDirection {R : Type} [Zero R] [One R] (mode : Mode) : ℕ → ℕ → vector3 R :=
  fun sp a d => if sp = mode.sp ∧ a = mode.atom ∧ d.val = mode.dir then 1 else 0

/-- Modelled from the spec: the call `imin.step(dir, alpha)` of `IonicMinimizer`, whose code
is not part of the sources at hand, adds `alpha * dir` to the atomic positions; it leaves
`eSup.cntrl` as it is. -/
def iminStep {R C : Type} [Add R] [Mul R] (st : DumpState R C) (dir : ℕ → ℕ → vector3 R)
    (alpha : R) : DumpState R C :=
  { st with
    atpos := fun sp a d => st.atpos sp a d + alpha * dir sp a d
    log := st.log ++ [DumpEvent.step dir alpha st.cntrl.dragWavefunctions] }

/-- The call `imin.compute(&grad)`: it evaluates energy and forces and moves no atom. -/
def iminCompute {R C : Type} (st : DumpState R C) : DumpState R C :=
  { st with log := st.log ++ [DumpEvent.compute] }

/-- The call `setSupState()`: it writes the electronic variables of the supercell only. -/
def callSetSupState {R C : Type} (st : DumpState R C) : DumpState R C :=
  { st with log := st.log ++ [DumpEvent.setSupState] }

/-- The call `getHsub()`, taken to return (its assertion passes). -/
def callGetHsub {R C : Type} (st : DumpState R C) : DumpState R C :=
  { st with log := st.log ++ [DumpEvent.getHsub] }

/-- Body of the loop over the modes of `Phonon::dump` (Phonon.cpp lines 206-228) as far as
it acts on the supercell; `dragWfns` is the local variable of lines 225-228, which holds the
earlier value of the flag between the two calls of `std::swap`. -/
def displaceMode {R C : Type} [Ring R] (dr : R) (st : DumpState R C) (mode : Mode) :
    DumpState R C :=
  let dir : ℕ → ℕ → vector3 R := unitDirection mode
  let st1 := iminStep st dir dr
  let st2 := iminCompute st1
  let st3 := callSetSupState st2
  let st4 := callGetHsub st3
  let dragWfns := st4.cntrl.dragWavefunctions
  let st5 : DumpState R C := { st4 with cntrl := { st4.cntrl with dragWavefunctions := false } }
  let st6 := iminStep st5 dir (-dr)
  { st6 with cntrl := { st6.cntrl with dragWavefunctions := dragWfns } }

/-- The loop over the modes of `Phonon::dump` (Phonon.cpp lines 205-229). -/
def displacementLoop {R C : Type} [Ring R] (dr : R) (modes : List Mode)
    (st : DumpState R C) : DumpState R C :=
  modes.foldl (displaceMode dr) st

/-- Lines 189-229 of `Phonon::dump`: the unperturbed calculation (`setSupState`,
`imin.compute`, `setSupState`, `getHsub`) followed by the loop over the modes. -/
def dumpDriver {R C : Type} [Ring R] (dr : R) (modes : List Mode) (st : DumpState R C) :
    DumpState R C :=
  let st1 := callSetSupState st
  let st2 := iminCompute st1
  let st3 := callSetSupState st2
  let st4 := callGetHsub st3
  displacementLoop dr modes st4

/-- The calls of one iteration of the loop over the modes, `flag` being the value of
`eSup.cntrl.dragWavefunctions` on entry. -/
def modeEvents {R : Type} [Ring R] (dr : R) (flag : Bool) (mode : Mode) : List (DumpEvent R) :=
  [DumpEvent.step (unitDirection mode) dr flag, DumpEvent.compute, DumpEvent.setSupState,
    DumpEvent.getHsub, DumpEvent.step (unitDirection mode) (-dr) false]

/-- In a sequence of calls, call number `i` is made on a freshly synthesized state: some
earlier call is `setSupState` and no `step` lies between the two. -/
def resynthesizedBefore (kinds : List EventKind) (i : ℕ) : Prop :=
  ∃ k, k < i ∧ kinds.getD k EventKind.step = EventKind.setSupState ∧
    ∀ m, k < m → m < i → kinds.getD m EventKind.step ≠ EventKind.step

/-! ### Output files -/

/-- The calls on the C streams in the block "write to file" of `Phonon::dump` (Phonon.cpp
lines 301-320).  A `FILE*` is `none` for the null pointer that a failed `fopen` returns. -/
inductive FileEvent (R : Type)
  /-- A call of `fopen(fname, "w")` for the named output. -/
  | fopen (name : String)
  /-- A call of `omegaSq[iCell].write_real(fp)`. -/
  | write_real (fp : Option ℕ) (iCell : ℕ)
  /-- A call of `fprintf(fp, "#species atom dx dy dz [bohrs]")`. -/
  | fprintfHeader (fp : Option ℕ)
  /-- A call of `fprintf(fp, "%s %d %lg %lg %lg\n", name, at, r[0], r[1], r[2])`. -/
  | fprintfMode (fp : Option ℕ) (name : String) (atom : ℕ) (r : vector3 R)
  /-- A call of `fclose(fp)`. -/
  | fclose (fp : Option ℕ)

/-- The block "write to file" of `Phonon::dump` (Phonon.cpp lines 301-320): the calls it makes,
in order.  `fpOmegaSq` and `fpBasis` are the results of the two calls of `fopen`, `nCells` is
`omegaSq.size()`, and `r` is the zero vector with `r[mode.dir] = invsqrtM[mode.sp]`. -/
def writeOutputs {R : Type} [Zero R] (isHead : Bool) (fpOmegaSq fpBasis : Option ℕ)
    (nCells : ℕ) (modes : List Mode) (speciesName : ℕ → String) (invsqrtM : ℕ → R) :
    List (FileEvent R) :=
  if isHead then
    [FileEvent.fopen "phononOmegaSq"]
      ++ (List.range nCells).map (fun iCell => FileEvent.write_real fpOmegaSq iCell)
      ++ [FileEvent.fclose fpOmegaSq]
      ++ [FileEvent.fopen "phononBasis", FileEvent.fprintfHeader fpBasis]
      ++ modes.map (fun mode => FileEvent.fprintfMode fpBasis (speciesName mode.sp) mode.atom
          (fun d => if d.val = mode.dir then invsqrtM mode.sp else 0))
      ++ [FileEvent.fclose fpBasis]
  else []

/-! ### Concrete inputs used by the examples -/

/-- A supercell before the displacement loop: all positions zero, wave-function drag on,
no call made yet. -/
def exDumpState : DumpState ℚ ℕ where
  atpos := fun _ _ _ => 0
  cntrl := ⟨true, 0⟩
  log := []

end Phonon

/-! ## `Phonon::dump`: mode list, mass weighting and the text of the basis file -/

namespace Phonon

/-- The loop "List of displacements" of `Phonon::dump` (Phonon.cpp lines 179-185): species
(outermost), atoms of the species, directions 0, 1, 2 (innermost), each pushing one `Mode`.
`nAtpos sp` is `e.iInfo.species[sp]->atpos.size()`. -/
def buildModes (nSpecies : ℕ) (nAtpos : ℕ → ℕ) : List Mode :=
  (List.range nSpecies).foldl (fun acc0 sp =>
    (List.range (nAtpos sp)).foldl (fun acc1 a =>
      (List.range 3).foldl (fun acc dir => acc ++ [(⟨sp, a, dir⟩ : Mode)]) acc1) acc0) []

/-- Number of unit-cell atoms in the species before `sp`. -/
def atomOffset (nAtpos : ℕ → ℕ) (sp : ℕ) : ℕ := ∑ s in Finset.range sp, nAtpos s

/-- The assignment `dgrad[iMode] = (grad - grad0) * (1./dr)` (Phonon.cpp line 215) for one
mode: `grad` and `grad0` are the forces at the displaced and the unperturbed geometry, by
species and supercell atom. -/
def finiteDifference {R : Type} [Field R] (grad grad0 : ℕ → ℤ → vector3 R) (dr : R) :
    ℕ → ℤ → vector3 R :=
  fun sp a d => (grad sp a d - grad0 sp a d) * (1 / dr)

/-- The entries of `invsqrtM` (Phonon.cpp lines 233-235): `1./sqrt(sp->mass * amu)` for each
species; `sqrt` is the square root of the C library and `amu` the constant of that name. -/
def invsqrtM {R : Type} [Field R] (sqrt : R → R) (amu : R) (mass : ℕ → R) : ℕ → R :=
  fun sp => 1 / sqrt (mass sp * amu)

/-- Body of the loop over the modes of the mass weighting (Phonon.cpp lines 237-241):
`dgrad[iMode] *= invsqrtM[modes[iMode].sp]` scales every force vector of the mode, then the
vectors of each species `sp` are scaled by `invsqrtM[sp]`. -/
def massWeightMode {R : Type} [Field R] (nSpecies : ℕ) (invsqrtM : ℕ → R) (modes : List Mode)
    (dgrad : ℕ → ℕ → ℤ → vector3 R) (iMode : ℕ) : ℕ → ℕ → ℤ → vector3 R :=
  let scaled : ℕ → ℤ → vector3 R :=
    fun sp a d => dgrad iMode sp a d * invsqrtM (modes.getD iMode ⟨0, 0, 0⟩).sp
  let weighted := (List.range nSpecies).foldl
    (fun (g : ℕ → ℤ → vector3 R) sp => Function.update g sp (fun a d => g sp a d * invsqrtM sp))
    scaled
  Function.update dgrad iMode weighted

/-- The mass weighting of `Phonon::dump` (Phonon.cpp lines 236-241). -/
def massWeight {R : Type} [Field R] (nSpecies : ℕ) (invsqrtM : ℕ → R) (modes : List Mode)
    (dgrad : ℕ → ℕ → ℤ → vector3 R) : ℕ → ℕ → ℤ → vector3 R :=
  (List.range modes.length).foldl (massWeightMode nSpecies invsqrtM modes) dgrad

/-- A piece of the text of the basis file: the header text, the fields of one mode
(species name, atom index, three numbers), or an end of line. -/
inductive TextPiece (R : Type)
  /-- The text `#species atom dx dy dz [bohrs]`. -/
  | header
  /-- The text of `%s %d %lg %lg %lg` for a species name, an atom index and a vector. -/
  | modeFields (name : String) (atom : ℕ) (r : vector3 R)
  /-- The character `\n`. -/
  | newline

/-- The text that a call writes to the basis file: the format string of line 313 has no
`\n`, the one of line 316 ends with `\n`. -/
def FileEvent.text {R : Type} : FileEvent R → List (TextPiece R)
  | .fprintfHeader _ => [TextPiece.header]
  | .fprintfMode _ name atom r => [TextPiece.modeFields name atom r, TextPiece.newline]
  | _ => []

/-- The text of the basis file: the pieces written by the calls, in order. -/
def basisText {R : Type} (events : List (FileEvent R)) : List (TextPiece R) :=
  events.flatMap FileEvent.text

/-- The lines of a text: the pieces between the ends of line (a last line without end of
line counts when it is not empty). -/
def textLines {R : Type} : List (TextPiece R) → List (List (TextPiece R))
  | [] => []
  | TextPiece.newline :: rest => [] :: textLines rest
  | TextPiece.header :: rest =>
    match textLines rest with
    | [] => [[TextPiece.header]]
    | line :: lines => (TextPiece.header :: line) :: lines
  | TextPiece.modeFields name atom r :: rest =>
    match textLines rest with
    | [] => [[TextPiece.modeFields name atom r]]
    | line :: lines => (TextPiece.modeFields name atom r :: line) :: lines

/-- The fields of the line of one mode: species name, atom index and the vector `r` with
`r[mode.dir] = invsqrtM[mode.sp]` and zero elsewhere. -/
def modeLine {R : Type} [Zero R] (speciesName : ℕ → String) (invsqrtM : ℕ → R) (mode : Mode) :
    TextPiece R :=
  TextPiece.modeFields (speciesName mode.sp) mode.atom
    (fun d => if d.val = mode.dir then invsqrtM mode.sp else 0)

/-- A matrix with real entries: every entry is the image of a real number, that is, it has
zero imaginary part. -/
def IsRealMatrix (R : Type) {K : Type} [CommSemiring R] [Semiring K] [Algebra R K]
    (M : matrix K) : Prop :=
  ∀ i j, ∃ r : R, M i j = algebraMap R K r

/-! ### Concrete inputs used by the examples -/

/-- Number of atoms of two species: two atoms, then one atom. -/
def exNAtpos : ℕ → ℕ := fun sp => if sp = 0 then 2 else 1

/-- Species names of the example. -/
def exSpeciesName : ℕ → String := fun sp => if sp = 0 then "Si" else "C"

/-- A square root on the masses of the example: `sqrt(4) = 2`, `sqrt(9) = 3`. -/
def exSqrt : ℚ → ℚ := fun x => if x = 4 then 2 else if x = 9 then 3 else 1

/-- Masses of the example (with `amu = 1`): 4 for species 0, 9 for species 1. -/
def exMass : ℕ → ℚ := fun sp => if sp = 0 then 4 else 9

end Phonon

/-! ## `Util.h`: the class `EnumStringMap` -/

namespace Util

/-- The class `EnumStringMap<Enum>` of `Util.h` (lines 136-166): the two members
`stringToEnum` and `enumToString`, each `std::map` being the function from its keys to the
value stored under the key (`none` for a key that is absent). -/
structure EnumStringMap (E : Type) where
  /-- The member `std::map<string,Enum> stringToEnum`. -/
  stringToEnum : String → Option E
  /-- The member `std::map<Enum,string> enumToString`. -/
  enumToString : E → Option String

/-- The member `addEntry(Enum e, const string& s, ...)` for one pair:
`stringToEnum[s]=e; enumToString[e]=s;`. -/
def EnumStringMap.addEntry {E : Type} [DecidableEq E] (m : EnumStringMap E) (e : E)
    (s : String) : EnumStringMap E :=
  ⟨Function.update m.stringToEnum s (some e), Function.update m.enumToString e (some s)⟩

/-- The constructor `EnumStringMap(enum1, string1, enum2, string2, ...)`: `addEntry` adds the
pairs from left to right to two empty maps. -/
def EnumStringMap.build {E : Type} [DecidableEq E] (pairs : List (E × String)) :
    EnumStringMap E :=
  pairs.foldl (fun m p => m.addEntry p.1 p.2) ⟨fun _ => none, fun _ => none⟩

/-- The member `getEnum(const char* key, Enum& e)`: the returned flag and the value of `e`
after the call. -/
def EnumStringMap.getEnum {E : Type} (m : EnumStringMap E) (key : String) (e : E) : Bool × E :=
  match m.stringToEnum key with
  | none => (false, e)
  | some v => (true, v)

/-- The member `getString(Enum e)`: `none` when `e` is absent, where the source dereferences
the end iterator. -/
def EnumStringMap.getString {E : Type} (m : EnumStringMap E) (e : E) : Option String :=
  m.enumToString e

/-- Three pairs of an enumeration of numbers and their names. -/
def exPairs : List (ℕ × String) := [(0, "None"), (1, "Automatic"), (2, "Manual")]

end Util

/-! ## `DataMultiplet.h`: arithmetic operators -/

namespace DataMultiplet

/-- The data of a `DataMultiplet<T,N>`: the values of its `N` components; `D` is the type of
the values of one data array. -/
abbrev Multiplet (D : Type) (N : ℕ) := Fin N → D

/-- What a call of a binary operator leaves behind: the returned value and the values of the
two operands after the call, in the order of the parameter list. -/
structure Outcome (A B V : Type) where
  /-- The returned multiplet. -/
  result : V
  /-- The first operand after the call. -/
  first : A
  /-- The second operand after the call. -/
  second : B

section Operators

variable {R D : Type} [CommRing R] [CommRing D] [Algebra R D] {N : ℕ}

/-- The operator `operator*=(TptrMul& in, const TptrMul& other)`: `Nloop(in[i]*=other[i];)`,
the value of `in` after the call. -/
def mulAssign (x other : Multiplet D N) : Multiplet D N := fun i => x i * other i

/-- The operator `operator*=(TptrMul& inM, const Tptr& inS)`: `Nloop(inM[i]*=inS;)`. -/
def mulAssignSinglet (x : Multiplet D N) (inS : D) : Multiplet D N := fun i => x i * inS

/-- The operator `operator*=(TptrMul& in, double scaleFac)`: `Nloop(in[i]*=scaleFac;)`. -/
def scaleAssign (x : Multiplet D N) (scaleFac : R) : Multiplet D N := fun i => scaleFac • x i

/-- The function `axpy(double alpha, const TptrMul& X, TptrMul& Y)`: "Linear combine
Y += alpha * X", the value of `Y` after the call. -/
def axpy (alpha : R) (X Y : Multiplet D N) : Multiplet D N := fun i => Y i + alpha • X i

/-- The function `axpy(double alpha, const Tptr& X, TptrMul& Y)` for a singlet `X`. -/
def axpySinglet (alpha : R) (X : D) (Y : Multiplet D N) : Multiplet D N :=
  fun i => Y i + alpha • X

/-- The operator `operator+=(TptrMul& in, const TptrMul& other)`: `axpy(+1.0, other, in)`. -/
def addAssign (x other : Multiplet D N) : Multiplet D N := axpy (1 : R) other x

/-- The operator `operator-=(TptrMul& in, const TptrMul& other)`: `axpy(-1.0, other, in)`. -/
def subAssign (x other : Multiplet D N) : Multiplet D N := axpy (-1 : R) other x

/-- The operator `operator*(const TptrMul& in1, const TptrMul& in2)`:
`TptrMul out(in1.clone()); return out *= in2;`. -/
def mulPreserve (in1 in2 : Multiplet D N) : Outcome (Multiplet D N) (Multiplet D N)
    (Multiplet D N) :=
  ⟨mulAssign in1 in2, in1, in2⟩

/-- The operator `operator*(TptrMul&& in1, const TptrMul& in2)`: `return in1 *= in2;`. -/
def mulDestructFirst (in1 in2 : Multiplet D N) : Outcome (Multiplet D N) (Multiplet D N)
    (Multiplet D N) :=
  ⟨mulAssign in1 in2, mulAssign in1 in2, in2⟩

/-- The operator `operator*(const TptrMul& in2, TptrMul&& in1)` as its body is written,
`return in2 *= in1;`: the assignment goes to the first parameter, the one declared `const`
(C++ rejects an instantiation of this body). -/
def mulDestructSecond (in2 in1 : Multiplet D N) : Outcome (Multiplet D N) (Multiplet D N)
    (Multiplet D N) :=
  ⟨mulAssign in2 in1, mulAssign in2 in1, in1⟩

/-- The operator `operator*(TptrMul&& in1, TptrMul&& in2)`: `return in1 *= in2;`. -/
def mulDestructBoth (in1 in2 : Multiplet D N) : Outcome (Multiplet D N) (Multiplet D N)
    (Multiplet D N) :=
  ⟨mulAssign in1 in2, mulAssign in1 in2, in2⟩

/-- The operator `operator+(const TptrMul& in1, const TptrMul& in2)`:
`TptrMul out(in1.clone()); return out += in2;`. -/
def addPreserve (in1 in2 : Multiplet D N) : Outcome (Multiplet D N) (Multiplet D N)
    (Multiplet D N) :=
  ⟨addAssign (R := R) in1 in2, in1, in2⟩

/-- The operator `operator+(const TptrMul& in1, TptrMul&& in2)`: `return in2 += in1;`. -/
def addDestructSecond (in1 in2 : Multiplet D N) : Outcome (Multiplet D N) (Multiplet D N)
    (Multiplet D N) :=
  ⟨addAssign (R := R) in2 in1, in1, addAssign (R := R) in2 in1⟩

/-- The operator `operator+(TptrMul&& in1, const TptrMul& in2)`: `return in1 += in2;`. -/
def addDestructFirst (in1 in2 : Multiplet D N) : Outcome (Multiplet D N) (Multiplet D N)
    (Multiplet D N) :=
  ⟨addAssign (R := R) in1 in2, addAssign (R := R) in1 in2, in2⟩

/-- The operator `operator-(const TptrMul& in1, const TptrMul& in2)`:
`TptrMul out(in1.clone()); return out -= in2;`. -/
def subPreserve (in1 in2 : Multiplet D N) : Outcome (Multiplet D N) (Multiplet D N)
    (Multiplet D N) :=
  ⟨subAssign (R := R) in1 in2, in1, in2⟩

/-- The operator `operator-(const TptrMul& in1, TptrMul&& in2)`:
`return (in2 -= in1) *= -1.0;`. -/
def subDestructSecond (in1 in2 : Multiplet D N) : Outcome (Multiplet D N) (Multiplet D N)
    (Multiplet D N) :=
  ⟨scaleAssign (subAssign (R := R) in2 in1) (-1 : R), in1,
    scaleAssign (subAssign (R := R) in2 in1) (-1 : R)⟩

/-- The operator `operator-(TptrMul&& in1, const TptrMul& in2)`: `return in1 -= in2;`. -/
def subDestructFirst (in1 in2 : Multiplet D N) : Outcome (Multiplet D N) (Multiplet D N)
    (Multiplet D N) :=
  ⟨subAssign (R := R) in1 in2, subAssign (R := R) in1 in2, in2⟩

/-- The operator `operator*(const TptrMul& inM, const Tptr& inS)`:
`TptrMul out(inM.clone()); return out *= inS;`. -/
def mulSingletPreserve (inM : Multiplet D N) (inS : D) : Outcome (Multiplet D N) D
    (Multiplet D N) :=
  ⟨mulAssignSinglet inM inS, inM, inS⟩

/-- The operator `operator*(const Tptr& inS, TptrMul&& inM)`: `return inM *= inS;`. -/
def mulSingletDestruct (inS : D) (inM : Multiplet D N) : Outcome D (Multiplet D N)
    (Multiplet D N) :=
  ⟨mulAssignSinglet inM inS, inS, mulAssignSinglet inM inS⟩

/-- The operator `operator*(const TptrMul& in, double scaleFac)`:
`TptrMul out(in.clone()); return out *= scaleFac;`. -/
def scalePreserve (x : Multiplet D N) (scaleFac : R) : Outcome (Multiplet D N) R
    (Multiplet D N) :=
  ⟨scaleAssign x scaleFac, x, scaleFac⟩

/-- The operator `operator*(double scaleFac, TptrMul&& in)`: `return in *= scaleFac;`. -/
def scaleDestruct (scaleFac : R) (x : Multiplet D N) : Outcome R (Multiplet D N)
    (Multiplet D N) :=
  ⟨scaleAssign x scaleFac, scaleFac, scaleAssign x scaleFac⟩

/-- The operator `operator-(const TptrMul& in1, const Tptr& in2)` for a singlet `in2`:
`TptrMul out(in1.clone()); return out -= in2;` with `axpy(-1.0, other, in)`. -/
def subSingletPreserve (in1 : Multiplet D N) (in2 : D) : Outcome (Multiplet D N) D
    (Multiplet D N) :=
  ⟨axpySinglet (-1 : R) in2 in1, in1, in2⟩

/-- The operator `operator-(const Tptr& in1, TptrMul&& in2)`:
`return (in2 -= in1) *= -1.0;`. -/
def subSingletDestruct (in1 : D) (in2 : Multiplet D N) : Outcome D (Multiplet D N)
    (Multiplet D N) :=
  ⟨scaleAssign (axpySinglet (-1 : R) in1 in2) (-1 : R), in1,
    scaleAssign (axpySinglet (-1 : R) in1 in2) (-1 : R)⟩

end Operators

end DataMultiplet

/-! ## `SpeciesInfo::setupAtomFillings`: occupations of the atomic orbitals -/

namespace SpeciesInfo

/-- The assignment `eigMap[key] = val` on a `std::map<double, std::pair<unsigned,unsigned>>`,
held as the list of its entries in ascending order of the keys: a new key is inserted at its
place, the value of a key already present is replaced. -/
def eigMapInsert {R : Type} [LinearOrder R] (key : R) (val : ℕ × ℕ) :
    List (R × (ℕ × ℕ)) → List (R × (ℕ × ℕ))
  | [] => [(key, val)]
  | (k, v) :: rest =>
    if key < k then (key, val) :: (k, v) :: rest
    else if key = k then (key, val) :: rest
    else (k, v) :: eigMapInsert key val rest

/-- The loop that fills `eigMap` (SpeciesInfo_atomFillings.cpp lines 76-80):
`eigMap[atomEigs[l][p]] = std::make_pair(l,p)` for `l` below `psiRadial.size()` (`nL`) and
`p` below `psiRadial[l].size()` (`nP l`). -/
def buildEigMap {R : Type} [LinearOrder R] (nL : ℕ) (nP : ℕ → ℕ) (atomEigs : ℕ → ℕ → R) :
    List (R × (ℕ × ℕ)) :=
  (List.range nL).foldl (fun m l =>
    (List.range (nP l)).foldl (fun m p => eigMapInsert (atomEigs l p) (l, p) m) m) []

/-- The value `double capacity = 2*(2*l+1)`: the product is formed in `unsigned` (32 bits)
and converted. -/
def capacity {R : Type} [NatCast R] (l : ℕ) : R := ((2 * (2 * l + 1) % 4294967296 : ℕ) : R)

/-- Body of the loop over `eigMap` (lines 83-88); the state is `(atomF, Favail)`. -/
def fillStep {R : Type} [LinearOrderedField R] (st : (ℕ → ℕ → R) × R)
    (eigEntry : R × (ℕ × ℕ)) : (ℕ → ℕ → R) × R :=
  let l := eigEntry.2.1
  let p := eigEntry.2.2
  let f := min st.2 (capacity l)
  (Function.update st.1 l (Function.update (st.1 l) p f), st.2 - f)

/-- The part "Determine occupations" of `SpeciesInfo::setupAtomFillings` (lines 73-88):
the occupations `atomF` and the electrons `Favail` left over.  `atomF0` is `atomF` after the
calls of `resize` (zero in every new entry) and `Z` the number of electrons to fill. -/
def setupAtomFillings {R : Type} [LinearOrderedField R] (Z : R) (nL : ℕ) (nP : ℕ → ℕ)
    (atomEigs : ℕ → ℕ → R) (atomF0 : ℕ → ℕ → R) : (ℕ → ℕ → R) × R :=
  (buildEigMap nL nP atomEigs).foldl fillStep (atomF0, Z)

/-- Eigenvalues of an s and a p orbital: `-1` for `l = 0`, `-1/2` for `l = 1`. -/
def exEigs : ℕ → ℕ → ℚ := fun l _ => if l = 0 then -1 else -1 / 2

end SpeciesInfo

/-! ## The scale factor of `Phonon::setSupState`, and plane waves outside the lookup box -/

namespace Phonon

/-- Conversion of an integer to `int` (32 bits, two's complement). -/
def toInt32 (x : ℤ) : ℤ := (x + 2147483648) % 4294967296 - 2147483648

/-- Line 334 of Phonon.cpp, `double scaleFac = 1./sqrt(sup[0]*sup[1]*sup[2])`: the product is
formed in `int` from left to right and converted to `double`; `sqrt` is the square root of
`double`. -/
def scaleFacOf {R : Type} [Field R] (sqrt : R → R) (sup : vector3 ℤ) : R :=
  1 / sqrt ((toInt32 (toInt32 (sup 0 * sup 1) * sup 2) : ℤ) : R)

/-- The function `Phonon::setSupState` (Phonon.cpp lines 323-370) with its line 334: the
factor `scaleFac` is computed from the member `sup`, whatever the field `scaleFac` of `inp`
holds. -/
def setSupStateOfSup {R K : Type} [Field R] [StarRing R] [TrivialStar R]
    [Field K] [StarRing K] [Algebra R K] [StarModule R K] (sqrt : R → R) (sup : vector3 ℤ)
    (inp : SynthInput R K) (v : SupVars R K) : SupVars R K :=
  setSupState { inp with scaleFac := scaleFacOf sqrt sup } v

/-! ### Concrete inputs used by the examples -/

/-- Force derivatives that record the atom index off the diagonal: mode 0 gives `a` on atom
`a` of species 0 along y, everything else vanishes. -/
def exDgradOff : ℕ → ℕ → ℤ → vector3 ℚ :=
  fun iMode sp a dir => if iMode = 0 ∧ sp = 0 ∧ dir = 1 then (a : ℚ) else 0

/-- The blocks that the cell mapping of `Phonon::dump` builds for `sup = (2,1,1)`, one atom,
the force derivatives `exDgradOff` and the given cell map: the block of a cell with offset
`(±1,0,0)` has the single entry `weight * 1` at row 0, column 1; the home cell has none. -/
def exOmegaSqOf (cellMap : List (vector3 ℤ × ℚ)) : ℕ → matrix ℚ :=
  remapToCells exSup (fun _ => 1) exModes1 exDgradOff cellMap

/-- Replication counts `sup = (2,2,1)`, with `prod(sup) = 4`. -/
def exSupFour : vector3 ℤ := ![2, 2, 1]

/-- Replication counts of a supercell equal to the unit cell, `sup = (1,1,1)`. -/
def exSupOne : vector3 ℤ := ![1, 1, 1]

/-- The box of half-widths `iGbox = (1,1,1)`: pitch `(9,3,1)`, 27 slots. -/
def exBoxOne : vector3 ℤ := ![1, 1, 1]

/-- A supercell basis with the single plane wave `(0,1,-1)`, of slot `9 + 6 + 0 = 15`. -/
def exBasisSupAlias : ℕ → List (vector3 ℤ) := fun _ => [![0, 1, -1]]

/-- A unit-cell basis with the plane waves `(0,0,2)` and `(0,1,-1)`; the first lies outside
the box `exBoxOne` and has the slot `9 + 3 + 3 = 15` as well. -/
def exBasisAlias : ℕ → List (vector3 ℤ) := fun _ => [![0, 0, 2], ![0, 1, -1]]

/-- A state map after "Map states" for a single k-point: every state folds onto supercell
state 0 with offset 0 and ordinal 0; the index arrays are not set yet. -/
def exStateMapOne : ℕ → StateMapEntry := fun _ => ⟨0, 0, 0, []⟩

/-- The state map `exStateMapOne` with the index array `[0, 0]` set for state 0. -/
def exStateMapAlias : ℕ → StateMapEntry :=
  Function.update exStateMapOne 0 (setIndex (exStateMapOne 0) [0, 0])

/-- Synthesis input over the state map `exStateMapAlias`: one unit-cell state with one band, one
spinor component and two plane waves of coefficients 1 and 2; one supercell plane wave. -/
def exSynthAlias : SynthInput ℚ ℚ where
  qStart := 0
  qStop := 1
  nStates := 1
  nBands := 1
  nSpinor := 1
  fillingsUpdate := FillingsUpdate.ConstantFillings
  scaleFac := 0
  stateMap := exStateMapAlias
  nbasis := fun _ => 2
  nbasisSup := fun _ => 1
  C := fun _ _ t => if t = 0 then 1 else 2
  F := fun _ _ => 2
  B := fun _ _ _ => 0

end Phonon

/-! ## Hermitization loop -/

set_option linter.unusedSectionVars false

namespace Phonon

section DumpLemmas

variable {R K : Type} [Field R] [StarRing R] [TrivialStar R]
  [Field K] [StarRing K] [Algebra R K] [StarModule R K]

theorem length_squared_eq_zero_iff (v : vector3 ℤ) : length_squared v = 0 ↔ v = 0 := by
  constructor
  · intro h
    unfold length_squared at h
    have h0 : v 0 = 0 := by nlinarith [mul_self_nonneg (v 0), mul_self_nonneg (v 1), mul_self_nonneg (v 2)]
    have h1 : v 1 = 0 := by nlinarith [mul_self_nonneg (v 0), mul_self_nonneg (v 1), mul_self_nonneg (v 2)]
    have h2 : v 2 = 0 := by nlinarith [mul_self_nonneg (v 0), mul_self_nonneg (v 1), mul_self_nonneg (v 2)]
    funext i
    fin_cases i <;> simpa
  · rintro rfl
    simp [length_squared]

theorem cellKey_eq_getElem (cellMap : List (vector3 ℤ × R)) {i : ℕ} (hi : i < cellMap.length) :
    cellKey cellMap i = (cellMap.map Prod.fst).get ⟨i, by simpa using hi⟩ := by
  simp [cellKey, List.getD_eq_getElem?_getD, List.getElem?_eq_getElem hi]

theorem cellKey_inj {cellMap : List (vector3 ℤ × R)} (hnd : (cellMap.map Prod.fst).Nodup)
    {i j : ℕ} (hi : i < cellMap.length) (hj : j < cellMap.length)
    (h : cellKey cellMap i = cellKey cellMap j) : i = j := by
  rw [cellKey_eq_getElem cellMap hi, cellKey_eq_getElem cellMap hj] at h
  have := (List.Nodup.get_inj_iff hnd).1 h
  simpa using this

theorem cellKey_negIdx {cellMap : List (vector3 ℤ × R)} {i : ℕ}
    (h : negIdx cellMap i < cellMap.length) :
    cellKey cellMap (negIdx cellMap i) = -cellKey cellMap i := by
  rw [cellKey_eq_getElem cellMap h]
  exact List.indexOf_get (by simpa [negIdx] using h)

theorem negIdx_eq {cellMap : List (vector3 ℤ × R)} (hnd : (cellMap.map Prod.fst).Nodup)
    {i j : ℕ} (hj : j < cellMap.length)
    (h : cellKey cellMap i + cellKey cellMap j = 0) : negIdx cellMap i = j := by
  have hk : -cellKey cellMap i = (cellMap.map Prod.fst).get ⟨j, by simpa using hj⟩ := by
    rw [← cellKey_eq_getElem cellMap hj]
    exact neg_eq_of_add_eq_zero_right h
  unfold negIdx
  rw [hk]
  exact List.get_indexOf hnd _

theorem negIdx_negIdx {cellMap : List (vector3 ℤ × R)} (hnd : (cellMap.map Prod.fst).Nodup)
    {i : ℕ} (hi : i < cellMap.length) (h : negIdx cellMap i < cellMap.length) :
    negIdx cellMap (negIdx cellMap i) = i := by
  apply negIdx_eq hnd hi
  rw [cellKey_negIdx h]
  simp

/-- The inner loop leaves the state alone when no index of the list fires. -/
theorem inner_nofire (cellMap : List (vector3 ℤ × R)) (i1 : ℕ) (L : List ℕ)
    (st : (ℕ → matrix K) × ℕ)
    (h : ∀ i2 ∈ L, ¬ (length_squared (cellKey cellMap i1 + cellKey cellMap i2) = 0 ∧ i1 ≤ i2)) :
    L.foldl (hermitizePair cellMap i1) st = st := by
  induction L generalizing st with
  | nil => rfl
  | cons x xs ih =>
    have hx : hermitizePair cellMap i1 st x = st := by
      unfold hermitizePair
      simp only []
      rw [if_neg (h x (List.mem_cons_self _ _))]
    rw [List.foldl_cons, hx]
    exact ih st (fun i2 hi2 => h i2 (List.mem_cons_of_mem _ hi2))

/-- The inner loop acts as its body at the single index that fires. -/
theorem inner_fire (cellMap : List (vector3 ℤ × R)) (i1 j : ℕ) (L : List ℕ) (hL : L.Nodup)
    (st : (ℕ → matrix K) × ℕ) (hj : j ∈ L)
    (h : ∀ i2 ∈ L, (length_squared (cellKey cellMap i1 + cellKey cellMap i2) = 0 ∧ i1 ≤ i2) →
      i2 = j) :
    L.foldl (hermitizePair cellMap i1) st = hermitizePair cellMap i1 st j := by
  induction L generalizing st with
  | nil => simp at hj
  | cons x xs ih =>
    rw [List.foldl_cons]
    rw [List.nodup_cons] at hL
    by_cases hxj : x = j
    · subst hxj
      apply inner_nofire
      intro i2 hi2 hf
      have := h i2 (List.mem_cons_of_mem _ hi2) hf
      subst this
      exact hL.1 hi2
    · have hx : hermitizePair cellMap i1 st x = st := by
        unfold hermitizePair
        simp only []
        rw [if_neg (fun hf => hxj (h x (List.mem_cons_self _ _) hf))]
      rw [hx]
      have hj2 : j ∈ xs := by
        rcases List.mem_cons.1 hj with h1 | h1
        · exact absurd h1.symm hxj
        · exact h1
      exact ih hL.2 st hj2 (fun i2 hi2 => h i2 (List.mem_cons_of_mem _ hi2))

theorem star_half : star (1 / 2 : R) = 1 / 2 := star_trivial _

/-- The block written by a firing pair, and its conjugate transpose. -/
theorem dagger_half_add (A B : matrix K) :
    dagger ((1 / 2 : R) • (A + dagger B)) = (1 / 2 : R) • (B + dagger A) := by
  unfold dagger
  rw [conjTranspose_smul, conjTranspose_add, conjTranspose_conjTranspose, star_trivial, add_comm]

/-- State of the Hermitization loop after the first `k` iterations of the outer loop. -/
theorem hermitize_outer (cellMap : List (vector3 ℤ × R)) (hnd : (cellMap.map Prod.fst).Nodup)
    (M : ℕ → matrix K) (k : ℕ) (hk : k ≤ cellMap.length) :
    (∀ i, ((List.range k).foldl
        (fun st iCell1 => (List.range cellMap.length).foldl (hermitizePair cellMap iCell1) st)
        (M, 0)).1 i =
      if i < cellMap.length ∧ negIdx cellMap i < cellMap.length ∧ (i < k ∨ negIdx cellMap i < k)
      then (1 / 2 : R) • (M i + dagger (M (negIdx cellMap i))) else M i) ∧
    ((List.range k).foldl
        (fun st iCell1 => (List.range cellMap.length).foldl (hermitizePair cellMap iCell1) st)
        (M, 0)).2 =
      ((Finset.range cellMap.length).filter
        (fun i => negIdx cellMap i < cellMap.length ∧ (i < k ∨ negIdx cellMap i < k))).card := by
  induction k with
  | zero => simp
  | succ k ih =>
    have hkn : k < cellMap.length := hk
    obtain ⟨ihB, ihC⟩ := ih (Nat.le_of_lt hkn)
    rw [List.range_succ, List.foldl_append, List.foldl_cons, List.foldl_nil]
    generalize (List.range k).foldl
        (fun st iCell1 => (List.range cellMap.length).foldl (hermitizePair cellMap iCell1) st)
        (M, 0) = st at ihB ihC ⊢
    by_cases hfire : negIdx cellMap k < cellMap.length ∧ k ≤ negIdx cellMap k
    · -- the pair (k, negIdx k) fires
      obtain ⟨hjn, hkj⟩ := hfire
      have hjj : negIdx cellMap (negIdx cellMap k) = k := negIdx_negIdx hnd hkn hjn
      have hcond : length_squared (cellKey cellMap k + cellKey cellMap (negIdx cellMap k)) = 0
          ∧ k ≤ negIdx cellMap k := by
        refine ⟨?_, hkj⟩
        rw [length_squared_eq_zero_iff, cellKey_negIdx hjn]
        simp
      have hin : (List.range cellMap.length).foldl (hermitizePair cellMap k) st
          = hermitizePair cellMap k st (negIdx cellMap k) := by
        apply inner_fire cellMap k (negIdx cellMap k) _ (List.nodup_range _) st
          (List.mem_range.2 hjn)
        intro i2 hi2 hf
        rw [length_squared_eq_zero_iff] at hf
        exact (negIdx_eq hnd (List.mem_range.1 hi2) hf.1).symm
      rw [hin]
      have hBk : st.1 k = M k := by
        rw [ihB k, if_neg]
        omega
      have hBj : st.1 (negIdx cellMap k) = M (negIdx cellMap k) := by
        rw [ihB (negIdx cellMap k), if_neg]
        rw [hjj]
        omega
      unfold hermitizePair
      simp only []
      rw [if_pos hcond, hBk, hBj]
      constructor
      · intro i
        simp only []
        by_cases hij : i = negIdx cellMap k
        · subst hij
          rw [Function.update_same, dagger_half_add, hjj, if_pos]
          exact ⟨hjn, hkn, Or.inr (Nat.lt_succ_self k)⟩
        · rw [Function.update_noteq hij]
          by_cases hik : i = k
          · subst hik
            rw [Function.update_same, if_pos]
            exact ⟨hkn, hjn, Or.inl (Nat.lt_succ_self _)⟩
          · rw [Function.update_noteq hik, ihB i]
            have hne : i < cellMap.length → negIdx cellMap i < cellMap.length →
                negIdx cellMap i ≠ k := by
              intro h1 h2 h3
              have := negIdx_negIdx hnd h1 h2
              rw [h3] at this
              exact hij this.symm
            by_cases hc : i < cellMap.length ∧ negIdx cellMap i < cellMap.length
            · have := hne hc.1 hc.2
              have e : (i < k + 1 ∨ negIdx cellMap i < k + 1) ↔ (i < k ∨ negIdx cellMap i < k) := by
                omega
              simp only [e]
            · have e1 : ¬ (i < cellMap.length ∧ negIdx cellMap i < cellMap.length ∧
                  (i < k ∨ negIdx cellMap i < k)) := fun h => hc ⟨h.1, h.2.1⟩
              have e2 : ¬ (i < cellMap.length ∧ negIdx cellMap i < cellMap.length ∧
                  (i < k + 1 ∨ negIdx cellMap i < k + 1)) := fun h => hc ⟨h.1, h.2.1⟩
              rw [if_neg e1, if_neg e2]
      · simp only []
        rw [ihC]
        have hset : (Finset.range cellMap.length).filter
            (fun i => negIdx cellMap i < cellMap.length ∧ (i < k + 1 ∨ negIdx cellMap i < k + 1))
            = insert k (insert (negIdx cellMap k) ((Finset.range cellMap.length).filter
            (fun i => negIdx cellMap i < cellMap.length ∧ (i < k ∨ negIdx cellMap i < k)))) := by
          ext i
          simp only [Finset.mem_filter, Finset.mem_range, Finset.mem_insert]
          constructor
          · rintro ⟨h1, h2, h3⟩
            by_cases hik : i = k
            · exact Or.inl hik
            · by_cases hij : i = negIdx cellMap k
              · exact Or.inr (Or.inl hij)
              · have : negIdx cellMap i ≠ k := by
                  intro h4
                  have := negIdx_negIdx hnd h1 h2
                  rw [h4] at this
                  exact hij this.symm
                exact Or.inr (Or.inr ⟨h1, h2, by omega⟩)
          · rintro (h | h | ⟨h1, h2, h3⟩)
            · subst h
              exact ⟨hkn, hjn, Or.inl (Nat.lt_succ_self _)⟩
            · subst h
              exact ⟨hjn, by rw [hjj]; exact hkn, Or.inr (by rw [hjj]; exact Nat.lt_succ_self k)⟩
            · exact ⟨h1, h2, by omega⟩
        have hk_not : k ∉ (Finset.range cellMap.length).filter
            (fun i => negIdx cellMap i < cellMap.length ∧ (i < k ∨ negIdx cellMap i < k)) := by
          simp only [Finset.mem_filter, Finset.mem_range]
          omega
        have hj_not : negIdx cellMap k ∉ (Finset.range cellMap.length).filter
            (fun i => negIdx cellMap i < cellMap.length ∧ (i < k ∨ negIdx cellMap i < k)) := by
          simp only [Finset.mem_filter, Finset.mem_range, hjj]
          omega
        rw [hset]
        by_cases hkj2 : k = negIdx cellMap k
        · rw [if_pos hkj2, ← hkj2, Finset.insert_idem, Finset.card_insert_of_not_mem hk_not]
        · rw [if_neg hkj2, Finset.card_insert_of_not_mem, Finset.card_insert_of_not_mem hj_not]
          simp only [Finset.mem_insert, not_or]
          exact ⟨hkj2, hk_not⟩
    · -- nothing fires for iCell1 = k
      have hin : (List.range cellMap.length).foldl (hermitizePair cellMap k) st = st := by
        apply inner_nofire
        intro i2 hi2 hf
        rw [length_squared_eq_zero_iff] at hf
        have := negIdx_eq hnd (List.mem_range.1 hi2) hf.1
        apply hfire
        rw [this]
        exact ⟨List.mem_range.1 hi2, hf.2⟩
      rw [hin]
      have hequiv : ∀ i, i < cellMap.length → negIdx cellMap i < cellMap.length →
          ((i < k + 1 ∨ negIdx cellMap i < k + 1) ↔ (i < k ∨ negIdx cellMap i < k)) := by
        intro i h1 h2
        have hA : i = k → negIdx cellMap i < k := by
          intro h; subst h; omega
        have hB : negIdx cellMap i = k → i < k := by
          intro h
          have h3 := negIdx_negIdx hnd h1 h2
          rw [h] at h3
          rw [h3] at hfire
          omega
        constructor
        · rintro (h | h)
          · by_cases hik : i = k
            · exact Or.inr (hA hik)
            · exact Or.inl (by omega)
          · by_cases hik : negIdx cellMap i = k
            · exact Or.inl (hB hik)
            · exact Or.inr (by omega)
        · rintro (h | h)
          · exact Or.inl (by omega)
          · exact Or.inr (by omega)
      constructor
      · intro i
        rw [ihB i]
        by_cases hc : i < cellMap.length ∧ negIdx cellMap i < cellMap.length
        · simp only [hequiv i hc.1 hc.2]
        · have e1 : ¬ (i < cellMap.length ∧ negIdx cellMap i < cellMap.length ∧
              (i < k ∨ negIdx cellMap i < k)) := fun h => hc ⟨h.1, h.2.1⟩
          have e2 : ¬ (i < cellMap.length ∧ negIdx cellMap i < cellMap.length ∧
              (i < k + 1 ∨ negIdx cellMap i < k + 1)) := fun h => hc ⟨h.1, h.2.1⟩
          rw [if_neg e1, if_neg e2]
      · rw [ihC]
        congr 1
        apply Finset.filter_congr
        intro i hi
        rw [Finset.mem_range] at hi
        constructor
        · rintro ⟨h2, h3⟩
          exact ⟨h2, (hequiv i hi h2).2 h3⟩
        · rintro ⟨h2, h3⟩
          exact ⟨h2, (hequiv i hi h2).1 h3⟩

/-- Result of the whole Hermitization loop: a cell whose negative is present gets the average
of its block with the conjugate transpose of the partner's; the counter is the number of
cells whose negative is present. -/
theorem hermitizeLoop_spec (cellMap : List (vector3 ℤ × R))
    (hnd : (cellMap.map Prod.fst).Nodup) (M : ℕ → matrix K) :
    (∀ i, (hermitizeLoop cellMap M).1 i =
      if i < cellMap.length ∧ negIdx cellMap i < cellMap.length
      then (1 / 2 : R) • (M i + dagger (M (negIdx cellMap i))) else M i) ∧
    (hermitizeLoop cellMap M).2 =
      ((Finset.range cellMap.length).filter
        (fun i => negIdx cellMap i < cellMap.length)).card := by
  obtain ⟨hB, hC⟩ := hermitize_outer cellMap hnd M cellMap.length le_rfl
  unfold hermitizeLoop
  constructor
  · intro i
    rw [hB i]
    by_cases hc : i < cellMap.length ∧ negIdx cellMap i < cellMap.length
    · rw [if_pos hc, if_pos ⟨hc.1, hc.2, Or.inl hc.1⟩]
    · rw [if_neg hc, if_neg (fun h => hc ⟨h.1, h.2.1⟩)]
  · rw [hC]
    congr 1
    apply Finset.filter_congr
    intro i hi
    rw [Finset.mem_range] at hi
    exact ⟨fun h => h.1, fun h => ⟨h, Or.inl hi⟩⟩

/-- Closure of the key set under negation, in terms of `negIdx`. -/
theorem closed_iff_negIdx (cellMap : List (vector3 ℤ × R))
    (hnd : (cellMap.map Prod.fst).Nodup) :
    (∀ i, i < cellMap.length → ∃ j, j < cellMap.length ∧ cellKey cellMap j = -cellKey cellMap i)
      ↔ ∀ i, i < cellMap.length → negIdx cellMap i < cellMap.length := by
  constructor
  · intro h i hi
    obtain ⟨j, hj, hjk⟩ := h i hi
    have : negIdx cellMap i = j := negIdx_eq hnd hj (by rw [hjk]; simp)
    rw [this]
    exact hj
  · intro h i hi
    exact ⟨negIdx cellMap i, h i hi, cellKey_negIdx (h i hi)⟩

/-- The counter equals the number of cells exactly when the key set is closed under negation. -/
theorem hermitizeLoop_count_eq_iff (cellMap : List (vector3 ℤ × R))
    (hnd : (cellMap.map Prod.fst).Nodup) (M : ℕ → matrix K) :
    (hermitizeLoop cellMap M).2 = cellMap.length ↔
      ∀ i, i < cellMap.length → negIdx cellMap i < cellMap.length := by
  rw [(hermitizeLoop_spec cellMap hnd M).2]
  conv_lhs => rhs; rw [← Finset.card_range cellMap.length]
  rw [Finset.card_filter_eq_iff]
  simp only [Finset.mem_range]

/-- With distinct keys closed under negation the assertion after the loop passes. -/
theorem enforceHermiticity_of_closed (cellMap : List (vector3 ℤ × R))
    (hnd : (cellMap.map Prod.fst).Nodup) (M : ℕ → matrix K)
    (hclosed : ∀ i, i < cellMap.length →
      ∃ j, j < cellMap.length ∧ cellKey cellMap j = -cellKey cellMap i) :
    enforceHermiticity cellMap M = Except.ok (hermitizeLoop cellMap M).1 := by
  have hcount := (hermitizeLoop_count_eq_iff cellMap hnd M).2
    ((closed_iff_negIdx cellMap hnd).1 hclosed)
  unfold enforceHermiticity
  simp only []
  rw [if_pos hcount]

/-- A pair of cells whose offsets sum to zero only modulo the supercell: the loop pairs each
of the two with its exact negative, so the blocks end as `0.5*(M i + dagger (M j))` and its
conjugate transpose when the negatives are present and carry the blocks of the partners, as
the cell mapping gives for cells congruent modulo the supercell that have equal weights. -/
theorem hermitize_congruent_pair_of_equal_blocks (cellMap : List (vector3 ℤ × R))
    (hnd : (cellMap.map Prod.fst).Nodup) (M : ℕ → matrix K) (i j : ℕ)
    (hi : i < cellMap.length) (hj : j < cellMap.length)
    (hni : negIdx cellMap i < cellMap.length) (hnj : negIdx cellMap j < cellMap.length)
    (h1 : M (negIdx cellMap i) = M j) (h2 : M (negIdx cellMap j) = M i) :
    (hermitizeLoop cellMap M).1 i = (1 / 2 : R) • (M i + dagger (M j)) ∧
    (hermitizeLoop cellMap M).1 j = dagger ((1 / 2 : R) • (M i + dagger (M j))) := by
  have hB := (hermitizeLoop_spec cellMap hnd M).1
  constructor
  · rw [hB i, if_pos ⟨hi, hni⟩, h1]
  · rw [hB j, if_pos ⟨hj, hnj⟩, h2, dagger_half_add]

end DumpLemmas

end Phonon

/-! ## Sum-rule correction -/

namespace Phonon

section SumRuleLemmas

variable {R K : Type} [Field R] [StarRing R] [TrivialStar R]
  [Field K] [StarRing K] [Algebra R K] [StarModule R K]

/-- An accumulation loop over `0..n-1` is a finite sum. -/
theorem foldl_add_range {A : Type} [AddCommMonoid A] (f : ℕ → A) (n : ℕ) :
    (List.range n).foldl (fun acc i => acc + f i) 0 = ∑ i in Finset.range n, f i := by
  induction n with
  | zero => simp
  | succ n ih =>
    rw [List.range_succ, List.foldl_append, List.foldl_cons, List.foldl_nil, ih,
      Finset.sum_range_succ]

theorem omegaSqSum_eq (n : ℕ) (B : ℕ → matrix K) :
    omegaSqSum n B = ∑ i in Finset.range n, B i :=
  foldl_add_range B n

theorem Fmean_eq (P : ℤ) (mass : ℕ → R) (modes : List Mode) (S : matrix K) :
    Fmean P mass modes S = ∑ a in Finset.range (modes.length / 3),
      speciesMass mass modes a • ((1 / ((((modes.length / 3 : ℕ) : ℤ) * P : ℤ) : R)) •
        matrix_slice S (3 * a) (3 * (a + 1)) (3 * a) (3 * (a + 1))) :=
  foldl_add_range _ _

/-- Entries of a diagonal 3x3 slice. -/
theorem matrix_slice_diag (S : matrix K) (a i j : ℕ) :
    matrix_slice S (3 * a) (3 * (a + 1)) (3 * a) (3 * (a + 1)) i j =
      if i < 3 ∧ j < 3 then S (3 * a + i) (3 * a + j) else 0 := by
  unfold matrix_slice
  have e : 3 * (a + 1) - 3 * a = 3 := by omega
  rw [e]

theorem matrix_set_apply (M B : matrix K) (r0 r1 c0 c1 i j : ℕ) :
    matrix_set M r0 r1 c0 c1 B i j =
      if r0 ≤ i ∧ i < r1 ∧ c0 ≤ j ∧ j < c1 then B (i - r0) (j - c0) else M i j := rfl

/-- Entries of the correction matrix after the first `k` atoms. -/
theorem correction_fold_entry (mass : ℕ → R) (modes : List Mode) (F : matrix K) (k i j : ℕ) :
    (List.range k).foldl
      (fun acc a => matrix_set acc (3 * a) (3 * (a + 1)) (3 * a) (3 * (a + 1))
        ((1 / speciesMass mass modes a) • F)) (0 : matrix K) i j =
    if i / 3 = j / 3 ∧ i / 3 < k then
      ((1 / speciesMass mass modes (i / 3)) • F) (i - 3 * (i / 3)) (j - 3 * (i / 3))
    else 0 := by
  induction k with
  | zero => simp
  | succ k ih =>
    rw [List.range_succ, List.foldl_append, List.foldl_cons, List.foldl_nil]
    rw [matrix_set_apply]
    by_cases hc : 3 * k ≤ i ∧ i < 3 * (k + 1) ∧ 3 * k ≤ j ∧ j < 3 * (k + 1)
    · rw [if_pos hc]
      have hi : i / 3 = k := by omega
      have hj : j / 3 = k := by omega
      rw [if_pos ⟨by omega, by omega⟩, hi]
    · rw [if_neg hc, ih]
      by_cases hd : i / 3 = j / 3 ∧ i / 3 < k
      · rw [if_pos hd, if_pos ⟨hd.1, by omega⟩]
      · rw [if_neg hd, if_neg]
        omega

theorem omegaSqCorrection_entry (mass : ℕ → R) (modes : List Mode) (F : matrix K) (i j : ℕ) :
    omegaSqCorrection mass modes F i j =
    if i / 3 = j / 3 ∧ i / 3 < modes.length / 3 then
      ((1 / speciesMass mass modes (i / 3)) • F) (i - 3 * (i / 3)) (j - 3 * (i / 3))
    else 0 :=
  correction_fold_entry mass modes F _ i j

theorem matrix_slice_sub (X Y : matrix K) (r0 r1 c0 c1 : ℕ) :
    matrix_slice (X - Y) r0 r1 c0 c1 = matrix_slice X r0 r1 c0 c1 - matrix_slice Y r0 r1 c0 c1 := by
  ext i j
  simp only [matrix_slice, Matrix.sub_apply]
  split_ifs <;> simp

theorem matrix_slice_smul (c : R) (X : matrix K) (r0 r1 c0 c1 : ℕ) :
    matrix_slice (c • X) r0 r1 c0 c1 = c • matrix_slice X r0 r1 c0 c1 := by
  ext i j
  simp only [matrix_slice, Matrix.smul_apply]
  split_ifs <;> simp

theorem matrix_slice_sum (f : ℕ → matrix K) (n r0 r1 c0 c1 : ℕ) :
    matrix_slice (∑ i in Finset.range n, f i) r0 r1 c0 c1
      = ∑ i in Finset.range n, matrix_slice (f i) r0 r1 c0 c1 := by
  ext i j
  simp only [matrix_slice, Matrix.sum_apply]
  split_ifs <;> simp

/-- The matrix `Fmean` has no entries outside its 3x3 range. -/
theorem Fmean_outside (P : ℤ) (mass : ℕ → R) (modes : List Mode) (S : matrix K) (i j : ℕ)
    (h : ¬ (i < 3 ∧ j < 3)) : Fmean P mass modes S i j = 0 := by
  rw [Fmean_eq, Matrix.sum_apply]
  apply Finset.sum_eq_zero
  intro a _
  rw [Matrix.smul_apply, Matrix.smul_apply, matrix_slice_diag, if_neg h]
  simp

/-- The diagonal slice of the correction matrix for atom `a` is `Fmean` over the mass. -/
theorem omegaSqCorrection_slice (P : ℤ) (mass : ℕ → R) (modes : List Mode) (S : matrix K)
    (a : ℕ) (ha : a < modes.length / 3) :
    matrix_slice (omegaSqCorrection mass modes (Fmean P mass modes S))
        (3 * a) (3 * (a + 1)) (3 * a) (3 * (a + 1))
      = (1 / speciesMass mass modes a) • Fmean P mass modes S := by
  ext i j
  rw [matrix_slice_diag, omegaSqCorrection_entry]
  by_cases h : i < 3 ∧ j < 3
  · have hi : (3 * a + i) / 3 = a := by omega
    have hj : (3 * a + j) / 3 = a := by omega
    rw [if_pos h, if_pos ⟨by omega, by omega⟩, hi]
    have e1 : 3 * a + i - 3 * a = i := by omega
    have e2 : 3 * a + j - 3 * a = j := by omega
    rw [e1, e2]
  · rw [if_neg h, Matrix.smul_apply, Fmean_outside P mass modes S i j h, smul_zero]

theorem cellWeight_sum (cellMap : List (vector3 ℤ × R)) :
    ∑ i in Finset.range cellMap.length, cellWeight cellMap i = (cellMap.map Prod.snd).sum := by
  induction cellMap using List.reverseRecOn with
  | nil => simp
  | append_singleton l x ih =>
    rw [List.length_append, List.length_singleton, Finset.sum_range_succ, List.map_append,
      List.sum_append, ← ih]
    congr 1
    · apply Finset.sum_congr rfl
      intro i hi
      rw [Finset.mem_range] at hi
      simp [cellWeight, List.getD_eq_getElem?_getD, List.getElem?_append_left hi]
    · simp [cellWeight, List.getD_eq_getElem?_getD]

/-- Sum over the cells of the self-block of atom `a` after the correction. -/
theorem selfBlockSum_after (P : ℤ) (mass : ℕ → R) (modes : List Mode)
    (cellMap : List (vector3 ℤ × R)) (B : ℕ → matrix K) (a : ℕ) (ha : a < modes.length / 3) :
    omegaSqSum cellMap.length (fun iCell => matrix_slice
        (enforceTranslationalInvariance P mass modes cellMap B iCell)
        (3 * a) (3 * (a + 1)) (3 * a) (3 * (a + 1)))
      = matrix_slice (omegaSqSum cellMap.length B) (3 * a) (3 * (a + 1)) (3 * a) (3 * (a + 1))
        - (cellMap.map Prod.snd).sum • ((1 / speciesMass mass modes a) •
            Fmean P mass modes (omegaSqSum cellMap.length B)) := by
  rw [omegaSqSum_eq, omegaSqSum_eq, matrix_slice_sum, ← cellWeight_sum, Finset.sum_smul,
    ← Finset.sum_sub_distrib]
  apply Finset.sum_congr rfl
  intro i hi
  rw [Finset.mem_range] at hi
  unfold enforceTranslationalInvariance
  rw [if_pos hi, matrix_slice_sub, matrix_slice_smul, ← omegaSqSum_eq,
    omegaSqCorrection_slice P mass modes _ a ha]

/-! ### Hermitian pairing through the correction -/

theorem dagger_matrix_slice_diag (S : matrix K) (a : ℕ) :
    dagger (matrix_slice S (3 * a) (3 * (a + 1)) (3 * a) (3 * (a + 1)))
      = matrix_slice (dagger S) (3 * a) (3 * (a + 1)) (3 * a) (3 * (a + 1)) := by
  ext i j
  unfold dagger
  rw [conjTranspose_apply, matrix_slice_diag, matrix_slice_diag]
  by_cases h : i < 3 ∧ j < 3
  · rw [if_pos h, if_pos ⟨h.2, h.1⟩, conjTranspose_apply]
  · rw [if_neg h, if_neg (fun h2 => h ⟨h2.2, h2.1⟩), star_zero]

theorem dagger_real_smul (c : R) (X : matrix K) : dagger (c • X) = c • dagger X := by
  unfold dagger
  rw [conjTranspose_smul, star_trivial]

theorem Fmean_hermitian (P : ℤ) (mass : ℕ → R) (modes : List Mode) (S : matrix K)
    (hS : dagger S = S) : dagger (Fmean P mass modes S) = Fmean P mass modes S := by
  rw [Fmean_eq]
  unfold dagger
  rw [conjTranspose_sum]
  apply Finset.sum_congr rfl
  intro a _
  have h := dagger_matrix_slice_diag S a
  rw [hS] at h
  unfold dagger at h
  rw [conjTranspose_smul, conjTranspose_smul, star_trivial, star_trivial, h]

theorem omegaSqCorrection_hermitian (mass : ℕ → R) (modes : List Mode) (F : matrix K)
    (hF : dagger F = F) :
    dagger (omegaSqCorrection mass modes F) = omegaSqCorrection mass modes F := by
  ext i j
  unfold dagger
  rw [conjTranspose_apply, omegaSqCorrection_entry, omegaSqCorrection_entry]
  by_cases h : i / 3 = j / 3 ∧ i / 3 < modes.length / 3
  · rw [if_pos h, if_pos ⟨h.1.symm, by omega⟩, ← h.1, Matrix.smul_apply, Matrix.smul_apply,
      star_smul, star_trivial]
    have := congrFun (congrFun hF (i - 3 * (i / 3))) (j - 3 * (i / 3))
    unfold dagger at this
    rw [conjTranspose_apply] at this
    rw [this]
  · rw [if_neg h, if_neg (fun h2 => h ⟨h2.1.symm, by omega⟩), star_zero]

/-- After the Hermitization loop on a cell map closed under negation the block sum is
Hermitian. -/
theorem hermitized_sum_hermitian (cellMap : List (vector3 ℤ × R))
    (hnd : (cellMap.map Prod.fst).Nodup) (M : ℕ → matrix K)
    (hneg : ∀ i, i < cellMap.length → negIdx cellMap i < cellMap.length) :
    dagger (omegaSqSum cellMap.length (hermitizeLoop cellMap M).1)
      = omegaSqSum cellMap.length (hermitizeLoop cellMap M).1 := by
  have hB := (hermitizeLoop_spec cellMap hnd M).1
  rw [omegaSqSum_eq]
  unfold dagger
  rw [conjTranspose_sum]
  apply Finset.sum_nbij' (negIdx cellMap) (negIdx cellMap)
  · intro i hi
    rw [Finset.mem_range] at hi ⊢
    exact hneg i hi
  · intro i hi
    rw [Finset.mem_range] at hi ⊢
    exact hneg i hi
  · intro i hi
    rw [Finset.mem_range] at hi
    exact negIdx_negIdx hnd hi (hneg i hi)
  · intro i hi
    rw [Finset.mem_range] at hi
    exact negIdx_negIdx hnd hi (hneg i hi)
  · intro i hi
    rw [Finset.mem_range] at hi
    have h1 := hneg i hi
    have h2 := negIdx_negIdx hnd hi h1
    rw [hB i, if_pos ⟨hi, h1⟩, hB (negIdx cellMap i), if_pos ⟨h1, by rw [h2]; exact hi⟩, h2]
    exact dagger_half_add (M i) (M (negIdx cellMap i))

/-- Hermitian pairing of the final blocks of a pair of opposite cells of equal weight. -/
theorem corrected_pair_hermitian (P : ℤ) (mass : ℕ → R) (modes : List Mode)
    (cellMap : List (vector3 ℤ × R)) (hnd : (cellMap.map Prod.fst).Nodup) (M : ℕ → matrix K)
    (hneg : ∀ i, i < cellMap.length → negIdx cellMap i < cellMap.length)
    (i j : ℕ) (hi : i < cellMap.length) (hj : j < cellMap.length)
    (hsum : cellKey cellMap i + cellKey cellMap j = 0)
    (hw : cellWeight cellMap i = cellWeight cellMap j) :
    enforceTranslationalInvariance P mass modes cellMap (hermitizeLoop cellMap M).1 i
      = dagger (enforceTranslationalInvariance P mass modes cellMap
          (hermitizeLoop cellMap M).1 j) := by
  have hB := (hermitizeLoop_spec cellMap hnd M).1
  have hij : negIdx cellMap i = j := negIdx_eq hnd hj hsum
  have hji : negIdx cellMap j = i := negIdx_eq hnd hi (by rw [add_comm]; exact hsum)
  have hC := omegaSqCorrection_hermitian mass modes _
    (Fmean_hermitian P mass modes _ (hermitized_sum_hermitian cellMap hnd M hneg))
  unfold enforceTranslationalInvariance
  rw [if_pos hi, if_pos hj]
  unfold dagger at hC ⊢
  rw [conjTranspose_sub, conjTranspose_smul, star_trivial, hC, hw]
  congr 1
  rw [hB i, if_pos ⟨hi, by rw [hij]; exact hj⟩, hB j, if_pos ⟨hj, by rw [hji]; exact hi⟩,
    hij, hji]
  exact (dagger_half_add (M j) (M i)).symm

end SumRuleLemmas

end Phonon

/-! ## State mapping in `Phonon::setup` -/

namespace Phonon

theorem lookupCount_succ (plookFind : ℕ → Option ℕ) (k s : ℕ) :
    lookupCount plookFind (k + 1) s
      = lookupCount plookFind k s + (if plookFind k = some s then 1 else 0) := by
  unfold lookupCount
  rw [Finset.range_succ, Finset.filter_insert]
  by_cases h : plookFind k = some s
  · rw [if_pos h, if_pos h, Finset.card_insert_of_not_mem]
    simp
  · rw [if_neg h, if_neg h, add_zero]

theorem mapStates_fold_error (plookFind : ℕ → Option ℕ) (iGround : ℕ → ℕ → vector3 ℤ)
    (msg : String) (L : List ℕ) :
    L.foldl (mapStatesStep plookFind iGround) (Except.error msg) = Except.error msg := by
  induction L with
  | nil => rfl
  | cons x xs ih => rw [List.foldl_cons]; exact ih

/-- The loop "Map states" when every lookup among the first `k` states succeeds. -/
theorem mapStatesLoop_ok (plookFind : ℕ → Option ℕ) (iGround : ℕ → ℕ → vector3 ℤ) (k : ℕ)
    (hfound : ∀ q, q < k → plookFind q ≠ none) :
    ∃ sm nq, mapStatesLoop k plookFind iGround = Except.ok (sm, nq) ∧
      (∀ q s, q < k → plookFind q = some s →
        sm q = ⟨s, iGround q s, lookupCount plookFind q s, []⟩) ∧
      (∀ s, nq s = lookupCount plookFind k s) := by
  induction k with
  | zero =>
    refine ⟨_, _, rfl, ?_, ?_⟩
    · intro q s hq
      omega
    · intro s
      simp [lookupCount]
  | succ k ih =>
    obtain ⟨sm, nq, hloop, hsm, hnq⟩ := ih (fun q hq => hfound q (Nat.lt_succ_of_lt hq))
    unfold mapStatesLoop at hloop ⊢
    rw [List.range_succ, List.foldl_append, hloop, List.foldl_cons, List.foldl_nil]
    obtain ⟨s, hs⟩ := Option.ne_none_iff_exists'.1 (hfound k (Nat.lt_succ_self k))
    refine ⟨Function.update sm k ⟨s, iGround k s, nq s, []⟩,
      Function.update nq s (nq s + 1), ?_, ?_, ?_⟩
    · simp only [mapStatesStep, hs]
    · intro q s' hq hqs
      by_cases hqk : q = k
      · subst hqk
        rw [hs] at hqs
        have : s = s' := Option.some.inj hqs
        subst this
        rw [Function.update_same, hnq]
      · rw [Function.update_noteq hqk]
        exact hsm q s' (by omega) hqs
    · intro s'
      rw [lookupCount_succ, hs]
      by_cases hss : s' = s
      · subst hss
        rw [Function.update_same, hnq, if_pos rfl]
      · rw [Function.update_noteq hss, hnq, if_neg (fun h => hss (Option.some.inj h).symm),
          add_zero]

/-- The loop "Map states" stops with the first assertion when some lookup fails. -/
theorem mapStatesLoop_error (plookFind : ℕ → Option ℕ) (iGround : ℕ → ℕ → vector3 ℤ) (k : ℕ)
    (hmiss : ∃ q, q < k ∧ plookFind q = none) :
    mapStatesLoop k plookFind iGround = Except.error "assert(qSup != string::npos)" := by
  induction k with
  | zero =>
    obtain ⟨q, hq, _⟩ := hmiss
    omega
  | succ k ih =>
    unfold mapStatesLoop at ih ⊢
    rw [List.range_succ, List.foldl_append, List.foldl_cons, List.foldl_nil]
    by_cases hprev : ∃ q, q < k ∧ plookFind q = none
    · rw [ih hprev]
      rfl
    · obtain ⟨q, hq, hqn⟩ := hmiss
      have hqk : q = k := by
        by_contra hne
        exact hprev ⟨q, by omega, hqn⟩
      subst hqk
      have hfound : ∀ q', q' < q → plookFind q' ≠ none := by
        intro q' hq' hn
        exact hprev ⟨q', hq', hn⟩
      obtain ⟨sm, nq, hloop, _, _⟩ := mapStatesLoop_ok plookFind iGround q hfound
      unfold mapStatesLoop at hloop
      rw [hloop]
      simp only [mapStatesStep, hqn]

/-- For an entry written by the loop, `qSup` is the lookup result. -/
theorem contributors_eq_lookupCount (plookFind : ℕ → Option ℕ) (iGround : ℕ → ℕ → vector3 ℤ)
    (nStates : ℕ) (sm : ℕ → StateMapEntry)
    (hfound : ∀ q, q < nStates → plookFind q ≠ none)
    (hsm : ∀ q s, q < nStates → plookFind q = some s →
      sm q = ⟨s, iGround q s, lookupCount plookFind q s, []⟩) (k : ℕ) (hk : k ≤ nStates)
    (s : ℕ) :
    ((Finset.range k).filter (fun q => (sm q).qSup = s)).card = lookupCount plookFind k s := by
  unfold lookupCount
  congr 1
  apply Finset.filter_congr
  intro q hq
  rw [Finset.mem_range] at hq
  obtain ⟨s', hs'⟩ := Option.ne_none_iff_exists'.1 (hfound q (by omega))
  rw [hsm q s' (by omega) hs', hs']
  constructor
  · intro h
    simp only at h
    rw [h]
  · intro h
    exact Option.some.inj h

theorem lookupCount_mono (plookFind : ℕ → Option ℕ) (s : ℕ) {k k' : ℕ} (h : k ≤ k') :
    lookupCount plookFind k s ≤ lookupCount plookFind k' s := by
  unfold lookupCount
  apply Finset.card_le_card
  apply Finset.filter_subset_filter
  exact Finset.range_mono h

/-- Every ordinal below the number of contributors is attained. -/
theorem lookupCount_attained (plookFind : ℕ → Option ℕ) (s n k : ℕ)
    (hk : k < lookupCount plookFind n s) :
    ∃ q, q < n ∧ plookFind q = some s ∧ lookupCount plookFind q s = k := by
  induction n with
  | zero => simp [lookupCount] at hk
  | succ n ih =>
    rw [lookupCount_succ] at hk
    by_cases hlt : k < lookupCount plookFind n s
    · obtain ⟨q, hq, h1, h2⟩ := ih hlt
      exact ⟨q, Nat.lt_succ_of_lt hq, h1, h2⟩
    · by_cases hn : plookFind n = some s
      · rw [if_pos hn] at hk
        exact ⟨n, Nat.lt_succ_self n, hn, by omega⟩
      · rw [if_neg hn] at hk
        omega

/-- Data of the state map after a successful loop "Map states". -/
theorem mapStatesLoop_inv (plookFind : ℕ → Option ℕ) (iGround : ℕ → ℕ → vector3 ℤ)
    (nStates : ℕ) (sm : ℕ → StateMapEntry) (nq : ℕ → ℕ)
    (h : mapStatesLoop nStates plookFind iGround = Except.ok (sm, nq)) :
    (∀ q, q < nStates → plookFind q = some (sm q).qSup) ∧
    (∀ q, q < nStates → (sm q).nqPrev = lookupCount plookFind q (sm q).qSup) ∧
    (∀ q, q < nStates → (sm q).iG = iGround q (sm q).qSup) ∧
    (∀ s, nq s = lookupCount plookFind nStates s) ∧
    (∀ s, contributors sm nStates s = lookupCount plookFind nStates s) := by
  have hfound : ∀ q, q < nStates → plookFind q ≠ none := by
    intro q hq hn
    rw [mapStatesLoop_error plookFind iGround nStates ⟨q, hq, hn⟩] at h
    cases h
  obtain ⟨sm', nq', hloop, hsm, hnq⟩ := mapStatesLoop_ok plookFind iGround nStates hfound
  rw [hloop] at h
  have e1 : sm' = sm := by injection h with h; exact (Prod.mk.inj h).1
  have e2 : nq' = nq := by injection h with h; exact (Prod.mk.inj h).2
  subst e1 e2
  refine ⟨?_, ?_, ?_, hnq, ?_⟩
  · intro q hq
    obtain ⟨s, hs⟩ := Option.ne_none_iff_exists'.1 (hfound q hq)
    rw [hsm q s hq hs, hs]
  · intro q hq
    obtain ⟨s, hs⟩ := Option.ne_none_iff_exists'.1 (hfound q hq)
    rw [hsm q s hq hs]
  · intro q hq
    obtain ⟨s, hs⟩ := Option.ne_none_iff_exists'.1 (hfound q hq)
    rw [hsm q s hq hs]
  · intro s
    exact contributors_eq_lookupCount plookFind iGround nStates sm' hfound hsm nStates le_rfl s

/-- Unfolding of `mapStates` on a successful run. -/
theorem mapStates_ok_iff (nStates nSup : ℕ) (prodSup : ℤ) (plookFind : ℕ → Option ℕ)
    (iGround : ℕ → ℕ → vector3 ℤ) (sm : ℕ → StateMapEntry) :
    mapStates nStates nSup prodSup plookFind iGround = Except.ok sm ↔
      ∃ nq, mapStatesLoop nStates plookFind iGround = Except.ok (sm, nq) ∧
        ∀ qSup, qSup < nSup → (nq qSup : ℤ) = prodSup := by
  unfold mapStates
  cases hloop : mapStatesLoop nStates plookFind iGround with
  | error msg => simp
  | ok r =>
    obtain ⟨sm', nq'⟩ := r
    simp only []
    by_cases hc : ∀ qSup, qSup < nSup → (nq' qSup : ℤ) = prodSup
    · rw [if_pos hc]
      constructor
      · intro h
        injection h with h
        subst h
        exact ⟨nq', rfl, hc⟩
      · rintro ⟨nq, h, _⟩
        injection h with h
        rw [(Prod.mk.inj h).1]
    · rw [if_neg hc]
      constructor
      · intro h
        cases h
      · rintro ⟨nq, h, hall⟩
        injection h with h
        rw [(Prod.mk.inj h).2] at hc
        exact absurd hall hc

end Phonon

/-! ## Plane-wave index maps in `Phonon::setup` -/

namespace Phonon

/-- Two vectors of the box with the same table slot are equal. -/
theorem slotOf_inj (iGbox v w : vector3 ℤ) (hv : inBox iGbox v) (hw : inBox iGbox w)
    (h : slotOf iGbox v = slotOf iGbox w) : v = w := by
  have hv0 := hv 0
  have hv1 := hv 1
  have hv2 := hv 2
  have hw0 := hw 0
  have hw1 := hw 1
  have hw2 := hw 2
  simp only [slotOf, dot, pitchOf, Pi.add_apply, Matrix.cons_val_zero, Matrix.cons_val_one,
    Matrix.head_cons, Matrix.cons_val_two, Matrix.tail_cons] at h
  have hb1 : 0 ≤ iGbox 1 := by omega
  have hb2 : 0 ≤ iGbox 2 := by omega
  -- differences
  have e : (2 * iGbox 2 + 1) * ((2 * iGbox 1 + 1) * (v 0 - w 0) + (v 1 - w 1)) = w 2 - v 2 := by
    linear_combination h
  have h2 : v 2 = w 2 := by
    have hd : (2 * iGbox 2 + 1) ∣ (w 2 - v 2) := Dvd.intro _ e
    have := Int.eq_zero_of_abs_lt_dvd hd (by rw [abs_lt]; constructor <;> omega)
    omega
  have e1 : (2 * iGbox 1 + 1) * (v 0 - w 0) = w 1 - v 1 := by
    have hz : (2 * iGbox 2 + 1) * ((2 * iGbox 1 + 1) * (v 0 - w 0) + (v 1 - w 1)) = 0 := by
      rw [e, h2]; ring
    have hp : (2 * iGbox 2 + 1) ≠ 0 := by omega
    have := (mul_eq_zero.1 hz).resolve_left hp
    linarith
  have h1 : v 1 = w 1 := by
    have hd : (2 * iGbox 1 + 1) ∣ (w 1 - v 1) := Dvd.intro _ e1
    have := Int.eq_zero_of_abs_lt_dvd hd (by rw [abs_lt]; constructor <;> omega)
    omega
  have h0 : v 0 = w 0 := by
    have hz : (2 * iGbox 1 + 1) * (v 0 - w 0) = 0 := by rw [e1, h1]; ring
    have hp : (2 * iGbox 1 + 1) ≠ 0 := by omega
    have := (mul_eq_zero.1 hz).resolve_left hp
    linarith
  funext j
  fin_cases j
  · exact h0
  · exact h1
  · exact h2

/-- Content of the lookup table after the first `k` supercell plane waves. -/
theorem supIndex_fold_spec (iGbox : vector3 ℤ) (iGarrSup : List (vector3 ℤ)) (k : ℕ) (t : ℤ) :
    ((∀ n, n < k → slotOf iGbox (iGarrSup.getD n 0) ≠ t) ∧
      (List.range k).foldl
        (fun supIndex n => Function.update supIndex (slotOf iGbox (iGarrSup.getD n 0)) (n : ℤ))
        (fun _ => -1) t = -1) ∨
    (∃ n, n < k ∧ slotOf iGbox (iGarrSup.getD n 0) = t ∧
      (List.range k).foldl
        (fun supIndex n => Function.update supIndex (slotOf iGbox (iGarrSup.getD n 0)) (n : ℤ))
        (fun _ => -1) t = (n : ℤ)) := by
  induction k with
  | zero =>
    left
    exact ⟨fun n hn => by omega, rfl⟩
  | succ k ih =>
    rw [List.range_succ, List.foldl_append, List.foldl_cons, List.foldl_nil]
    by_cases hk : slotOf iGbox (iGarrSup.getD k 0) = t
    · right
      refine ⟨k, Nat.lt_succ_self k, hk, ?_⟩
      rw [← hk, Function.update_same]
    · rw [Function.update_noteq (Ne.symm hk)]
      rcases ih with ⟨hnone, hval⟩ | ⟨n, hn, hslot, hval⟩
      · left
        refine ⟨fun n hn => ?_, hval⟩
        rcases Nat.lt_succ_iff_lt_or_eq.1 hn with h | h
        · exact hnone n h
        · rw [h]; exact hk
      · right
        exact ⟨n, Nat.lt_succ_of_lt hn, hslot, hval⟩

theorem supIndexTable_spec (iGbox : vector3 ℤ) (iGarrSup : List (vector3 ℤ)) (t : ℤ) :
    ((∀ n, n < iGarrSup.length → slotOf iGbox (iGarrSup.getD n 0) ≠ t) ∧
      supIndexTable iGbox iGarrSup t = -1) ∨
    (∃ n, n < iGarrSup.length ∧ slotOf iGbox (iGarrSup.getD n 0) = t ∧
      supIndexTable iGbox iGarrSup t = (n : ℤ)) :=
  supIndex_fold_spec iGbox iGarrSup iGarrSup.length t

end Phonon

namespace Phonon

theorem indexVecOf_length (sup iGbox : vector3 ℤ) (iGarrSup iGarr : List (vector3 ℤ))
    (iG : vector3 ℤ) : (indexVecOf sup iGbox iGarrSup iGarr iG).length = iGarr.length := by
  simp [indexVecOf]

theorem indexVecOf_getD (sup iGbox : vector3 ℤ) (iGarrSup iGarr : List (vector3 ℤ))
    (iG : vector3 ℤ) (n : ℕ) (hn : n < iGarr.length) :
    (indexVecOf sup iGbox iGarrSup iGarr iG).getD n (-1)
      = supIndexTable iGbox iGarrSup (slotOf iGbox (iGsupOf sup iG (iGarr.getD n 0))) := by
  have hlen : n < (indexVecOf sup iGbox iGarrSup iGarr iG).length := by
    rw [indexVecOf_length]; exact hn
  rw [List.getD_eq_getElem _ _ hlen]
  simp [indexVecOf]

theorem getD_mem_of_lt {A : Type} (l : List A) (d : A) (n : ℕ) (hn : n < l.length) :
    l.getD n d ∈ l := by
  rw [List.getD_eq_getElem _ _ hn]
  exact List.getElem_mem hn

theorem exists_getD_of_mem {A : Type} (l : List A) (d a : A) (h : a ∈ l) :
    ∃ n, n < l.length ∧ l.getD n d = a := by
  obtain ⟨n, hn, hget⟩ := List.getElem_of_mem h
  exact ⟨n, hn, by rw [List.getD_eq_getElem _ _ hn]; exact hget⟩

/-- A looked-up entry is either `-1`, when the image is no supercell plane wave, or the
index of a supercell plane wave with the coordinates of the image. -/
theorem table_lookup_in_box (iGbox : vector3 ℤ) (iGarrSup : List (vector3 ℤ)) (w : vector3 ℤ)
    (hboxSup : ∀ v, v ∈ iGarrSup → inBox iGbox v) (hw : inBox iGbox w) :
    (w ∉ iGarrSup ∧ supIndexTable iGbox iGarrSup (slotOf iGbox w) = -1) ∨
    (∃ m : ℕ, m < iGarrSup.length ∧ iGarrSup.getD m 0 = w ∧
      supIndexTable iGbox iGarrSup (slotOf iGbox w) = (m : ℤ)) := by
  rcases supIndexTable_spec iGbox iGarrSup (slotOf iGbox w) with ⟨hnone, hval⟩ | ⟨m, hm, hs, hval⟩
  · left
    refine ⟨fun hmem => ?_, hval⟩
    obtain ⟨n, hn, hget⟩ := exists_getD_of_mem iGarrSup 0 w hmem
    exact hnone n hn (by rw [hget])
  · right
    refine ⟨m, hm, ?_, hval⟩
    exact slotOf_inj iGbox _ _ (hboxSup _ (getD_mem_of_lt iGarrSup 0 m hm)) hw hs

theorem mapBasis_fold_error (sup iGbox : vector3 ℤ) (basisSup basis : ℕ → List (vector3 ℤ))
    (msg : String) (L : List (ℕ × ℕ)) :
    L.foldl (mapBasisStep sup iGbox basisSup basis) (Except.error msg) = Except.error msg := by
  induction L with
  | nil => rfl
  | cons x xs ih => rw [List.foldl_cons]; exact ih

/-- The nested loops of `mapBasis` run through the pairs `(qSup, q)` in order. -/
theorem nested_foldl_product {S A B : Type} (f : S → A × B → S) (la : List A) (lb : List B)
    (init : S) :
    la.foldl (fun st a => lb.foldl (fun st b => f st (a, b)) st) init
      = (la ×ˢ lb).foldl f init := by
  induction la generalizing init with
  | nil => rfl
  | cons a la ih =>
    rw [List.foldl_cons, List.product_cons, List.foldl_append, List.foldl_map, ih]

theorem mapBasis_eq (qStart qStop nStates : ℕ) (sup iGbox : vector3 ℤ)
    (basisSup basis : ℕ → List (vector3 ℤ)) (stateMap : ℕ → StateMapEntry) :
    mapBasis qStart qStop nStates sup iGbox basisSup basis stateMap
      = ((List.range' qStart (qStop - qStart)) ×ˢ (List.range nStates)).foldl
          (mapBasisStep sup iGbox basisSup basis) (Except.ok stateMap) :=
  nested_foldl_product _ _ _ _

/-- What a successful run of the pair loop has done. -/
theorem mapBasis_fold_ok (sup iGbox : vector3 ℤ) (basisSup basis : ℕ → List (vector3 ℤ))
    (L : List (ℕ × ℕ)) (smc smc' : ℕ → StateMapEntry)
    (h : L.foldl (mapBasisStep sup iGbox basisSup basis) (Except.ok smc) = Except.ok smc') :
    (∀ q, (smc' q).qSup = (smc q).qSup ∧ (smc' q).iG = (smc q).iG ∧
      (smc' q).nqPrev = (smc q).nqPrev) ∧
    (∀ p, p ∈ L → (smc p.2).qSup = p.1 →
      (∀ x, x ∈ indexVecOf sup iGbox (basisSup p.1) (basis p.2) (smc p.2).iG → 0 ≤ x) ∧
      (smc' p.2).index = indexVecOf sup iGbox (basisSup p.1) (basis p.2) (smc p.2).iG) ∧
    (∀ q, (∀ p, p ∈ L → p.2 = q → (smc q).qSup ≠ p.1) → smc' q = smc q) := by
  induction L generalizing smc with
  | nil =>
    rw [List.foldl_nil] at h
    injection h with h
    subst h
    refine ⟨fun q => ⟨rfl, rfl, rfl⟩, ?_, fun q _ => rfl⟩
    intro p hp
    exact absurd hp (List.not_mem_nil p)
  | cons p xs ih =>
    rw [List.foldl_cons] at h
    by_cases hmatch : (smc p.2).qSup = p.1
    · by_cases hgood : ∀ x, x ∈ indexVecOf sup iGbox (basisSup p.1) (basis p.2) (smc p.2).iG →
          0 ≤ x
      · have hstep : mapBasisStep sup iGbox basisSup basis (Except.ok smc) p
            = Except.ok (Function.update smc p.2 (setIndex (smc p.2)
                (indexVecOf sup iGbox (basisSup p.1) (basis p.2) (smc p.2).iG))) := by
          simp only [mapBasisStep]
          rw [if_pos hmatch, if_pos hgood]
        rw [hstep] at h
        obtain ⟨hf, hidx, hun⟩ := ih _ h
        have hfields : ∀ q, (Function.update smc p.2 (setIndex (smc p.2)
              (indexVecOf sup iGbox (basisSup p.1) (basis p.2) (smc p.2).iG)) q).qSup
              = (smc q).qSup ∧
            (Function.update smc p.2 (setIndex (smc p.2)
              (indexVecOf sup iGbox (basisSup p.1) (basis p.2) (smc p.2).iG)) q).iG
              = (smc q).iG ∧
            (Function.update smc p.2 (setIndex (smc p.2)
              (indexVecOf sup iGbox (basisSup p.1) (basis p.2) (smc p.2).iG)) q).nqPrev
              = (smc q).nqPrev := by
          intro q
          by_cases hq : q = p.2
          · subst hq
            rw [Function.update_same]
            exact ⟨rfl, rfl, rfl⟩
          · rw [Function.update_noteq hq]
            exact ⟨rfl, rfl, rfl⟩
        have hidx' : ∀ p', p' ∈ xs → (smc p'.2).qSup = p'.1 →
            (∀ x, x ∈ indexVecOf sup iGbox (basisSup p'.1) (basis p'.2) (smc p'.2).iG → 0 ≤ x) ∧
            (smc' p'.2).index
              = indexVecOf sup iGbox (basisSup p'.1) (basis p'.2) (smc p'.2).iG := by
          intro p' hp' hm'
          have := hidx p' hp' (by rw [(hfields p'.2).1]; exact hm')
          rw [(hfields p'.2).2.1] at this
          exact this
        refine ⟨?_, ?_, ?_⟩
        · intro q
          obtain ⟨a, b, c⟩ := hf q
          obtain ⟨a', b', c'⟩ := hfields q
          exact ⟨a.trans a', b.trans b', c.trans c'⟩
        · intro p' hp' hm'
          rcases List.mem_cons.1 hp' with heq | hmem
          · subst heq
            refine ⟨hgood, ?_⟩
            by_cases hlater : ∃ p'', p'' ∈ xs ∧ p''.2 = p'.2 ∧ (smc p'.2).qSup = p''.1
            · obtain ⟨p'', hp'', h2, h1⟩ := hlater
              have := (hidx' p'' hp'' (by rw [h2]; exact h1)).2
              rw [h2] at this
              rw [this, ← h1, hmatch]
            · have hsame := hun p'.2 (by
                intro p'' hp'' h2 h1
                apply hlater
                refine ⟨p'', hp'', h2, ?_⟩
                rw [(hfields p'.2).1] at h1
                exact h1)
              rw [hsame, Function.update_same]
              rfl
          · exact hidx' p' hmem hm'
        · intro q hq
          have hq1 : q ≠ p.2 := by
            intro heq
            exact hq p (List.mem_cons_self _ _) heq.symm (by rw [heq]; exact hmatch)
          rw [hun q (by
            intro p'' hp'' h2
            rw [(hfields q).1]
            exact hq p'' (List.mem_cons_of_mem _ hp'') h2), Function.update_noteq hq1]
      · have hstep : mapBasisStep sup iGbox basisSup basis (Except.ok smc) p
            = Except.error
              "assert(*std::min_element(indexVec.begin(), indexVec.end()) >= 0)" := by
          simp only [mapBasisStep]
          rw [if_pos hmatch, if_neg hgood]
        rw [hstep, mapBasis_fold_error] at h
        cases h
    · have hstep : mapBasisStep sup iGbox basisSup basis (Except.ok smc) p = Except.ok smc := by
        simp only [mapBasisStep]
        rw [if_neg hmatch]
      rw [hstep] at h
      obtain ⟨hf, hidx, hun⟩ := ih _ h
      refine ⟨hf, ?_, ?_⟩
      · intro p' hp' hm'
        rcases List.mem_cons.1 hp' with heq | hmem
        · subst heq
          exact absurd hm' hmatch
        · exact hidx p' hmem hm'
      · intro q hq
        exact hun q (fun p'' hp'' h2 => hq p'' (List.mem_cons_of_mem _ hp'') h2)

end Phonon

namespace Phonon

/-- The pair loop completes when every index vector it builds is free of `-1`. -/
theorem mapBasis_fold_total (sup iGbox : vector3 ℤ) (basisSup basis : ℕ → List (vector3 ℤ))
    (L : List (ℕ × ℕ)) (smc : ℕ → StateMapEntry)
    (hgood : ∀ p, p ∈ L → (smc p.2).qSup = p.1 →
      ∀ x, x ∈ indexVecOf sup iGbox (basisSup p.1) (basis p.2) (smc p.2).iG → 0 ≤ x) :
    ∃ smc', L.foldl (mapBasisStep sup iGbox basisSup basis) (Except.ok smc) = Except.ok smc' := by
  induction L generalizing smc with
  | nil => exact ⟨smc, rfl⟩
  | cons p xs ih =>
    rw [List.foldl_cons]
    by_cases hmatch : (smc p.2).qSup = p.1
    · have hstep : mapBasisStep sup iGbox basisSup basis (Except.ok smc) p
          = Except.ok (Function.update smc p.2 (setIndex (smc p.2)
              (indexVecOf sup iGbox (basisSup p.1) (basis p.2) (smc p.2).iG))) := by
        simp only [mapBasisStep]
        rw [if_pos hmatch, if_pos (hgood p (List.mem_cons_self _ _) hmatch)]
      rw [hstep]
      apply ih
      intro p' hp' hm'
      have hq : (Function.update smc p.2 (setIndex (smc p.2)
            (indexVecOf sup iGbox (basisSup p.1) (basis p.2) (smc p.2).iG)) p'.2).qSup
            = (smc p'.2).qSup ∧
          (Function.update smc p.2 (setIndex (smc p.2)
            (indexVecOf sup iGbox (basisSup p.1) (basis p.2) (smc p.2).iG)) p'.2).iG
            = (smc p'.2).iG := by
        by_cases hq : p'.2 = p.2
        · rw [hq, Function.update_same]
          exact ⟨rfl, rfl⟩
        · rw [Function.update_noteq hq]
          exact ⟨rfl, rfl⟩
      rw [hq.2]
      rw [hq.1] at hm'
      exact hgood p' (List.mem_cons_of_mem _ hp') hm'
    · have hstep : mapBasisStep sup iGbox basisSup basis (Except.ok smc) p = Except.ok smc := by
        simp only [mapBasisStep]
        rw [if_neg hmatch]
      rw [hstep]
      exact ih smc (fun p' hp' => hgood p' (List.mem_cons_of_mem _ hp'))

theorem mem_owned_pairs (qStart qStop nStates : ℕ) (p : ℕ × ℕ) :
    p ∈ (List.range' qStart (qStop - qStart)) ×ˢ (List.range nStates)
      ↔ (qStart ≤ p.1 ∧ p.1 < qStop) ∧ p.2 < nStates := by
  obtain ⟨a, b⟩ := p
  rw [List.mem_product, List.mem_range'_1, List.mem_range]
  constructor
  · rintro ⟨⟨h1, h2⟩, h3⟩
    exact ⟨⟨h1, by omega⟩, h3⟩
  · rintro ⟨⟨h1, h2⟩, h3⟩
    exact ⟨⟨h1, by omega⟩, h3⟩

end Phonon

/-! ## Supercell state synthesis (`Phonon::setSupState`) -/

namespace Phonon

section SynthLemmas

variable {R K : Type} [Field R] [StarRing R] [TrivialStar R]
  [Field K] [StarRing K] [Algebra R K] [StarModule R K]

/-- A loop whose body adds a state-independent amount to every observed value adds up the
amounts. -/
theorem foldl_additive {S X V : Type} [AddCommMonoid V] (ev : S → X → V) (step : S → ℕ → S)
    (g : ℕ → X → V) (h : ∀ st i x, ev (step st i) x = ev st x + g i x) (n : ℕ) (st : S) (x : X) :
    ev ((List.range n).foldl step st) x = ev st x + ∑ i in Finset.range n, g i x := by
  induction n with
  | zero => simp
  | succ n ih =>
    rw [List.range_succ, List.foldl_append, List.foldl_cons, List.foldl_nil, h, ih,
      Finset.sum_range_succ, add_assoc]

theorem eblas_scatter_zdaxpy_apply (index : List ℤ) (a : R) (x : ℕ → K) (off : ℤ)
    (col : ℤ → K) (t : ℤ) :
    eblas_scatter_zdaxpy index a x off col t
      = col t + ∑ i in Finset.range index.length,
          if off + index.getD i 0 = t then a • x i else 0 := by
  unfold eblas_scatter_zdaxpy
  exact foldl_additive (fun (c : ℤ → K) (t : ℤ) => c t)
    (fun col i => Function.update col (off + index.getD i 0)
      (col (off + index.getD i 0) + a • x i))
    (fun i t => if off + index.getD i 0 = t then a • x i else 0)
    (by
      intro st i t'
      by_cases ht : off + index.getD i 0 = t'
      · subst ht
        simp
      · simp only [if_neg ht, add_zero]
        rw [Function.update_noteq (Ne.symm ht)])
    index.length col t

/-- Amount added by the state `q` to the coefficient at band `B` and position `t` of its
supercell state. -/
theorem scatterState_apply (inp : SynthInput R K) (q : ℕ) (Csup : ColumnBundle K)
    (B : ℕ) (t : ℤ) :
    scatterState inp q Csup B t = Csup B t + contribution inp q B t := by
  unfold scatterState contribution
  exact foldl_additive (fun (c : ColumnBundle K) (x : ℕ × ℤ) => c x.1 x.2)
    (fun Cs b => (List.range inp.nSpinor).foldl
      (fun Cs s => Function.update Cs (b + inp.nBands * (inp.stateMap q).nqPrev)
        (eblas_scatter_zdaxpy (inp.stateMap q).index inp.scaleFac
          (fun i => inp.C q b ((s * inp.nbasis q + i : ℕ) : ℤ))
          ((s * inp.nbasisSup (inp.stateMap q).qSup : ℕ) : ℤ)
          (Cs (b + inp.nBands * (inp.stateMap q).nqPrev))))
      Cs)
    (fun b x => ∑ s in Finset.range inp.nSpinor,
      if x.1 = b + inp.nBands * (inp.stateMap q).nqPrev then
        ∑ i in Finset.range (inp.stateMap q).index.length,
          if ((s * inp.nbasisSup (inp.stateMap q).qSup : ℕ) : ℤ)
              + (inp.stateMap q).index.getD i 0 = x.2
          then inp.scaleFac • inp.C q b ((s * inp.nbasis q + i : ℕ) : ℤ) else 0
      else 0)
    (fun st b x => foldl_additive (fun (c : ColumnBundle K) (x : ℕ × ℤ) => c x.1 x.2)
      (fun Cs s => Function.update Cs (b + inp.nBands * (inp.stateMap q).nqPrev)
        (eblas_scatter_zdaxpy (inp.stateMap q).index inp.scaleFac
          (fun i => inp.C q b ((s * inp.nbasis q + i : ℕ) : ℤ))
          ((s * inp.nbasisSup (inp.stateMap q).qSup : ℕ) : ℤ)
          (Cs (b + inp.nBands * (inp.stateMap q).nqPrev))))
      (fun s x => if x.1 = b + inp.nBands * (inp.stateMap q).nqPrev then
        ∑ i in Finset.range (inp.stateMap q).index.length,
          if ((s * inp.nbasisSup (inp.stateMap q).qSup : ℕ) : ℤ)
              + (inp.stateMap q).index.getD i 0 = x.2
          then inp.scaleFac • inp.C q b ((s * inp.nbasis q + i : ℕ) : ℤ) else 0
      else 0)
      (by
        intro st' s x'
        by_cases hB : x'.1 = b + inp.nBands * (inp.stateMap q).nqPrev
        · simp only [if_pos hB]
          rw [hB, Function.update_same, eblas_scatter_zdaxpy_apply]
        · simp only [if_neg hB, add_zero]
          rw [Function.update_noteq hB])
      inp.nSpinor st x)
    inp.nBands Csup (B, t)

/-- A loop whose body overwrites some observed values with state-independent ones: the
result at an overwritten place does not depend on the initial state, elsewhere it is the
initial value. -/
theorem foldl_overwrite {S X V : Type} (ev : S → X → V) (step : S → ℕ → S)
    (hit : ℕ → X → Prop) (val : ℕ → X → V)
    (h1 : ∀ st i x, hit i x → ev (step st i) x = val i x)
    (h2 : ∀ st i x, ¬ hit i x → ev (step st i) x = ev st x) (n : ℕ) :
    (∀ st st' x, (∃ i, i < n ∧ hit i x) →
      ev ((List.range n).foldl step st) x = ev ((List.range n).foldl step st') x) ∧
    (∀ st x, (¬ ∃ i, i < n ∧ hit i x) → ev ((List.range n).foldl step st) x = ev st x) := by
  induction n with
  | zero =>
    refine ⟨?_, fun st x _ => rfl⟩
    rintro st st' x ⟨i, hi, _⟩
    omega
  | succ n ih =>
    constructor
    · rintro st st' x ⟨i, hi, hhit⟩
      rw [List.range_succ, List.foldl_append, List.foldl_append, List.foldl_cons, List.foldl_nil,
        List.foldl_cons, List.foldl_nil]
      by_cases hn : hit n x
      · rw [h1 _ n x hn, h1 _ n x hn]
      · rw [h2 _ n x hn, h2 _ n x hn]
        apply ih.1
        refine ⟨i, ?_, hhit⟩
        rcases Nat.lt_succ_iff_lt_or_eq.1 hi with h | h
        · exact h
        · subst h
          exact absurd hhit hn
    · intro st x hno
      rw [List.range_succ, List.foldl_append, List.foldl_cons, List.foldl_nil,
        h2 _ n x (fun hn => hno ⟨n, Nat.lt_succ_self n, hn⟩)]
      exact ih.2 st x (fun ⟨i, hi, hh⟩ => hno ⟨i, Nat.lt_succ_of_lt hi, hh⟩)

theorem mem_owned_range (inp : SynthInput R K) (Q : ℕ) :
    Q ∈ List.range' inp.qStart (inp.qStop - inp.qStart) ↔ inp.isMine Q := by
  rw [List.mem_range'_1]
  unfold SynthInput.isMine
  constructor
  · rintro ⟨h1, h2⟩
    exact ⟨h1, by omega⟩
  · rintro ⟨h1, h2⟩
    exact ⟨h1, by omega⟩

/-- Effect of the zeroing loop over an arbitrary list of supercell states. -/
theorem zero_fold_spec (inp : SynthInput R K) (L : List ℕ) (v : SupVars R K) :
    (∀ Q, (L.foldl (fun v qSup =>
        ({ v with
          C := Function.update v.C qSup (fun _ _ => 0)
          B := if inp.aux then Function.update v.B qSup 0 else v.B } : SupVars R K)) v).C Q
        = if Q ∈ L then (fun _ _ => 0) else v.C Q) ∧
    (∀ Q, (L.foldl (fun v qSup =>
        ({ v with
          C := Function.update v.C qSup (fun _ _ => 0)
          B := if inp.aux then Function.update v.B qSup 0 else v.B } : SupVars R K)) v).B Q
        = if Q ∈ L ∧ inp.aux = true then 0 else v.B Q) ∧
    (L.foldl (fun v qSup =>
        ({ v with
          C := Function.update v.C qSup (fun _ _ => 0)
          B := if inp.aux then Function.update v.B qSup 0 else v.B } : SupVars R K)) v).F = v.F ∧
    (L.foldl (fun v qSup =>
        ({ v with
          C := Function.update v.C qSup (fun _ _ => 0)
          B := if inp.aux then Function.update v.B qSup 0 else v.B } : SupVars R K)) v).Y = v.Y ∧
    (L.foldl (fun v qSup =>
        ({ v with
          C := Function.update v.C qSup (fun _ _ => 0)
          B := if inp.aux then Function.update v.B qSup 0 else v.B } : SupVars R K)) v).HauxInitialized
        = v.HauxInitialized := by
  induction L generalizing v with
  | nil => simp
  | cons x xs ih =>
    rw [List.foldl_cons]
    obtain ⟨hC, hB, hF, hY, hH⟩ := ih ({ v with
          C := Function.update v.C x (fun _ _ => 0)
          B := if inp.aux then Function.update v.B x 0 else v.B } : SupVars R K)
    refine ⟨?_, ?_, ?_, ?_, ?_⟩
    · intro Q
      rw [hC Q]
      by_cases hQ : Q ∈ xs <;> by_cases hx : Q = x <;> simp [hQ, hx, Function.update]
    · intro Q
      rw [hB Q]
      by_cases hQ : Q ∈ xs <;> by_cases hx : Q = x <;> by_cases ha : inp.aux = true <;>
        simp [hQ, hx, ha, Function.update]
    · rw [hF]
    · rw [hY]
    · rw [hH]

theorem zeroOwned_spec (inp : SynthInput R K) (v : SupVars R K) :
    (∀ Q, (zeroOwned inp v).C Q = if inp.isMine Q then (fun _ _ => 0) else v.C Q) ∧
    (∀ Q, (zeroOwned inp v).B Q = if inp.isMine Q ∧ inp.aux = true then 0 else v.B Q) ∧
    (zeroOwned inp v).F = v.F ∧ (zeroOwned inp v).Y = v.Y ∧
    (zeroOwned inp v).HauxInitialized = v.HauxInitialized := by
  obtain ⟨hC, hB, hF, hY, hH⟩ :=
    zero_fold_spec inp (List.range' inp.qStart (inp.qStop - inp.qStart)) v
  unfold zeroOwned
  refine ⟨?_, ?_, hF, hY, hH⟩
  · intro Q
    rw [hC Q]
    simp only [mem_owned_range]
  · intro Q
    rw [hB Q]
    simp only [mem_owned_range]

/-- Orbitals after the scatter loop over the first `n` unit-cell states. -/
theorem mainLoop_C (inp : SynthInput R K) (n : ℕ) (v : SupVars R K) (Q B : ℕ) (t : ℤ) :
    ((List.range n).foldl (setSupStateStep inp) v).C Q B t
      = v.C Q B t + ∑ q in Finset.range n,
          if inp.isMine (inp.stateMap q).qSup ∧ (inp.stateMap q).qSup = Q
          then contribution inp q B t else 0 :=
  foldl_additive (fun (v : SupVars R K) (x : ℕ × ℕ × ℤ) => v.C x.1 x.2.1 x.2.2)
    (setSupStateStep inp)
    (fun q x => if inp.isMine (inp.stateMap q).qSup ∧ (inp.stateMap q).qSup = x.1
      then contribution inp q x.2.1 x.2.2 else 0)
    (by
      intro st q x
      show (setSupStateStep inp st q).C x.1 x.2.1 x.2.2 = st.C x.1 x.2.1 x.2.2 +
        (if inp.isMine (inp.stateMap q).qSup ∧ (inp.stateMap q).qSup = x.1
          then contribution inp q x.2.1 x.2.2 else 0)
      unfold setSupStateStep
      by_cases hm : inp.isMine (inp.stateMap q).qSup
      · rw [if_pos hm]
        simp only []
        by_cases hQ : (inp.stateMap q).qSup = x.1
        · rw [if_pos ⟨hm, hQ⟩, hQ, Function.update_same, scatterState_apply]
        · rw [if_neg (fun h => hQ h.2), add_zero, Function.update_noteq (Ne.symm hQ)]
      · rw [if_neg hm, if_neg (fun h => hm h.1), add_zero])
    n v (Q, B, t)

/-- Fillings after the scatter loop: overwritten places do not depend on the initial state,
the others are untouched. -/
theorem mainLoop_F (inp : SynthInput R K) (n : ℕ) :
    (∀ (v v' : SupVars R K) (Q k : ℕ),
      (∃ q, q < n ∧ (inp.isMine (inp.stateMap q).qSup ∧ (inp.stateMap q).qSup = Q ∧
        inp.nBands * (inp.stateMap q).nqPrev ≤ k ∧
        k < inp.nBands * (inp.stateMap q).nqPrev + inp.nBands)) →
      ((List.range n).foldl (setSupStateStep inp) v).F Q k
        = ((List.range n).foldl (setSupStateStep inp) v').F Q k) ∧
    (∀ (v : SupVars R K) (Q k : ℕ),
      (¬ ∃ q, q < n ∧ (inp.isMine (inp.stateMap q).qSup ∧ (inp.stateMap q).qSup = Q ∧
        inp.nBands * (inp.stateMap q).nqPrev ≤ k ∧
        k < inp.nBands * (inp.stateMap q).nqPrev + inp.nBands)) →
      ((List.range n).foldl (setSupStateStep inp) v).F Q k = v.F Q k) := by
  have h := foldl_overwrite (fun (v : SupVars R K) (x : ℕ × ℕ) => v.F x.1 x.2)
    (setSupStateStep inp)
    (fun q x => inp.isMine (inp.stateMap q).qSup ∧ (inp.stateMap q).qSup = x.1 ∧
        inp.nBands * (inp.stateMap q).nqPrev ≤ x.2 ∧
        x.2 < inp.nBands * (inp.stateMap q).nqPrev + inp.nBands)
    (fun q x => inp.F q (x.2 - inp.nBands * (inp.stateMap q).nqPrev))
    (by
      rintro st q x ⟨hm, hQ, hlo, hhi⟩
      unfold setSupStateStep
      rw [if_pos hm]
      simp only []
      rw [hQ, Function.update_same]
      unfold diagMatrix_set
      rw [if_pos ⟨hlo, hhi⟩])
    (by
      intro st q x hno
      unfold setSupStateStep
      by_cases hm : inp.isMine (inp.stateMap q).qSup
      · rw [if_pos hm]
        simp only []
        by_cases hQ : (inp.stateMap q).qSup = x.1
        · rw [hQ, Function.update_same]
          unfold diagMatrix_set
          rw [if_neg (fun hr => hno ⟨hm, hQ, hr.1, hr.2⟩)]
        · rw [Function.update_noteq (Ne.symm hQ)]
      · rw [if_neg hm])
    n
  exact ⟨fun v v' Q k hex => h.1 v v' (Q, k) hex, fun v Q k hno => h.2 v (Q, k) hno⟩

/-- Auxiliary matrices after the scatter loop. -/
theorem mainLoop_B (inp : SynthInput R K) (n : ℕ) :
    (∀ (v v' : SupVars R K) (Q i j : ℕ),
      (∃ q, q < n ∧ (inp.aux = true ∧ inp.isMine (inp.stateMap q).qSup ∧
        (inp.stateMap q).qSup = Q ∧
        inp.nBands * (inp.stateMap q).nqPrev ≤ i ∧
        i < inp.nBands * (inp.stateMap q).nqPrev + inp.nBands ∧
        inp.nBands * (inp.stateMap q).nqPrev ≤ j ∧
        j < inp.nBands * (inp.stateMap q).nqPrev + inp.nBands)) →
      ((List.range n).foldl (setSupStateStep inp) v).B Q i j
        = ((List.range n).foldl (setSupStateStep inp) v').B Q i j) ∧
    (∀ (v : SupVars R K) (Q i j : ℕ),
      (¬ ∃ q, q < n ∧ (inp.aux = true ∧ inp.isMine (inp.stateMap q).qSup ∧
        (inp.stateMap q).qSup = Q ∧
        inp.nBands * (inp.stateMap q).nqPrev ≤ i ∧
        i < inp.nBands * (inp.stateMap q).nqPrev + inp.nBands ∧
        inp.nBands * (inp.stateMap q).nqPrev ≤ j ∧
        j < inp.nBands * (inp.stateMap q).nqPrev + inp.nBands)) →
      ((List.range n).foldl (setSupStateStep inp) v).B Q i j = v.B Q i j) := by
  have h := foldl_overwrite (fun (v : SupVars R K) (x : ℕ × ℕ × ℕ) => v.B x.1 x.2.1 x.2.2)
    (setSupStateStep inp)
    (fun q x => inp.aux = true ∧ inp.isMine (inp.stateMap q).qSup ∧
        (inp.stateMap q).qSup = x.1 ∧
        inp.nBands * (inp.stateMap q).nqPrev ≤ x.2.1 ∧
        x.2.1 < inp.nBands * (inp.stateMap q).nqPrev + inp.nBands ∧
        inp.nBands * (inp.stateMap q).nqPrev ≤ x.2.2 ∧
        x.2.2 < inp.nBands * (inp.stateMap q).nqPrev + inp.nBands)
    (fun q x => inp.B q (x.2.1 - inp.nBands * (inp.stateMap q).nqPrev)
      (x.2.2 - inp.nBands * (inp.stateMap q).nqPrev))
    (by
      rintro st q x ⟨ha, hm, hQ, h1, h2, h3, h4⟩
      unfold setSupStateStep
      rw [if_pos hm]
      simp only []
      rw [if_pos ha, hQ, Function.update_same, matrix_set_apply, if_pos ⟨h1, h2, h3, h4⟩])
    (by
      intro st q x hno
      unfold setSupStateStep
      by_cases hm : inp.isMine (inp.stateMap q).qSup
      · rw [if_pos hm]
        simp only []
        by_cases ha : inp.aux = true
        · rw [if_pos ha]
          by_cases hQ : (inp.stateMap q).qSup = x.1
          · rw [hQ, Function.update_same, matrix_set_apply,
              if_neg (fun hr => hno ⟨ha, hm, hQ, hr.1, hr.2.1, hr.2.2.1, hr.2.2.2⟩)]
          · rw [Function.update_noteq (Ne.symm hQ)]
        · rw [if_neg ha]
      · rw [if_neg hm])
    n
  exact ⟨fun v v' Q i j hex => h.1 v v' (Q, i, j) hex,
    fun v Q i j hno => h.2 v (Q, i, j) hno⟩

/-- The scatter loop leaves `Y` and `HauxInitialized` alone. -/
theorem mainLoop_rest (inp : SynthInput R K) (L : List ℕ) (v : SupVars R K) :
    (L.foldl (setSupStateStep inp) v).Y = v.Y ∧
    (L.foldl (setSupStateStep inp) v).HauxInitialized = v.HauxInitialized := by
  induction L generalizing v with
  | nil => exact ⟨rfl, rfl⟩
  | cons x xs ih =>
    rw [List.foldl_cons]
    obtain ⟨h1, h2⟩ := ih (setSupStateStep inp v x)
    rw [h1, h2]
    unfold setSupStateStep
    by_cases hm : inp.isMine (inp.stateMap x).qSup
    · rw [if_pos hm]
      exact ⟨rfl, rfl⟩
    · rw [if_neg hm]
      exact ⟨rfl, rfl⟩

theorem copy_fold_spec (L : List ℕ) (v : SupVars R K) :
    (L.foldl (fun v qSup => ({ v with Y := Function.update v.Y qSup (v.C qSup) } : SupVars R K))
        v).C = v.C ∧
    (L.foldl (fun v qSup => ({ v with Y := Function.update v.Y qSup (v.C qSup) } : SupVars R K))
        v).F = v.F ∧
    (L.foldl (fun v qSup => ({ v with Y := Function.update v.Y qSup (v.C qSup) } : SupVars R K))
        v).B = v.B ∧
    (L.foldl (fun v qSup => ({ v with Y := Function.update v.Y qSup (v.C qSup) } : SupVars R K))
        v).HauxInitialized = v.HauxInitialized ∧
    (∀ Q, (L.foldl
        (fun v qSup => ({ v with Y := Function.update v.Y qSup (v.C qSup) } : SupVars R K))
        v).Y Q = if Q ∈ L then v.C Q else v.Y Q) := by
  induction L generalizing v with
  | nil => simp
  | cons x xs ih =>
    rw [List.foldl_cons]
    obtain ⟨hC, hF, hB, hH, hY⟩ :=
      ih ({ v with Y := Function.update v.Y x (v.C x) } : SupVars R K)
    refine ⟨hC, hF, hB, hH, ?_⟩
    intro Q
    rw [hY Q]
    by_cases hQ : Q ∈ xs <;> by_cases hx : Q = x <;> simp [hQ, hx, Function.update]

theorem copyToY_spec (inp : SynthInput R K) (v : SupVars R K) :
    (copyToY inp v).C = v.C ∧ (copyToY inp v).F = v.F ∧ (copyToY inp v).B = v.B ∧
    (copyToY inp v).HauxInitialized = v.HauxInitialized ∧
    (∀ Q, (copyToY inp v).Y Q = if inp.isMine Q then v.C Q else v.Y Q) := by
  obtain ⟨hC, hF, hB, hH, hY⟩ :=
    copy_fold_spec (List.range' inp.qStart (inp.qStop - inp.qStart)) v
  unfold copyToY
  refine ⟨hC, hF, hB, hH, ?_⟩
  intro Q
  rw [hY Q]
  simp only [mem_owned_range]

/-- Components of the result of `setSupState` in terms of the loops. -/
theorem setSupState_fields (inp : SynthInput R K) (v : SupVars R K) :
    (setSupState inp v).C = ((List.range inp.nStates).foldl (setSupStateStep inp)
      (zeroOwned inp v)).C ∧
    (setSupState inp v).F = ((List.range inp.nStates).foldl (setSupStateStep inp)
      (zeroOwned inp v)).F ∧
    (setSupState inp v).B = ((List.range inp.nStates).foldl (setSupStateStep inp)
      (zeroOwned inp v)).B ∧
    (setSupState inp v).HauxInitialized
      = (if inp.aux = true then true else v.HauxInitialized) ∧
    (∀ Q, (setSupState inp v).Y Q = if inp.isMine Q then (setSupState inp v).C Q else v.Y Q) := by
  obtain ⟨hC, hF, hB, hH, hY⟩ := copyToY_spec inp
    ((List.range inp.nStates).foldl (setSupStateStep inp) (zeroOwned inp v))
  obtain ⟨hY2, hH2⟩ := mainLoop_rest inp (List.range inp.nStates) (zeroOwned inp v)
  obtain ⟨_, _, _, hY3, hH3⟩ := zeroOwned_spec inp v
  unfold setSupState
  simp only []
  refine ⟨hC, hF, hB, ?_, ?_⟩
  · rw [hH, hH2, hH3]
  · intro Q
    rw [hY Q, hC, hY2, hY3]

/-- The orbitals written by `setSupState`: zero plus all contributions for an owned
supercell state, the old value for the others. -/
theorem setSupState_C (inp : SynthInput R K) (v : SupVars R K) (Q B : ℕ) (t : ℤ) :
    (setSupState inp v).C Q B t
      = (if inp.isMine Q then 0 else v.C Q B t) + ∑ q in Finset.range inp.nStates,
          if inp.isMine (inp.stateMap q).qSup ∧ (inp.stateMap q).qSup = Q
          then contribution inp q B t else 0 := by
  rw [(setSupState_fields inp v).1, mainLoop_C, (zeroOwned_spec inp v).1 Q]
  by_cases hm : inp.isMine Q
  · rw [if_pos hm, if_pos hm]
  · rw [if_neg hm, if_neg hm]

/-! ### Single destination of every scattered coefficient -/

/-- Positions of different spinor blocks, or of different offsets inside a block, differ. -/
theorem block_position_inj (s s' M : ℕ) (x y : ℤ) (hx : 0 ≤ x ∧ x < M) (hy : 0 ≤ y ∧ y < M)
    (h : ((s' * M : ℕ) : ℤ) + y = ((s * M : ℕ) : ℤ) + x) : s' = s ∧ y = x := by
  have key : s' = s := by
    rcases Nat.lt_trichotomy s' s with hlt | heq | hgt
    · exfalso
      have h1 : (s' + 1) * M ≤ s * M := Nat.mul_le_mul_right _ hlt
      rw [Nat.add_mul, Nat.one_mul] at h1
      have h2 : ((s' * M : ℕ) : ℤ) + (M : ℤ) ≤ ((s * M : ℕ) : ℤ) := by exact_mod_cast h1
      omega
    · exact heq
    · exfalso
      have h1 : (s + 1) * M ≤ s' * M := Nat.mul_le_mul_right _ hgt
      rw [Nat.add_mul, Nat.one_mul] at h1
      have h2 : ((s * M : ℕ) : ℤ) + (M : ℤ) ≤ ((s' * M : ℕ) : ℤ) := by exact_mod_cast h1
      omega
  subst key
  exact ⟨rfl, by omega⟩

/-- A state contributes nothing to a band outside its band block. -/
theorem contribution_other_band (inp : SynthInput R K) (q B : ℕ) (t : ℤ)
    (h : ∀ b, b < inp.nBands → B ≠ b + inp.nBands * (inp.stateMap q).nqPrev) :
    contribution inp q B t = 0 := by
  unfold contribution
  apply Finset.sum_eq_zero
  intro b hb
  apply Finset.sum_eq_zero
  intro s _
  rw [if_neg (h b (Finset.mem_range.1 hb))]

/-- A non-zero contribution has a source `(b, s, n)` whose destination is `(B, t)`. -/
theorem contribution_source (inp : SynthInput R K) (q B : ℕ) (t : ℤ)
    (h : contribution inp q B t ≠ 0) :
    ∃ b s n, b < inp.nBands ∧ s < inp.nSpinor ∧ n < (inp.stateMap q).index.length ∧
      B = b + inp.nBands * (inp.stateMap q).nqPrev ∧
      t = ((s * inp.nbasisSup (inp.stateMap q).qSup : ℕ) : ℤ)
        + (inp.stateMap q).index.getD n 0 := by
  unfold contribution at h
  obtain ⟨b, hb, h1⟩ := Finset.exists_ne_zero_of_sum_ne_zero h
  obtain ⟨s, hs, h2⟩ := Finset.exists_ne_zero_of_sum_ne_zero h1
  by_cases hB : B = b + inp.nBands * (inp.stateMap q).nqPrev
  · rw [if_pos hB] at h2
    obtain ⟨n, hn, h3⟩ := Finset.exists_ne_zero_of_sum_ne_zero h2
    by_cases ht : ((s * inp.nbasisSup (inp.stateMap q).qSup : ℕ) : ℤ)
        + (inp.stateMap q).index.getD n 0 = t
    · exact ⟨b, s, n, Finset.mem_range.1 hb, Finset.mem_range.1 hs, Finset.mem_range.1 hn, hB,
        ht.symm⟩
    · rw [if_neg ht] at h3
      exact absurd rfl h3
  · rw [if_neg hB] at h2
    exact absurd rfl h2

/-- The contribution of a state at the destination of one of its coefficients is that
coefficient times `scaleFac`, when its index map is injective with values inside the
supercell basis. -/
theorem contribution_target (inp : SynthInput R K) (q b s n : ℕ)
    (hlen : (inp.stateMap q).index.length = inp.nbasis q)
    (hrange : ∀ i, i < inp.nbasis q → 0 ≤ (inp.stateMap q).index.getD i 0 ∧
      (inp.stateMap q).index.getD i 0 < (inp.nbasisSup (inp.stateMap q).qSup : ℤ))
    (hinj : ∀ i j, i < inp.nbasis q → j < inp.nbasis q →
      (inp.stateMap q).index.getD i 0 = (inp.stateMap q).index.getD j 0 → i = j)
    (hb : b < inp.nBands) (hs : s < inp.nSpinor) (hn : n < inp.nbasis q) :
    contribution inp q (b + inp.nBands * (inp.stateMap q).nqPrev)
        (((s * inp.nbasisSup (inp.stateMap q).qSup : ℕ) : ℤ)
          + (inp.stateMap q).index.getD n 0)
      = inp.scaleFac • inp.C q b ((s * inp.nbasis q + n : ℕ) : ℤ) := by
  unfold contribution
  rw [Finset.sum_eq_single b]
  · rw [Finset.sum_eq_single s]
    · rw [if_pos rfl, Finset.sum_eq_single n]
      · rw [if_pos rfl]
      · intro i hi hne
        rw [Finset.mem_range, hlen] at hi
        rw [if_neg]
        intro h
        exact hne (hinj i n hi hn (by omega))
      · intro hnot
        rw [Finset.mem_range, hlen] at hnot
        exact absurd hn hnot
    · intro s' _ hne
      rw [if_pos rfl]
      apply Finset.sum_eq_zero
      intro i hi
      rw [Finset.mem_range, hlen] at hi
      rw [if_neg]
      intro h
      exact hne (block_position_inj s s' _ _ _ (hrange n hn) (hrange i hi) h).1
    · intro hnot
      exact absurd (Finset.mem_range.2 hs) hnot
  · intro b' _ hne
    apply Finset.sum_eq_zero
    intro s' _
    rw [if_neg]
    intro h
    exact hne (by omega)
  · intro hnot
    exact absurd (Finset.mem_range.2 hb) hnot

/-- Bands of different band blocks differ. -/
theorem band_block_inj (N b b' k k' : ℕ) (hb : b < N) (hb' : b' < N)
    (h : b + N * k = b' + N * k') : k = k' ∧ b = b' := by
  have key : k = k' := by
    rcases Nat.lt_trichotomy k k' with hlt | heq | hgt
    · exfalso
      have h1 : N * (k + 1) ≤ N * k' := Nat.mul_le_mul_left _ hlt
      rw [Nat.mul_add, Nat.mul_one] at h1
      omega
    · exact heq
    · exfalso
      have h1 : N * (k' + 1) ≤ N * k := Nat.mul_le_mul_left _ hgt
      rw [Nat.mul_add, Nat.mul_one] at h1
      omega
  subst key
  exact ⟨rfl, by omega⟩

/-- The synthesized coefficient at the destination of a unit-cell coefficient. -/
theorem synthesized_at_target (inp : SynthInput R K) (v : SupVars R K)
    (hwf : inp.wellFormed) (q b s n : ℕ) (hq : q < inp.nStates)
    (hm : inp.isMine (inp.stateMap q).qSup) (hb : b < inp.nBands) (hs : s < inp.nSpinor)
    (hn : n < inp.nbasis q) :
    (setSupState inp v).C (inp.stateMap q).qSup (b + inp.nBands * (inp.stateMap q).nqPrev)
        (((s * inp.nbasisSup (inp.stateMap q).qSup : ℕ) : ℤ)
          + (inp.stateMap q).index.getD n 0)
      = inp.scaleFac • inp.C q b ((s * inp.nbasis q + n : ℕ) : ℤ) := by
  obtain ⟨hlen, hrange, hinj, hord⟩ := hwf
  rw [setSupState_C, if_pos hm, zero_add, Finset.sum_eq_single q]
  · rw [if_pos ⟨hm, rfl⟩]
    exact contribution_target inp q b s n (hlen q hq hm) (fun i hi => hrange q i hq hm hi)
      (fun i j hi hj => hinj q i j hq hm hi hj) hb hs hn
  · intro q' hq' hne
    by_cases hc : inp.isMine (inp.stateMap q').qSup ∧
        (inp.stateMap q').qSup = (inp.stateMap q).qSup
    · rw [if_pos hc]
      apply contribution_other_band
      intro b' hb' heq
      exact hord q q' hq (Finset.mem_range.1 hq') (Ne.symm hne) hc.2.symm
        (band_block_inj _ _ _ _ _ hb hb' heq).1
    · rw [if_neg hc]
  · intro hnot
    exact absurd (Finset.mem_range.2 hq) hnot

/-- A non-zero synthesized coefficient of an owned supercell state is the destination of
some unit-cell coefficient. -/
theorem synthesized_source (inp : SynthInput R K) (v : SupVars R K) (Q B : ℕ) (t : ℤ)
    (hm : inp.isMine Q) (h : (setSupState inp v).C Q B t ≠ 0) :
    ∃ q b s n, q < inp.nStates ∧ (inp.stateMap q).qSup = Q ∧ b < inp.nBands ∧
      s < inp.nSpinor ∧ n < (inp.stateMap q).index.length ∧
      B = b + inp.nBands * (inp.stateMap q).nqPrev ∧
      t = ((s * inp.nbasisSup Q : ℕ) : ℤ) + (inp.stateMap q).index.getD n 0 := by
  rw [setSupState_C, if_pos hm, zero_add] at h
  obtain ⟨q, hq, h1⟩ := Finset.exists_ne_zero_of_sum_ne_zero h
  by_cases hc : inp.isMine (inp.stateMap q).qSup ∧ (inp.stateMap q).qSup = Q
  · rw [if_pos hc] at h1
    obtain ⟨b, s, n, hb, hs, hn, hB, ht⟩ := contribution_source inp q B t h1
    rw [hc.2] at ht
    exact ⟨q, b, s, n, Finset.mem_range.1 hq, hc.2, hb, hs, hn, hB, ht⟩
  · rw [if_neg hc] at h1
    exact absurd rfl h1

/-! ### Squared norm of a synthesized orbital -/

theorem normSq_term_smul (a : R) (c : K) :
    star (a • c) * (a • c) = (a * a) • (star c * c) := by
  rw [star_smul, star_trivial, Algebra.smul_def, Algebra.smul_def, Algebra.smul_def,
    RingHom.map_mul]
  ring

/-- One spinor block of a synthesized band carries the scaled coefficients of the unit-cell
band at the positions given by the index map and zeros elsewhere. -/
theorem synthesized_block_sum (inp : SynthInput R K) (v : SupVars R K)
    (hwf : inp.wellFormed) (q b s : ℕ) (hq : q < inp.nStates)
    (hm : inp.isMine (inp.stateMap q).qSup) (hb : b < inp.nBands) (hs : s < inp.nSpinor) :
    (∑ k in Finset.range (inp.nbasisSup (inp.stateMap q).qSup),
      star ((setSupState inp v).C (inp.stateMap q).qSup
          (b + inp.nBands * (inp.stateMap q).nqPrev)
          ((s * inp.nbasisSup (inp.stateMap q).qSup + k : ℕ) : ℤ)) *
        (setSupState inp v).C (inp.stateMap q).qSup
          (b + inp.nBands * (inp.stateMap q).nqPrev)
          ((s * inp.nbasisSup (inp.stateMap q).qSup + k : ℕ) : ℤ))
      = ∑ n in Finset.range (inp.nbasis q),
          (inp.scaleFac * inp.scaleFac) •
            (star (inp.C q b ((s * inp.nbasis q + n : ℕ) : ℤ)) *
              inp.C q b ((s * inp.nbasis q + n : ℕ) : ℤ)) := by
  obtain ⟨hlen, hrange, hinj, hord⟩ := hwf
  have hpos : ∀ n, n < inp.nbasis q →
      ((s * inp.nbasisSup (inp.stateMap q).qSup
          + ((inp.stateMap q).index.getD n 0).toNat : ℕ) : ℤ)
        = ((s * inp.nbasisSup (inp.stateMap q).qSup : ℕ) : ℤ)
          + (inp.stateMap q).index.getD n 0 := by
    intro n hn
    have := (hrange q n hq hm hn).1
    rw [Nat.cast_add, Int.toNat_of_nonneg this]
  have hsubset : (Finset.range (inp.nbasis q)).image
      (fun n => ((inp.stateMap q).index.getD n 0).toNat)
      ⊆ Finset.range (inp.nbasisSup (inp.stateMap q).qSup) := by
    intro k hk
    rw [Finset.mem_image] at hk
    obtain ⟨n, hn, hk⟩ := hk
    rw [Finset.mem_range] at hn ⊢
    have := hrange q n hq hm hn
    omega
  have hzero : ∀ k, k ∈ Finset.range (inp.nbasisSup (inp.stateMap q).qSup) →
      k ∉ (Finset.range (inp.nbasis q)).image
        (fun n => ((inp.stateMap q).index.getD n 0).toNat) →
      star ((setSupState inp v).C (inp.stateMap q).qSup
          (b + inp.nBands * (inp.stateMap q).nqPrev)
          ((s * inp.nbasisSup (inp.stateMap q).qSup + k : ℕ) : ℤ)) *
        (setSupState inp v).C (inp.stateMap q).qSup
          (b + inp.nBands * (inp.stateMap q).nqPrev)
          ((s * inp.nbasisSup (inp.stateMap q).qSup + k : ℕ) : ℤ) = 0 := by
    intro k hk hnot
    rw [Finset.mem_range] at hk
    have hz : (setSupState inp v).C (inp.stateMap q).qSup
        (b + inp.nBands * (inp.stateMap q).nqPrev)
        ((s * inp.nbasisSup (inp.stateMap q).qSup + k : ℕ) : ℤ) = 0 := by
      by_contra hne
      obtain ⟨q', b', s', n', hq', hQ, hb', hs', hn', hB, ht⟩ :=
        synthesized_source inp v _ _ _ hm hne
      have hqq : q' = q := by
        by_contra hneq
        exact hord q' q hq' hq hneq hQ (band_block_inj _ _ _ _ _ hb' hb hB.symm).1
      subst hqq
      rw [hlen q' hq' hm] at hn'
      have hr := hrange q' n' hq' hm hn'
      rw [Nat.cast_add] at ht
      have := block_position_inj s s' (inp.nbasisSup (inp.stateMap q').qSup) (k : ℤ)
        ((inp.stateMap q').index.getD n' 0) ⟨Int.natCast_nonneg k, by exact_mod_cast hk⟩ hr
        ht.symm
      apply hnot
      rw [Finset.mem_image]
      refine ⟨n', Finset.mem_range.2 hn', ?_⟩
      have h2 := this.2
      omega
    rw [hz, mul_zero]
  have hinj' : ∀ n, n ∈ Finset.range (inp.nbasis q) → ∀ n', n' ∈ Finset.range (inp.nbasis q) →
      ((inp.stateMap q).index.getD n 0).toNat = ((inp.stateMap q).index.getD n' 0).toNat →
      n = n' := by
    intro n hn n' hn' heq
    rw [Finset.mem_range] at hn hn'
    apply hinj q n n' hq hm hn hn'
    have h1 := (hrange q n hq hm hn).1
    have h2 := (hrange q n' hq hm hn').1
    omega
  rw [← Finset.sum_subset hsubset hzero, Finset.sum_image hinj']
  apply Finset.sum_congr rfl
  intro n hn
  rw [Finset.mem_range] at hn
  rw [hpos n hn,
    synthesized_at_target inp v ⟨hlen, hrange, hinj, hord⟩ q b s n hq hm hb hs hn,
    normSq_term_smul]

/-- Squared norm of a synthesized band: `scaleFac^2` times that of the unit-cell band. -/
theorem synthesized_normSq (inp : SynthInput R K) (v : SupVars R K)
    (hwf : inp.wellFormed) (q b : ℕ) (hq : q < inp.nStates)
    (hm : inp.isMine (inp.stateMap q).qSup) (hb : b < inp.nBands) :
    normSq inp.nSpinor (inp.nbasisSup (inp.stateMap q).qSup)
        ((setSupState inp v).C (inp.stateMap q).qSup
          (b + inp.nBands * (inp.stateMap q).nqPrev))
      = (inp.scaleFac * inp.scaleFac) • normSq inp.nSpinor (inp.nbasis q) (inp.C q b) := by
  unfold normSq
  rw [Finset.smul_sum]
  apply Finset.sum_congr rfl
  intro s hs
  rw [Finset.mem_range] at hs
  rw [synthesized_block_sum inp v hwf q b s hq hm hb hs, Finset.smul_sum]

/-- The example synthesis input has the properties that setup establishes. -/
theorem exSynth_wellFormed : exSynth.wellFormed := by
  refine ⟨?_, ?_, ?_, ?_⟩
  · intro q _ _
    rfl
  · intro q i hq _ hi
    have hq4 : q < 4 := hq
    have hi1 : i < 1 := hi
    interval_cases i
    interval_cases q <;> decide
  · intro q i j _ _ hi hj _
    have hi1 : i < 1 := hi
    have hj1 : j < 1 := hj
    omega
  · intro q q' _ _ hne _ h
    exact hne h

/-- The orbitals of the example are of unit norm. -/
theorem exSynth_unit_norm (q : ℕ) : normSq exSynth.nSpinor (exSynth.nbasis q) (exSynth.C q 0) = 1 := by
  simp [normSq, exSynth]

/-! ### The state map built by setup has the properties used by the synthesis -/

/-- Ordinals of states with the same supercell state increase with the state index. -/
theorem nqPrev_strictMono (nStates : ℕ) (plookFind : ℕ → Option ℕ)
    (iGround : ℕ → ℕ → vector3 ℤ) (sm : ℕ → StateMapEntry) (nq : ℕ → ℕ)
    (h : mapStatesLoop nStates plookFind iGround = Except.ok (sm, nq))
    (q q' : ℕ) (hqq : q < q') (hq' : q' < nStates) (hs : (sm q).qSup = (sm q').qSup) :
    (sm q).nqPrev < (sm q').nqPrev := by
  obtain ⟨hfind, hord, _, _, _⟩ := mapStatesLoop_inv plookFind iGround nStates sm nq h
  rw [hord q (by omega), hord q' hq', ← hs]
  have h1 := lookupCount_succ plookFind q (sm q).qSup
  rw [if_pos (hfind q (by omega))] at h1
  have h2 := lookupCount_mono plookFind (sm q).qSup (show q + 1 ≤ q' from hqq)
  omega

/-- Scaling by non-zero replication counts and shifting is injective on plane waves. -/
theorem iGsupOf_inj (sup iG v w : vector3 ℤ) (hsup : ∀ j, sup j ≠ 0)
    (h : iGsupOf sup iG v = iGsupOf sup iG w) : v = w := by
  funext j
  have hj := congrFun h j
  unfold iGsupOf at hj
  have : v j * sup j = w j * sup j := by linarith
  exact mul_right_cancel₀ (hsup j) this

/-- After `mapStates` and `mapBasis` have completed, with plane waves inside the lookup box,
pairwise distinct unit-cell plane waves and non-zero replication counts, every synthesis
input that uses the resulting state map is well formed. -/
theorem setup_wellFormed (nStates nSup : ℕ) (prodSup : ℤ) (plookFind : ℕ → Option ℕ)
    (iGround : ℕ → ℕ → vector3 ℤ) (qStart qStop : ℕ) (sup iGbox : vector3 ℤ)
    (basisSup basis : ℕ → List (vector3 ℤ)) (sm sm' : ℕ → StateMapEntry)
    (hmap : mapStates nStates nSup prodSup plookFind iGround = Except.ok sm)
    (hbasis : mapBasis qStart qStop nStates sup iGbox basisSup basis sm = Except.ok sm')
    (hboxSup : ∀ qSup, qStart ≤ qSup → qSup < qStop → ∀ v, v ∈ basisSup qSup → inBox iGbox v)
    (hboxImg : ∀ q, q < nStates → qStart ≤ (sm q).qSup → (sm q).qSup < qStop →
      ∀ v, v ∈ basis q → inBox iGbox (iGsupOf sup (sm q).iG v))
    (hsup : ∀ j, sup j ≠ 0) (hnd : ∀ q, q < nStates → (basis q).Nodup)
    (inp : SynthInput R K) (h1 : inp.qStart = qStart) (h2 : inp.qStop = qStop)
    (h3 : inp.nStates = nStates) (h4 : inp.stateMap = sm')
    (h5 : ∀ q, inp.nbasis q = (basis q).length)
    (h6 : ∀ Q, inp.nbasisSup Q = (basisSup Q).length) : inp.wellFormed := by
  obtain ⟨nq, hloop, _⟩ := (mapStates_ok_iff _ _ _ _ _ _).1 hmap
  rw [mapBasis_eq] at hbasis
  obtain ⟨hfields, hidx, _⟩ := mapBasis_fold_ok sup iGbox basisSup basis _ sm sm' hbasis
  have hown : ∀ q, inp.isMine (inp.stateMap q).qSup →
      qStart ≤ (sm q).qSup ∧ (sm q).qSup < qStop := by
    intro q hm
    unfold SynthInput.isMine at hm
    rw [h1, h2, h4, (hfields q).1] at hm
    exact hm
  have hentry : ∀ q, q < nStates → qStart ≤ (sm q).qSup → (sm q).qSup < qStop →
      (sm' q).index = indexVecOf sup iGbox (basisSup (sm q).qSup) (basis q) (sm q).iG ∧
      ∀ i, i < (basis q).length → ∃ m : ℕ, m < (basisSup (sm q).qSup).length ∧
        (basisSup (sm q).qSup).getD m 0 = iGsupOf sup (sm q).iG ((basis q).getD i 0) ∧
        (sm' q).index.getD i 0 = (m : ℤ) := by
    intro q hq ha hb
    obtain ⟨hgood, hix⟩ := hidx ((sm q).qSup, q)
      ((mem_owned_pairs qStart qStop nStates _).2 ⟨⟨ha, hb⟩, hq⟩) rfl
    refine ⟨hix, ?_⟩
    intro i hi
    have hlen : i < (indexVecOf sup iGbox (basisSup (sm q).qSup) (basis q) (sm q).iG).length := by
      rw [indexVecOf_length]; exact hi
    have hval := indexVecOf_getD sup iGbox (basisSup (sm q).qSup) (basis q) (sm q).iG i hi
    rw [List.getD_eq_getElem _ _ hlen] at hval
    rcases table_lookup_in_box iGbox (basisSup (sm q).qSup)
        (iGsupOf sup (sm q).iG ((basis q).getD i 0)) (hboxSup _ ha hb)
        (hboxImg q hq ha hb _ (getD_mem_of_lt (basis q) 0 i hi)) with ⟨_, hneg⟩ | ⟨m, hm, hc, hv⟩
    · exfalso
      have := hgood _ (List.getElem_mem hlen)
      rw [hval, hneg] at this
      omega
    · refine ⟨m, hm, hc, ?_⟩
      rw [hix, List.getD_eq_getElem _ _ hlen, hval, hv]
  refine ⟨?_, ?_, ?_, ?_⟩
  · intro q hq hm
    rw [h3] at hq
    obtain ⟨ha, hb⟩ := hown q hm
    rw [h4, (hentry q hq ha hb).1, indexVecOf_length, h5]
  · intro q i hq hm hi
    rw [h3] at hq
    obtain ⟨ha, hb⟩ := hown q hm
    rw [h5] at hi
    obtain ⟨m, hm', _, hv⟩ := (hentry q hq ha hb).2 i hi
    rw [h4, hv, h6, (hfields q).1]
    exact ⟨Int.natCast_nonneg m, by exact_mod_cast hm'⟩
  · intro q i j hq hm hi hj heq
    rw [h3] at hq
    obtain ⟨ha, hb⟩ := hown q hm
    rw [h5] at hi hj
    obtain ⟨m, _, hc, hv⟩ := (hentry q hq ha hb).2 i hi
    obtain ⟨m', _, hc', hv'⟩ := (hentry q hq ha hb).2 j hj
    rw [h4, hv, hv'] at heq
    have hmm : m = m' := by exact_mod_cast heq
    rw [hmm, hc'] at hc
    have hvw := iGsupOf_inj sup (sm q).iG _ _ hsup hc
    rw [List.getD_eq_getElem _ _ hi, List.getD_eq_getElem _ _ hj] at hvw
    exact ((List.Nodup.getElem_inj_iff (hnd q hq)).1 hvw).symm
  · intro q q' hq hq' hne hs
    rw [h3] at hq hq'
    rw [h4, (hfields q).1, (hfields q').1] at hs
    rw [h4, (hfields q).2.2, (hfields q').2.2]
    rcases Nat.lt_or_gt_of_ne hne with hlt | hgt
    · exact Nat.ne_of_lt (nqPrev_strictMono nStates plookFind iGround sm nq hloop q q' hlt hq' hs)
    · exact Nat.ne_of_gt
        (nqPrev_strictMono nStates plookFind iGround sm nq hloop q' q hgt hq hs.symm)

end SynthLemmas

end Phonon

/-! ## The scale factor, stored table entries, and the example outside the lookup box -/

namespace Phonon

theorem toInt32_of_range (x : ℤ) (h : -2147483648 ≤ x ∧ x < 2147483648) : toInt32 x = x := by
  unfold toInt32
  omega

/-- The factor of line 334 when the products are representable in `int`. -/
theorem scaleFacOf_eq {R : Type} [Field R] (sqrt : R → R) (sup : vector3 ℤ)
    (h1 : -2147483648 ≤ sup 0 * sup 1 ∧ sup 0 * sup 1 < 2147483648)
    (h2 : -2147483648 ≤ sup 0 * sup 1 * sup 2 ∧ sup 0 * sup 1 * sup 2 < 2147483648) :
    scaleFacOf sqrt sup = 1 / sqrt ((sup 0 * sup 1 * sup 2 : ℤ) : R) := by
  unfold scaleFacOf
  rw [toInt32_of_range _ h1, toInt32_of_range _ h2]

/-- The table holds `n` at the slot of the supercell plane wave `n`, when the supercell plane
waves are pairwise distinct and inside the box. -/
theorem supIndexTable_stores (iGbox : vector3 ℤ) (iGarrSup : List (vector3 ℤ))
    (hboxSup : ∀ v, v ∈ iGarrSup → inBox iGbox v) (hnd : iGarrSup.Nodup) (n : ℕ)
    (hn : n < iGarrSup.length) :
    supIndexTable iGbox iGarrSup (slotOf iGbox (iGarrSup.getD n 0)) = (n : ℤ) := by
  rcases supIndexTable_spec iGbox iGarrSup (slotOf iGbox (iGarrSup.getD n 0)) with
    ⟨hnone, _⟩ | ⟨m, hm, hs, hval⟩
  · exact absurd rfl (hnone n hn)
  · have hv := slotOf_inj iGbox _ _ (hboxSup _ (getD_mem_of_lt iGarrSup 0 m hm))
      (hboxSup _ (getD_mem_of_lt iGarrSup 0 n hn)) hs
    rw [List.getD_eq_getElem _ _ hm, List.getD_eq_getElem _ _ hn] at hv
    have hmn : m = n := (List.Nodup.getElem_inj_iff hnd).1 hv
    rw [hval, hmn]

/-- The loop "Map states" for a single k-point found at supercell state 0 with offset 0 and
`prod(sup) = 1` gives the state map `exStateMapOne`. -/
theorem mapStates_one :
    mapStates 1 1 1 (fun _ => some 0) (fun _ _ => 0) = Except.ok exStateMapOne := by
  have h : mapStatesLoop 1 (fun _ => some 0) (fun _ _ => 0)
      = Except.ok (exStateMapOne, Function.update (fun _ => 0) 0 1) := by
    unfold mapStatesLoop
    rw [show List.range 1 = [0] from rfl, List.foldl_cons, List.foldl_nil]
    simp only [mapStatesStep]
    congr 2
    funext q
    unfold exStateMapOne
    by_cases hq : q = 0
    · subst hq
      simp
    · simp [hq]
  unfold mapStates
  rw [h]
  simp

/-- The remap table of the example outside the box: both unit-cell plane waves read slot 15. -/
theorem indexVecOf_alias :
    indexVecOf exSupOne exBoxOne (exBasisSupAlias 0) (exBasisAlias 0) 0 = [0, 0] := by
  decide

/-- The remap construction completes on the example outside the box. -/
theorem mapBasis_alias :
    mapBasis 0 1 1 exSupOne exBoxOne exBasisSupAlias exBasisAlias exStateMapOne
      = Except.ok exStateMapAlias := by
  rfl

/-- The remap table of the example inside the box. -/
theorem indexVecOf_example :
    indexVecOf exSup exBox (exBasisSup 0) (exBasis 0) 0 = [0, 3, 4] := by
  decide

end Phonon

/-! ## Checks of `Phonon::setup` and replication of the atoms -/

namespace Phonon

/-- The three steps of the loop over the lattice directions, written out. -/
theorem kfold_fold_unfold (sup kfold : vector3 ℤ) (st : Except SetupError (vector3 ℤ)) :
    ([0, 1, 2] : List (Fin 3)).foldl (kfoldStep sup kfold) st
      = kfoldStep sup kfold (kfoldStep sup kfold (kfoldStep sup kfold st 0) 1) 2 := rfl

/-- A step of the loop whose divisor is admissible and divides the folding stores the
quotient. -/
theorem kfoldStep_ok (sup kfold kfoldSup : vector3 ℤ) (j : Fin 3)
    (hdef : sup j ≠ 0 ∧ ¬ (kfold j = -2147483648 ∧ sup j = -1))
    (hdiv : Int.tmod (kfold j) (sup j) = 0) :
    kfoldStep sup kfold (.ok kfoldSup) j
      = .ok (Function.update kfoldSup j (Int.tdiv (kfold j) (sup j))) := by
  unfold kfoldStep
  have h1 : ¬ (sup j = 0 ∨ (kfold j = -2147483648 ∧ sup j = -1)) := by
    rintro (h | h)
    · exact hdef.1 h
    · exact hdef.2 h
  simp only [if_neg h1, hdiv, ne_eq, not_true_eq_false, if_false]

/-- A step of the loop whose divisor is admissible and does not divide the folding ends the
run with the message of line 52. -/
theorem kfoldStep_die (sup kfold kfoldSup : vector3 ℤ) (j : Fin 3)
    (hdef : sup j ≠ 0 ∧ ¬ (kfold j = -2147483648 ∧ sup j = -1))
    (hdiv : Int.tmod (kfold j) (sup j) ≠ 0) :
    kfoldStep sup kfold (.ok kfoldSup) j
      = .error (.kfoldNotMultiple (kfold j) (sup j) j) := by
  unfold kfoldStep
  have h1 : ¬ (sup j = 0 ∨ (kfold j = -2147483648 ∧ sup j = -1)) := by
    rintro (h | h)
    · exact hdef.1 h
    · exact hdef.2 h
  simp only [if_neg h1, ne_eq, hdiv, not_false_eq_true, if_true]

/-- An error is passed on by the later steps of the loop. -/
theorem kfoldStep_error (sup kfold : vector3 ℤ) (err : SetupError) (j : Fin 3) :
    kfoldStep sup kfold (.error err) j = .error err := rfl

/-- The loop over the lattice directions raises only its own two errors. -/
theorem kfold_fold_error (sup kfold kfoldSup0 : vector3 ℤ) (err : SetupError)
    (h : ([0, 1, 2] : List (Fin 3)).foldl (kfoldStep sup kfold) (.ok kfoldSup0) = .error err) :
    ∃ j, err = .kfoldNotMultiple (kfold j) (sup j) j ∨ err = .undefinedModulo j := by
  have hstep : ∀ (st : Except SetupError (vector3 ℤ)) (j : Fin 3),
      (∀ e, st = .error e →
        ∃ i, e = .kfoldNotMultiple (kfold i) (sup i) i ∨ e = .undefinedModulo i) →
      ∀ e, kfoldStep sup kfold st j = .error e →
        ∃ i, e = .kfoldNotMultiple (kfold i) (sup i) i ∨ e = .undefinedModulo i := by
    intro st j hst e he
    cases st with
    | error e0 => exact hst e (by rw [← he]; rfl)
    | ok v =>
      unfold kfoldStep at he
      simp only at he
      split_ifs at he with h1 h2
      · exact ⟨j, Or.inr (by injection he with he; exact he.symm)⟩
      · exact ⟨j, Or.inl (by injection he with he; exact he.symm)⟩
  rw [kfold_fold_unfold] at h
  refine hstep _ 2 (hstep _ 1 (hstep _ 0 ?_)) err h
  intro e he
  cases he

/-- Truncating remainder zero is divisibility. -/
theorem tmod_eq_zero_iff_dvd (a b : ℤ) : Int.tmod a b = 0 ↔ b ∣ a :=
  ⟨Int.dvd_of_tmod_eq_zero, Int.tmod_eq_zero_of_dvd⟩

/-- A real vector with zero squared length is the zero vector. -/
theorem vector3_length_squared_eq_zero_iff {R : Type} [LinearOrderedField R] (k : vector3 R) :
    vector3.length_squared k = 0 ↔ k = 0 := by
  unfold vector3.length_squared
  constructor
  · intro h
    have h0 := mul_self_nonneg (k 0)
    have h1 := mul_self_nonneg (k 1)
    have h2 := mul_self_nonneg (k 2)
    have e0 : k 0 * k 0 = 0 := by linarith
    have e1 : k 1 * k 1 = 0 := by linarith
    have e2 : k 2 * k 2 = 0 := by linarith
    funext j
    fin_cases j
    · exact mul_self_eq_zero.mp e0
    · exact mul_self_eq_zero.mp e1
    · exact mul_self_eq_zero.mp e2
  · intro h
    subst h
    simp

/-! ### Replication of the atoms -/

/-- A loop that appends a block per iteration builds the concatenation of the blocks. -/
theorem foldl_append_flatMap {α ι : Type} (body : List α → ι → List α) (g : ι → List α)
    (h : ∀ acc i, body acc i = acc ++ g i) (l : List ι) (acc : List α) :
    l.foldl body acc = acc ++ l.flatMap g := by
  induction l generalizing acc with
  | nil => simp
  | cons x xs ih =>
    rw [List.foldl_cons, ih, h, List.flatMap_cons, List.append_assoc]

/-- A loop of `push_back` appends the mapped list. -/
theorem foldl_push_back {α β : Type} (f : β → α) (l : List β) (acc : List α) :
    l.foldl (fun acc x => acc ++ [f x]) acc = acc ++ l.map f := by
  induction l generalizing acc with
  | nil => simp
  | cons x xs ih =>
    rw [List.foldl_cons, ih, List.map_cons, List.append_assoc]
    rfl

/-- The replicated positions as a concatenation: cells in the order of the counters
`(iR[0], iR[1], iR[2])`, last counter fastest, and within a cell the unit-cell order. -/
theorem replicateAtoms_eq {R : Type} [Ring R] (sup : vector3 ℤ)
    (invSup : Matrix (Fin 3) (Fin 3) R) (atpos : List (vector3 R)) :
    replicateAtoms sup invSup atpos
      = (List.range (sup 0).toNat).flatMap fun i0 =>
          (List.range (sup 1).toNat).flatMap fun i1 =>
            (List.range (sup 2).toNat).flatMap fun i2 =>
              atpos.map fun pos => invSup.mulVec (addOffset pos (offsetOf i0 i1 i2)) := by
  unfold replicateAtoms
  rw [foldl_append_flatMap _ (fun i0 =>
    (List.range (sup 1).toNat).flatMap fun i1 =>
      (List.range (sup 2).toNat).flatMap fun i2 =>
        atpos.map fun pos => invSup.mulVec (addOffset pos (offsetOf i0 i1 i2)))]
  · simp
  intro acc0 i0
  rw [foldl_append_flatMap _ (fun i1 =>
      (List.range (sup 2).toNat).flatMap fun i2 =>
        atpos.map fun pos => invSup.mulVec (addOffset pos (offsetOf i0 i1 i2)))]
  intro acc1 i1
  rw [foldl_append_flatMap _ (fun i2 =>
        atpos.map fun pos => invSup.mulVec (addOffset pos (offsetOf i0 i1 i2)))]
  intro acc2 i2
  exact foldl_push_back _ atpos acc2

/-- A concatenation of `m` blocks of the same length `L`: its length is `m * L`, and entry
`i * L + k` is entry `k` of block `i`. -/
theorem flatMap_blocks {α : Type} (d : α) (L : ℕ) (f : ℕ → List α) (m : ℕ)
    (hL : ∀ i, i < m → (f i).length = L) :
    ((List.range m).flatMap f).length = m * L ∧
      ∀ i k, i < m → k < L →
        ((List.range m).flatMap f).getD (i * L + k) d = (f i).getD k d := by
  induction m with
  | zero => exact ⟨by simp, fun i k hi => absurd hi (Nat.not_lt_zero i)⟩
  | succ m ih =>
    obtain ⟨hlen, hget⟩ := ih (fun i hi => hL i (Nat.lt_succ_of_lt hi))
    have hrw : (List.range (m + 1)).flatMap f = (List.range m).flatMap f ++ f m := by
      rw [List.range_succ, List.flatMap_append]
      simp
    rw [hrw]
    refine ⟨?_, ?_⟩
    · rw [List.length_append, hlen, hL m (Nat.lt_succ_self m), Nat.succ_mul]
    · intro i k hi hk
      rcases Nat.lt_succ_iff_lt_or_eq.mp hi with him | him
      · have hlt : i * L + k < ((List.range m).flatMap f).length := by
          rw [hlen]
          calc i * L + k < i * L + L := Nat.add_lt_add_left hk _
            _ = (i + 1) * L := (Nat.succ_mul i L).symm
            _ ≤ m * L := Nat.mul_le_mul_right L him
        rw [List.getD_append _ _ _ _ hlt]
        exact hget i k him hk
      · subst him
        have hge : ((List.range i).flatMap f).length ≤ i * L + k := by
          rw [hlen]
          exact Nat.le_add_right _ _
        rw [List.getD_append_right _ _ _ _ hge, hlen, Nat.add_sub_cancel_left]

/-- Quotient and remainder are unique. -/
theorem mul_add_unique (n x a y b : ℕ) (ha : a < n) (hb : b < n)
    (h : x * n + a = y * n + b) : x = y ∧ a = b := by
  have hn : 0 < n := Nat.lt_of_le_of_lt (Nat.zero_le a) ha
  have h1 : (x * n + a) / n = x := by
    rw [Nat.add_comm, Nat.add_mul_div_right _ _ hn, Nat.div_eq_of_lt ha, Nat.zero_add]
  have h2 : (y * n + b) / n = y := by
    rw [Nat.add_comm, Nat.add_mul_div_right _ _ hn, Nat.div_eq_of_lt hb, Nat.zero_add]
  have hxy : x = y := by rw [← h1, h, h2]
  subst hxy
  exact ⟨rfl, Nat.add_left_cancel h⟩

/-- A digit below its radix keeps the mixed-radix number below the next power. -/
theorem mul_add_lt (i a m n : ℕ) (hi : i < m) (ha : a < n) : i * n + a < m * n :=
  calc i * n + a < i * n + n := Nat.add_lt_add_left ha _
    _ = (i + 1) * n := (Nat.succ_mul i n).symm
    _ ≤ m * n := Nat.mul_le_mul_right n hi

/-- Length of the replicated list and its entry at `imageIndex`. -/
theorem replicateAtoms_spec {R : Type} [Ring R] (sup : vector3 ℤ)
    (invSup : Matrix (Fin 3) (Fin 3) R) (atpos : List (vector3 R)) :
    (replicateAtoms sup invSup atpos).length
        = (sup 0).toNat * ((sup 1).toNat * ((sup 2).toNat * atpos.length)) ∧
      ∀ i0 i1 i2 a, i0 < (sup 0).toNat → i1 < (sup 1).toNat → i2 < (sup 2).toNat →
        a < atpos.length →
        (replicateAtoms sup invSup atpos).getD (imageIndex sup atpos.length i0 i1 i2 a) 0
          = invSup.mulVec (addOffset (atpos.getD a 0) (offsetOf i0 i1 i2)) := by
  have leaf : ∀ i0 i1 i2 : ℕ,
      (atpos.map fun pos => invSup.mulVec (addOffset pos (offsetOf i0 i1 i2))).length
        = atpos.length := fun _ _ _ => List.length_map _ _
  have lvl2 := fun i0 i1 : ℕ => flatMap_blocks (0 : vector3 R) atpos.length
    (fun i2 => atpos.map fun pos => invSup.mulVec (addOffset pos (offsetOf i0 i1 i2)))
    (sup 2).toNat (fun i2 _ => leaf i0 i1 i2)
  have lvl1 := fun i0 : ℕ => flatMap_blocks (0 : vector3 R) ((sup 2).toNat * atpos.length)
    (fun i1 => (List.range (sup 2).toNat).flatMap fun i2 =>
      atpos.map fun pos => invSup.mulVec (addOffset pos (offsetOf i0 i1 i2)))
    (sup 1).toNat (fun i1 _ => (lvl2 i0 i1).1)
  have lvl0 := flatMap_blocks (0 : vector3 R)
    ((sup 1).toNat * ((sup 2).toNat * atpos.length))
    (fun i0 => (List.range (sup 1).toNat).flatMap fun i1 =>
      (List.range (sup 2).toNat).flatMap fun i2 =>
        atpos.map fun pos => invSup.mulVec (addOffset pos (offsetOf i0 i1 i2)))
    (sup 0).toNat (fun i0 _ => (lvl1 i0).1)
  rw [replicateAtoms_eq]
  refine ⟨lvl0.1, ?_⟩
  intro i0 i1 i2 a h0 h1 h2 ha
  have hidx : imageIndex sup atpos.length i0 i1 i2 a
      = i0 * ((sup 1).toNat * ((sup 2).toNat * atpos.length))
        + (i1 * ((sup 2).toNat * atpos.length) + (i2 * atpos.length + a)) := by
    unfold imageIndex
    ring
  have hb2 : i2 * atpos.length + a < (sup 2).toNat * atpos.length := mul_add_lt _ _ _ _ h2 ha
  have hb1 : i1 * ((sup 2).toNat * atpos.length) + (i2 * atpos.length + a)
      < (sup 1).toNat * ((sup 2).toNat * atpos.length) := mul_add_lt _ _ _ _ h1 hb2
  rw [hidx, lvl0.2 i0 _ h0 hb1, (lvl1 i0).2 i1 _ h1 hb2, (lvl2 i0 i1).2 i2 a h2 ha]
  rw [List.getD_eq_getElem _ _ (by rw [List.length_map]; exact ha), List.getElem_map,
    List.getD_eq_getElem _ _ ha]

/-- Every position below `s0*(s1*(s2*n))` is `imageIndex` of exactly one cell and atom. -/
theorem imageIndex_bijective (sup : vector3 ℤ) (n k : ℕ)
    (hk : k < (sup 0).toNat * ((sup 1).toNat * ((sup 2).toNat * n))) :
    ∃! t : ℕ × ℕ × ℕ × ℕ,
      (t.1 < (sup 0).toNat ∧ t.2.1 < (sup 1).toNat ∧ t.2.2.1 < (sup 2).toNat ∧ t.2.2.2 < n) ∧
        imageIndex sup n t.1 t.2.1 t.2.2.1 t.2.2.2 = k := by
  have hn : 0 < n := by
    rcases Nat.eq_zero_or_pos n with h | h
    · subst h
      simp at hk
    · exact h
  have h2 : 0 < (sup 2).toNat := by
    rcases Nat.eq_zero_or_pos (sup 2).toNat with h | h
    · rw [h] at hk
      simp at hk
    · exact h
  have h1 : 0 < (sup 1).toNat := by
    rcases Nat.eq_zero_or_pos (sup 1).toNat with h | h
    · rw [h] at hk
      simp at hk
    · exact h
  refine ⟨(k / n / (sup 2).toNat / (sup 1).toNat, k / n / (sup 2).toNat % (sup 1).toNat,
    k / n % (sup 2).toNat, k % n), ⟨⟨?_, Nat.mod_lt _ h1, Nat.mod_lt _ h2, Nat.mod_lt _ hn⟩, ?_⟩,
    ?_⟩
  · rw [Nat.div_lt_iff_lt_mul h1, Nat.div_lt_iff_lt_mul h2, Nat.div_lt_iff_lt_mul hn]
    calc k < (sup 0).toNat * ((sup 1).toNat * ((sup 2).toNat * n)) := hk
      _ = (sup 0).toNat * (sup 1).toNat * (sup 2).toNat * n := by ring
  · show ((k / n / (sup 2).toNat / (sup 1).toNat * (sup 1).toNat
        + k / n / (sup 2).toNat % (sup 1).toNat) * (sup 2).toNat + k / n % (sup 2).toNat) * n
        + k % n = k
    rw [Nat.div_add_mod', Nat.div_add_mod', Nat.div_add_mod']
  · rintro ⟨i0, i1, i2, a⟩ ⟨⟨-, hi1, hi2, ha⟩, hidx⟩
    simp only at hi1 hi2 ha hidx
    unfold imageIndex at hidx
    have e := Nat.div_add_mod' k n
    have e1 := Nat.div_add_mod' (k / n) (sup 2).toNat
    have e2 := Nat.div_add_mod' (k / n / (sup 2).toNat) (sup 1).toNat
    obtain ⟨hc, ha'⟩ := mul_add_unique n _ a _ (k % n) ha (Nat.mod_lt _ hn) (hidx.trans e.symm)
    obtain ⟨hc1, hi2'⟩ := mul_add_unique (sup 2).toNat _ i2 _ (k / n % (sup 2).toNat) hi2
      (Nat.mod_lt _ h2) (hc.trans e1.symm)
    obtain ⟨hi0', hi1'⟩ := mul_add_unique (sup 1).toNat i0 i1 _
      (k / n / (sup 2).toNat % (sup 1).toNat) hi1 (Nat.mod_lt _ h1) (hc1.trans e2.symm)
    rw [hi0', hi1', hi2', ha']

/-! ### The cell index of `Phonon::dump` and the replication order -/

/-- A value in the range of `int16_t` is unchanged by the conversion. -/
theorem toInt16_of_range (x : ℤ) (h1 : -32768 ≤ x) (h2 : x < 32768) : toInt16 x = x := by
  unfold toInt16
  omega

/-- A value in the range of `uint16_t` is unchanged by the conversion. -/
theorem toUInt16_of_range (x : ℤ) (h1 : 0 ≤ x) (h2 : x < 65536) : toUInt16 x = x := by
  unfold toUInt16
  omega

/-- Within the 16-bit ranges of its parameters `positiveRemainder` is the remainder in
`[0, y)`. -/
theorem positiveRemainder_eq_emod (x y : ℤ) (hx1 : -32768 ≤ x) (hx2 : x < 32768)
    (hy1 : 0 < y) (hy2 : y < 65536) :
    positiveRemainder (toInt16 x) (toUInt16 y) = x % y := by
  rw [toInt16_of_range x hx1 hx2, toUInt16_of_range y hy1.le hy2]
  obtain ⟨n, rfl⟩ := Int.eq_ofNat_of_zero_le hy1.le
  have hn : 0 < n := by exact_mod_cast hy1
  unfold positiveRemainder
  cases x with
  | ofNat a =>
    have ht : Int.tmod (Int.ofNat a) (n : ℤ) = ((a % n : ℕ) : ℤ) := rfl
    have hle : a % n ≤ a := Nat.mod_le a n
    have ha : (a : ℤ) < 32768 := hx2
    have hr : toInt16 ((a % n : ℕ) : ℤ) = ((a % n : ℕ) : ℤ) :=
      toInt16_of_range _ (by omega) (by omega)
    simp only [ht, hr]
    rw [if_neg (by omega), toUInt16_of_range _ (by omega) (by omega)]
    exact Int.natCast_mod a n
  | negSucc m =>
    have ht : Int.tmod (Int.negSucc m) (n : ℤ) = -(((m + 1) % n : ℕ) : ℤ) := rfl
    have hle : (m + 1) % n ≤ m + 1 := Nat.mod_le _ n
    have hlt : (m + 1) % n < n := Nat.mod_lt _ hn
    have hm : -32768 ≤ Int.negSucc m := hx1
    have hm' : Int.negSucc m = -((m : ℤ) + 1) := Int.negSucc_eq m
    have hr : toInt16 (-(((m + 1) % n : ℕ) : ℤ)) = -(((m + 1) % n : ℕ) : ℤ) :=
      toInt16_of_range _ (by omega) (by omega)
    have hdec : ((m : ℤ) + 1) = n * (((m + 1) / n : ℕ) : ℤ) + (((m + 1) % n : ℕ) : ℤ) := by
      exact_mod_cast (Nat.div_add_mod (m + 1) n).symm
    simp only [ht, hr]
    by_cases h0 : (m + 1) % n = 0
    · rw [h0] at hdec ⊢
      simp only [Nat.cast_zero, neg_zero, lt_self_iff_false, if_false]
      rw [toUInt16_of_range 0 (by omega) (by omega), hm']
      have : -((m : ℤ) + 1) = 0 + (n : ℤ) * (-(((m + 1) / n : ℕ) : ℤ)) := by
        rw [hdec]; ring
      rw [this, Int.add_mul_emod_self_left]
      rfl
    · have hpos : 0 < (m + 1) % n := Nat.pos_of_ne_zero h0
      rw [if_pos (by omega), toUInt16_of_range _ (by omega) (by omega), hm']
      have : -((m : ℤ) + 1)
          = ((n : ℤ) + -(((m + 1) % n : ℕ) : ℤ)) + (n : ℤ) * (-(((m + 1) / n : ℕ) : ℤ) - 1) := by
        rw [hdec]; ring
      rw [this, Int.add_mul_emod_self_left, Int.emod_eq_of_lt (by omega) (by omega)]

end Phonon

/-! ## The displacement loop of `Phonon::dump` -/

namespace Phonon

/-- The calls made by one iteration of the loop over the modes. -/
theorem displaceMode_log {R C : Type} [Ring R] (dr : R) (st : DumpState R C) (mode : Mode) :
    (displaceMode dr st mode).log
      = st.log ++ modeEvents dr st.cntrl.dragWavefunctions mode := by
  simp [displaceMode, iminStep, iminCompute, callSetSupState, callGetHsub, modeEvents]

/-- One iteration of the loop over the modes leaves `eSup.cntrl` as it found it. -/
theorem displaceMode_cntrl {R C : Type} [Ring R] (dr : R) (st : DumpState R C) (mode : Mode) :
    (displaceMode dr st mode).cntrl = st.cntrl := by
  simp [displaceMode, iminStep, iminCompute, callSetSupState, callGetHsub]

/-- One iteration of the loop over the modes leaves the atomic positions as it found them. -/
theorem displaceMode_atpos {R C : Type} [Ring R] (dr : R) (st : DumpState R C) (mode : Mode) :
    (displaceMode dr st mode).atpos = st.atpos := by
  funext sp a d
  simp [displaceMode, iminStep, iminCompute, callSetSupState, callGetHsub, add_assoc]

/-- The loop over the modes: positions, settings and calls after all iterations. -/
theorem displacementLoop_spec {R C : Type} [Ring R] (dr : R) (modes : List Mode)
    (st : DumpState R C) :
    (displacementLoop dr modes st).atpos = st.atpos ∧
      (displacementLoop dr modes st).cntrl = st.cntrl ∧
      (displacementLoop dr modes st).log
        = st.log ++ modes.flatMap (modeEvents dr st.cntrl.dragWavefunctions) := by
  unfold displacementLoop
  induction modes generalizing st with
  | nil => simp
  | cons mode rest ih =>
    obtain ⟨h1, h2, h3⟩ := ih (displaceMode dr st mode)
    rw [List.foldl_cons]
    refine ⟨?_, ?_, ?_⟩
    · rw [h1, displaceMode_atpos]
    · rw [h2, displaceMode_cntrl]
    · rw [h3, displaceMode_cntrl, displaceMode_log, List.flatMap_cons, List.append_assoc]

/-- The calls of lines 189-229 of `Phonon::dump`. -/
theorem dumpDriver_log {R C : Type} [Ring R] (dr : R) (modes : List Mode)
    (st : DumpState R C) :
    (dumpDriver dr modes st).log
      = st.log ++ [DumpEvent.setSupState, DumpEvent.compute, DumpEvent.setSupState,
          DumpEvent.getHsub]
        ++ modes.flatMap (modeEvents dr st.cntrl.dragWavefunctions) := by
  unfold dumpDriver
  rw [(displacementLoop_spec dr modes _).2.2]
  simp [iminCompute, callSetSupState, callGetHsub]

/-- In the concatenation of the calls of the iterations every `getHsub` directly follows a
`setSupState`. -/
theorem modeEvents_chain {R : Type} [Ring R] (dr : R) (flag : Bool) (modes : List Mode) :
    List.Chain' (fun a b : DumpEvent R =>
        b.kind = EventKind.getHsub → a.kind = EventKind.setSupState)
      (modes.flatMap (modeEvents dr flag)) ∧
    ∀ e, e ∈ (modes.flatMap (modeEvents dr flag)).head? → e.kind = EventKind.step := by
  induction modes with
  | nil => simp
  | cons mode rest ih =>
    obtain ⟨hc, hh⟩ := ih
    constructor
    · rw [List.flatMap_cons, List.chain'_append]
      refine ⟨?_, hc, ?_⟩
      · simp [modeEvents, DumpEvent.kind]
      · intro x _ y hy hk
        have := hh y hy
        rw [this] at hk
        cases hk
    · intro e he
      simp only [List.flatMap_cons, modeEvents, List.cons_append, List.head?_cons,
        Option.mem_def, Option.some.injEq] at he
      rw [← he]
      rfl

end Phonon

/-! ## Claims on the Hermitization step -/

namespace Phonon

section DumpClaims

variable {R K : Type} [Field R] [StarRing R] [TrivialStar R]
  [Field K] [StarRing K] [Algebra R K] [StarModule R K]

/-- C3 (as amended): for every pair of cells `(R, R2)` of the cell map whose offsets sum to
exactly zero (`R + R2 = 0` as integer vectors, the self-paired `R = 0` included), the
Hermitization loop replaces `block(R)` by `0.5*(M(R) + dagger(M(R2)))` and `block(R2)` by the
conjugate transpose of that matrix, `M` being the blocks before the loop. -/
theorem hermitize_exact_negation_pairs (cellMap : List (vector3 ℤ × R))
    (hnd : (cellMap.map Prod.fst).Nodup) (M : ℕ → matrix K) (i j : ℕ)
    (hi : i < cellMap.length) (hj : j < cellMap.length)
    (hsum : cellKey cellMap i + cellKey cellMap j = 0) :
    (hermitizeLoop cellMap M).1 i = (1 / 2 : R) • (M i + dagger (M j)) ∧
    (hermitizeLoop cellMap M).1 j = dagger ((1 / 2 : R) • (M i + dagger (M j))) := by
  have hij : negIdx cellMap i = j := negIdx_eq hnd hj hsum
  have hji : negIdx cellMap j = i := negIdx_eq hnd hi (by rw [add_comm]; exact hsum)
  have hB := (hermitizeLoop_spec cellMap hnd M).1
  constructor
  · rw [hB i, if_pos ⟨hi, by rw [hij]; exact hj⟩, hij]
  · rw [hB j, if_pos ⟨hj, by rw [hji]; exact hi⟩, hji, dagger_half_add]

/-- Witness of `hermitize_exact_negation_pairs`: the cells `(-1,0,0)` and `(1,0,0)` of the
example cell map, with the blocks that the cell mapping builds. -/
theorem hermitize_exact_negation_pairs_witness :
    (exCellMap.map Prod.fst).Nodup ∧ cellKey exCellMap 0 + cellKey exCellMap 2 = 0 ∧
    ((hermitizeLoop exCellMap (exOmegaSqOf exCellMap)).1 0
        = (1 / 2 : ℚ) • (exOmegaSqOf exCellMap 0 + dagger (exOmegaSqOf exCellMap 2)) ∧
      (hermitizeLoop exCellMap (exOmegaSqOf exCellMap)).1 2
        = dagger ((1 / 2 : ℚ) • (exOmegaSqOf exCellMap 0 + dagger (exOmegaSqOf exCellMap 2)))) :=
  ⟨by decide, by decide,
    hermitize_exact_negation_pairs exCellMap (by decide) (exOmegaSqOf exCellMap) 0 2
      (by decide) (by decide) (by decide)⟩

/-- C3 (counterexample): `sup = (2,1,1)`, one atom, blocks built by the cell mapping of
`Phonon::dump` (`exOmegaSqOf`).  The cell `R = (1,0,0)` satisfies `R + R ≡ 0 (mod sup)`, so
`(R, R)` is a pair of the claim, which asks for `block(R) = 0.5*(M(R) + dagger(M(R)))`.
First, in the cell map `(-1,0,0) ↦ 1/4, (0,0,0) ↦ 1, (1,0,0) ↦ 3/4` (closed under negation,
weights summing to `prod(sup) = 2`) the step completes and the loop pairs `R` with `(-1,0,0)`:
entry (1,0) of `block(R)` is `1/8`, against `3/8` in `0.5*(M(R) + dagger(M(R)))`.  Second, in
the cell map `(0,0,0) ↦ 1, (1,0,0) ↦ 1`, which holds the negative of `R` modulo `sup` only, no
pair fires for `R`: `block(R)` keeps the entry 1 at (0,1), against `1/2`. -/
theorem hermitize_modulo_pair_not_averaged :
    ((∀ i, i < exCellMapSkew.length →
        ∃ j, j < exCellMapSkew.length ∧ cellKey exCellMapSkew j = -cellKey exCellMapSkew i) ∧
      (exCellMapSkew.map Prod.snd).sum = ((exSup 0 * exSup 1 * exSup 2 : ℤ) : ℚ) ∧
      (∀ d, (cellKey exCellMapSkew 2 d + cellKey exCellMapSkew 2 d) % exSup d = 0) ∧
      enforceHermiticity exCellMapSkew (exOmegaSqOf exCellMapSkew)
        = Except.ok (hermitizeLoop exCellMapSkew (exOmegaSqOf exCellMapSkew)).1 ∧
      (hermitizeLoop exCellMapSkew (exOmegaSqOf exCellMapSkew)).1 2 1 0 = 1 / 8 ∧
      ((1 / 2 : ℚ) • (exOmegaSqOf exCellMapSkew 2 + dagger (exOmegaSqOf exCellMapSkew 2))) 1 0
        = 3 / 8 ∧
      (hermitizeLoop exCellMapSkew (exOmegaSqOf exCellMapSkew)).1 2
        ≠ (1 / 2 : ℚ) • (exOmegaSqOf exCellMapSkew 2 + dagger (exOmegaSqOf exCellMapSkew 2))) ∧
    ((∀ d, (cellKey exCellMapOpen 1 d + cellKey exCellMapOpen 1 d) % exSup d = 0) ∧
      (hermitizeLoop exCellMapOpen (exOmegaSqOf exCellMapOpen)).1 1 0 1 = 1 ∧
      ((1 / 2 : ℚ) • (exOmegaSqOf exCellMapOpen 1 + dagger (exOmegaSqOf exCellMapOpen 1))) 0 1
        = 1 / 2 ∧
      (hermitizeLoop exCellMapOpen (exOmegaSqOf exCellMapOpen)).1 1
        ≠ (1 / 2 : ℚ) • (exOmegaSqOf exCellMapOpen 1 + dagger (exOmegaSqOf exCellMapOpen 1))) := by
  have c0 : cellIndex exSup ![-1, 0, 0] = 1 := by decide
  have c1 : cellIndex exSup ![0, 0, 0] = 0 := by decide
  have c2 : cellIndex exSup ![1, 0, 0] = 1 := by decide
  have hl : (hermitizeLoop exCellMapSkew (exOmegaSqOf exCellMapSkew)).1 2 1 0 = 1 / 8 := by
    rw [(hermitizeLoop_spec exCellMapSkew (by decide) _).1 2, if_pos (by decide),
      show negIdx exCellMapSkew 2 = 0 by decide]
    simp [exOmegaSqOf, remapToCells, dagger, exCellMapSkew, cellKey, cellWeight, exModes1,
      exDgradOff, Fin.ofNat, c0, c1, c2]
    norm_num
  have hr : ((1 / 2 : ℚ) • (exOmegaSqOf exCellMapSkew 2
      + dagger (exOmegaSqOf exCellMapSkew 2))) 1 0 = 3 / 8 := by
    simp [exOmegaSqOf, remapToCells, dagger, exCellMapSkew, cellKey, cellWeight, exModes1,
      exDgradOff, Fin.ofNat, c0, c1, c2]
    norm_num
  have hl2 : (hermitizeLoop exCellMapOpen (exOmegaSqOf exCellMapOpen)).1 1 0 1 = 1 := by
    rw [(hermitizeLoop_spec exCellMapOpen (by decide) _).1 1, if_neg (by decide)]
    simp [exOmegaSqOf, remapToCells, exCellMapOpen, cellKey, cellWeight, exModes1,
      exDgradOff, Fin.ofNat, c1, c2]
  have hr2 : ((1 / 2 : ℚ) • (exOmegaSqOf exCellMapOpen 1
      + dagger (exOmegaSqOf exCellMapOpen 1))) 0 1 = 1 / 2 := by
    simp [exOmegaSqOf, remapToCells, dagger, exCellMapOpen, cellKey, cellWeight, exModes1,
      exDgradOff, Fin.ofNat, c1, c2]
  refine ⟨⟨by decide, by norm_num [exCellMapSkew, exSup], by decide, ?_, hl, hr, ?_⟩,
    by decide, hl2, hr2, ?_⟩
  · exact enforceHermiticity_of_closed exCellMapSkew (by decide) _ (by decide)
  · intro h
    have h10 := congrFun (congrFun h 1) 0
    rw [hl, hr] at h10
    norm_num at h10
  · intro h
    have h01 := congrFun (congrFun h 0) 1
    rw [hl2, hr2] at h01
    norm_num at h01

/-- C4: in the Hermitization loop, when the negative of every offset of the cell map is
present, every cell belongs to exactly one firing pair `(iCell1, iCell2)`, the blocks of the
two cells of a firing pair end as the values that this one firing writes from the blocks `M`
before the loop (`0.5*(M(iCell1) + dagger(M(iCell2)))` and its conjugate transpose: no other
pair modifies them), the counter `nSymmetrizedCells` ends equal to `cellMap.size()` and the
assertion passes; when some offset's negative is absent the counter differs from
`cellMap.size()` and the assertion ends the run; and a cell whose negative is absent is
modified by no pair. -/
theorem hermitize_counter_complete (cellMap : List (vector3 ℤ × R))
    (hnd : (cellMap.map Prod.fst).Nodup) (M : ℕ → matrix K) :
    ((∀ i, i < cellMap.length →
        ∃ j, j < cellMap.length ∧ cellKey cellMap j = -cellKey cellMap i) →
      (∀ i, i < cellMap.length → ∃! p : ℕ × ℕ,
        p.1 < cellMap.length ∧ p.2 < cellMap.length ∧
        (length_squared (cellKey cellMap p.1 + cellKey cellMap p.2) = 0 ∧ p.1 ≤ p.2) ∧
        (i = p.1 ∨ i = p.2)) ∧
      (∀ p : ℕ × ℕ, p.1 < cellMap.length → p.2 < cellMap.length →
        (length_squared (cellKey cellMap p.1 + cellKey cellMap p.2) = 0 ∧ p.1 ≤ p.2) →
        (hermitizeLoop cellMap M).1 p.1 = (1 / 2 : R) • (M p.1 + dagger (M p.2)) ∧
        (hermitizeLoop cellMap M).1 p.2
          = dagger ((1 / 2 : R) • (M p.1 + dagger (M p.2)))) ∧
      (hermitizeLoop cellMap M).2 = cellMap.length ∧
      enforceHermiticity cellMap M = Except.ok (hermitizeLoop cellMap M).1) ∧
    (¬ (∀ i, i < cellMap.length →
        ∃ j, j < cellMap.length ∧ cellKey cellMap j = -cellKey cellMap i) →
      (hermitizeLoop cellMap M).2 ≠ cellMap.length ∧
      enforceHermiticity cellMap M
        = Except.error "assert(nSymmetrizedCells == cellMap.size())") ∧
    (∀ i, i < cellMap.length →
      (¬ ∃ j, j < cellMap.length ∧ cellKey cellMap j = -cellKey cellMap i) →
      (hermitizeLoop cellMap M).1 i = M i) := by
  have hB := (hermitizeLoop_spec cellMap hnd M).1
  refine ⟨?_, ?_, ?_⟩
  · intro hclosed
    have hneg := (closed_iff_negIdx cellMap hnd).1 hclosed
    have hcount := (hermitizeLoop_count_eq_iff cellMap hnd M).2 hneg
    refine ⟨?_, ?_, hcount, ?_⟩
    · intro i hi
      have hji := hneg i hi
      have hkey := cellKey_negIdx hji
      refine ⟨(min i (negIdx cellMap i), max i (negIdx cellMap i)), ?_, ?_⟩
      · refine ⟨?_, ?_, ⟨?_, ?_⟩, ?_⟩
        · exact lt_of_le_of_lt (min_le_left _ _) hi
        · exact max_lt hi hji
        · rw [length_squared_eq_zero_iff]
          rcases le_total i (negIdx cellMap i) with h | h
          · simp only [min_eq_left h, max_eq_right h, hkey]
            simp
          · simp only [min_eq_right h, max_eq_left h, hkey]
            simp
        · exact le_trans (min_le_left _ _) (le_max_left _ _)
        · rcases le_total i (negIdx cellMap i) with h | h
          · exact Or.inl (by simp [min_eq_left h])
          · exact Or.inr (by simp [max_eq_left h])
      · rintro ⟨a, b⟩ ⟨ha, hb, ⟨hz, hab⟩, hmem⟩
        rw [length_squared_eq_zero_iff] at hz
        simp only at ha hb hz hab hmem
        rcases hmem with h | h
        · subst h
          have : negIdx cellMap i = b := negIdx_eq hnd hb hz
          rw [this]
          simp [min_eq_left hab, max_eq_right hab]
        · subst h
          have : negIdx cellMap i = a := negIdx_eq hnd ha (by rw [add_comm]; exact hz)
          rw [this]
          simp [min_eq_right hab, max_eq_left hab]
    · rintro ⟨a, b⟩ ha hb ⟨hz, _⟩
      rw [length_squared_eq_zero_iff] at hz
      simp only at ha hb hz ⊢
      have hab : negIdx cellMap a = b := negIdx_eq hnd hb hz
      have hba : negIdx cellMap b = a := negIdx_eq hnd ha (by rw [add_comm]; exact hz)
      constructor
      · rw [hB a, if_pos ⟨ha, by rw [hab]; exact hb⟩, hab]
      · rw [hB b, if_pos ⟨hb, by rw [hba]; exact ha⟩, hba, dagger_half_add]
    · unfold enforceHermiticity
      simp only []
      rw [if_pos hcount]
  · intro hopen
    have hcount : (hermitizeLoop cellMap M).2 ≠ cellMap.length := by
      intro h
      exact hopen ((closed_iff_negIdx cellMap hnd).2
        ((hermitizeLoop_count_eq_iff cellMap hnd M).1 h))
    refine ⟨hcount, ?_⟩
    unfold enforceHermiticity
    simp only []
    rw [if_neg hcount]
  · intro i _ hno
    rw [hB i, if_neg]
    rintro ⟨_, hlt⟩
    exact hno ⟨negIdx cellMap i, hlt, cellKey_negIdx hlt⟩

/-- Witness of `hermitize_counter_complete`: in the closed cell map with the weights
`1/4, 1, 3/4` the pair of the cells `(-1,0,0)` and `(1,0,0)` fires once and writes both blocks
(entry (0,1) of the block of `(-1,0,0)` goes from `1/4` to `1/8`), and the counter ends at 3;
the cell map without the negative of `(1,0,0)` aborts, its block unmodified. -/
theorem hermitize_counter_complete_witness :
    (exCellMapSkew.map Prod.fst).Nodup ∧
    (hermitizeLoop exCellMapSkew (exOmegaSqOf exCellMapSkew)).1 0
      = (1 / 2 : ℚ) • (exOmegaSqOf exCellMapSkew 0 + dagger (exOmegaSqOf exCellMapSkew 2)) ∧
    exOmegaSqOf exCellMapSkew 0 0 1 = 1 / 4 ∧
    ((1 / 2 : ℚ) • (exOmegaSqOf exCellMapSkew 0 + dagger (exOmegaSqOf exCellMapSkew 2))) 0 1
      = 1 / 8 ∧
    (hermitizeLoop exCellMapSkew (exOmegaSqOf exCellMapSkew)).2 = 3 ∧
    enforceHermiticity exCellMapOpen (exOmegaSqOf exCellMapOpen)
      = Except.error "assert(nSymmetrizedCells == cellMap.size())" ∧
    (hermitizeLoop exCellMapOpen (exOmegaSqOf exCellMapOpen)).1 1 = exOmegaSqOf exCellMapOpen 1 := by
  have c0 : cellIndex exSup ![-1, 0, 0] = 1 := by decide
  have c1 : cellIndex exSup ![0, 0, 0] = 0 := by decide
  have c2 : cellIndex exSup ![1, 0, 0] = 1 := by decide
  refine ⟨by decide, ?_, ?_, ?_, ?_, ?_, ?_⟩
  · exact (((hermitize_counter_complete exCellMapSkew (by decide)
      (exOmegaSqOf exCellMapSkew)).1 (by decide)).2.1 (0, 2) (by decide) (by decide)
      (by decide)).1
  · simp [exOmegaSqOf, remapToCells, exCellMapSkew, cellKey, cellWeight, exModes1,
      exDgradOff, Fin.ofNat, c0, c1, c2]
  · simp [exOmegaSqOf, remapToCells, dagger, exCellMapSkew, cellKey, cellWeight, exModes1,
      exDgradOff, Fin.ofNat, c0, c1, c2]
    norm_num
  · exact ((hermitize_counter_complete exCellMapSkew (by decide)
      (exOmegaSqOf exCellMapSkew)).1 (by decide)).2.2.1
  · exact ((hermitize_counter_complete exCellMapOpen (by decide)
      (exOmegaSqOf exCellMapOpen)).2.1 (by decide)).2
  · exact (hermitize_counter_complete exCellMapOpen (by decide)
      (exOmegaSqOf exCellMapOpen)).2.2 1 (by decide) (by decide)

/-- C2 (as amended): after the sum-rule correction, given a cell map whose weights sum to
`prod(sup)` (non-zero) and a non-zero mass of atom `a`, the sum over all cells of the
on-diagonal 3x3 self-block of atom `a` is the zero matrix if and only if the mass of `a`
times its self-block sum before the correction equals the average over all atoms `b` of
mass(b) times theirs; for a single atom this always holds, so the sum is zero. -/
theorem selfBlockSum_zero_iff [CharZero R] (P : ℤ) (mass : ℕ → R) (modes : List Mode)
    (cellMap : List (vector3 ℤ × R)) (B : ℕ → matrix K)
    (hw : (cellMap.map Prod.snd).sum = (P : R)) (hP : P ≠ 0)
    (a : ℕ) (ha : a < modes.length / 3) (hm : speciesMass mass modes a ≠ 0) :
    (omegaSqSum cellMap.length (fun iCell => matrix_slice
        (enforceTranslationalInvariance P mass modes cellMap B iCell)
        (3 * a) (3 * (a + 1)) (3 * a) (3 * (a + 1))) = 0
      ↔ speciesMass mass modes a •
          matrix_slice (omegaSqSum cellMap.length B) (3 * a) (3 * (a + 1)) (3 * a) (3 * (a + 1))
        = (1 / ((modes.length / 3 : ℕ) : R)) • ∑ b in Finset.range (modes.length / 3),
            speciesMass mass modes b • matrix_slice (omegaSqSum cellMap.length B)
              (3 * b) (3 * (b + 1)) (3 * b) (3 * (b + 1))) ∧
    (modes.length / 3 = 1 →
      omegaSqSum cellMap.length (fun iCell => matrix_slice
        (enforceTranslationalInvariance P mass modes cellMap B iCell)
        (3 * a) (3 * (a + 1)) (3 * a) (3 * (a + 1))) = 0) := by
  have hPR : (P : R) ≠ 0 := Int.cast_ne_zero.2 hP
  have key : (cellMap.map Prod.snd).sum • ((1 / speciesMass mass modes a) •
        Fmean P mass modes (omegaSqSum cellMap.length B))
      = (1 / speciesMass mass modes a) • ((1 / ((modes.length / 3 : ℕ) : R)) •
          ∑ b in Finset.range (modes.length / 3),
            speciesMass mass modes b • matrix_slice (omegaSqSum cellMap.length B)
              (3 * b) (3 * (b + 1)) (3 * b) (3 * (b + 1))) := by
    rw [hw, Fmean_eq, Finset.smul_sum, Finset.smul_sum, Finset.smul_sum, Finset.smul_sum]
    apply Finset.sum_congr rfl
    intro b _
    simp only [smul_smul]
    congr 1
    have hnA : ((modes.length / 3 : ℕ) : R) ≠ 0 := Nat.cast_ne_zero.2 (by omega)
    rw [Int.cast_mul, Int.cast_natCast]
    field_simp
    ring
  have hiff : omegaSqSum cellMap.length (fun iCell => matrix_slice
        (enforceTranslationalInvariance P mass modes cellMap B iCell)
        (3 * a) (3 * (a + 1)) (3 * a) (3 * (a + 1))) = 0
      ↔ speciesMass mass modes a •
          matrix_slice (omegaSqSum cellMap.length B) (3 * a) (3 * (a + 1)) (3 * a) (3 * (a + 1))
        = (1 / ((modes.length / 3 : ℕ) : R)) • ∑ b in Finset.range (modes.length / 3),
            speciesMass mass modes b • matrix_slice (omegaSqSum cellMap.length B)
              (3 * b) (3 * (b + 1)) (3 * b) (3 * (b + 1)) := by
    rw [selfBlockSum_after P mass modes cellMap B a ha, key, sub_eq_zero]
    constructor
    · intro h
      rw [h, smul_smul, mul_one_div_cancel hm, one_smul]
    · intro h
      rw [← h, smul_smul, one_div_mul_cancel hm, one_smul]
  refine ⟨hiff, fun h1 => hiff.2 ?_⟩
  have ha0 : a = 0 := by omega
  subst ha0
  rw [h1]
  simp

/-- Witness of `selfBlockSum_zero_iff`: one atom of mass 1 in the example cell map. -/
theorem selfBlockSum_zero_iff_witness :
    (exCellMap.map Prod.snd).sum = ((2 : ℤ) : ℚ) ∧
    omegaSqSum exCellMap.length (fun iCell => matrix_slice
        (enforceTranslationalInvariance 2 (fun _ => (1 : ℚ)) exModes1 exCellMap exBlocks iCell)
        (3 * 0) (3 * (0 + 1)) (3 * 0) (3 * (0 + 1))) = 0 :=
  ⟨by norm_num [exCellMap],
    (selfBlockSum_zero_iff 2 (fun _ => (1 : ℚ)) exModes1 exCellMap exBlocks
      (by norm_num [exCellMap]) (by decide) 0 (by decide) (by simp [speciesMass])).2
      (by decide)⟩

/-- C1 (as amended): after the whole assembly in `Phonon::dump` (cell mapping,
Hermitization, sum-rule correction), for every force-derivative data and every cell map
closed under negation whose weights agree on opposite offsets (`w(R) = w(-R)`), the assembly
completes and the final blocks satisfy `omegaSq(R) = dagger(omegaSq(-R))` for every cell
offset `R` of the cell map. -/
theorem assembled_blocks_hermitian (sup : vector3 ℤ) (nAtpos : ℕ → ℕ) (mass : ℕ → R)
    (modes : List Mode) (dgrad : ℕ → ℕ → ℤ → vector3 R) (cellMap : List (vector3 ℤ × R))
    (hnd : (cellMap.map Prod.fst).Nodup)
    (hclosed : ∀ i, i < cellMap.length →
      ∃ j, j < cellMap.length ∧ cellKey cellMap j = -cellKey cellMap i)
    (hw : ∀ i j, i < cellMap.length → j < cellMap.length →
      cellKey cellMap i + cellKey cellMap j = 0 → cellWeight cellMap i = cellWeight cellMap j) :
    ∃ omegaSq : ℕ → matrix K,
      assembleOmegaSq sup nAtpos mass modes dgrad cellMap = Except.ok omegaSq ∧
      ∀ i j, i < cellMap.length → j < cellMap.length →
        cellKey cellMap i + cellKey cellMap j = 0 → omegaSq i = dagger (omegaSq j) := by
  refine ⟨enforceTranslationalInvariance (sup 0 * sup 1 * sup 2) mass modes cellMap
    (hermitizeLoop cellMap (remapToCells sup nAtpos modes dgrad cellMap)).1, ?_, ?_⟩
  · unfold assembleOmegaSq
    rw [enforceHermiticity_of_closed cellMap hnd _ hclosed]
  · intro i j hi hj hsum
    exact corrected_pair_hermitian _ mass modes cellMap hnd _
      ((closed_iff_negIdx cellMap hnd).1 hclosed) i j hi hj hsum (hw i j hi hj hsum)

/-- Witness of `assembled_blocks_hermitian`: one atom, `sup = (2,1,1)`, weights 1/2, 1, 1/2. -/
theorem assembled_blocks_hermitian_witness :
    (exCellMap.map Prod.fst).Nodup ∧
    ∃ omegaSq : ℕ → matrix ℚ,
      assembleOmegaSq exSup (fun _ => 1) (fun _ => (1 : ℚ)) exModes1 exDgrad1 exCellMap
        = Except.ok omegaSq ∧
      ∀ i j, i < exCellMap.length → j < exCellMap.length →
        cellKey exCellMap i + cellKey exCellMap j = 0 → omegaSq i = dagger (omegaSq j) :=
  ⟨by decide,
    assembled_blocks_hermitian exSup (fun _ => 1) (fun _ => (1 : ℚ)) exModes1 exDgrad1 exCellMap
      (by decide) (by decide)
      (by
        intro i j hi hj hsum
        have hi3 : i < 3 := hi
        have hj3 : j < 3 := hj
        interval_cases i <;> interval_cases j <;>
          first
            | rfl
            | (exfalso; revert hsum; decide))⟩

/-- C1 (counterexample): a cell map closed under negation with `w(1,0,0) = 3/4` and
`w(-1,0,0) = 1/4`; the assembly completes, and the final blocks of the opposite cells
`(-1,0,0)` and `(1,0,0)` differ at entry (0,0) (`-1/8` against `-3/8`), so they are not
conjugate transposes of each other. -/
theorem assembled_blocks_not_hermitian_skew_weights :
    (∀ i, i < exCellMapSkew.length →
      ∃ j, j < exCellMapSkew.length ∧ cellKey exCellMapSkew j = -cellKey exCellMapSkew i) ∧
    cellKey exCellMapSkew 0 + cellKey exCellMapSkew 2 = 0 ∧
    ∃ omegaSq : ℕ → matrix ℚ,
      assembleOmegaSq exSup (fun _ => 1) (fun _ => (1 : ℚ)) exModes1 exDgrad1 exCellMapSkew
        = Except.ok omegaSq ∧
      omegaSq 0 ≠ dagger (omegaSq 2) := by
  refine ⟨by decide, by decide,
    enforceTranslationalInvariance (exSup 0 * exSup 1 * exSup 2) (fun _ => (1 : ℚ)) exModes1
      exCellMapSkew
      (hermitizeLoop exCellMapSkew
        (remapToCells exSup (fun _ => 1) exModes1 exDgrad1 exCellMapSkew)).1, ?_, ?_⟩
  · unfold assembleOmegaSq
    rw [enforceHermiticity_of_closed exCellMapSkew (by decide) _ (by decide)]
  · intro h
    have h00 := congrFun (congrFun h 0) 0
    have c0 : cellIndex exSup ![-1, 0, 0] = 1 := by decide
    have c1 : cellIndex exSup ![0, 0, 0] = 0 := by decide
    have c2 : cellIndex exSup ![1, 0, 0] = 1 := by decide
    have hP : exSup 0 * exSup 1 * exSup 2 = 2 := by decide
    simp [dagger, omegaSqSum, matrix_slice, enforceTranslationalInvariance, omegaSqCorrection,
      Fmean, matrix_set, hermitizeLoop, hermitizePair, List.range_succ, exCellMapSkew, cellKey,
      cellWeight, length_squared, Function.update, remapToCells, exModes1, exDgrad1,
      speciesMass, Fin.ofNat, c0, c1, c2, hP] at h00
    norm_num at h00

/-- C2 (counterexample): two atoms of mass 1, `sup = (1,1,1)`, one cell of weight 1 (the
weights sum to `prod(sup) = 1`), on-site force derivatives 1 and 3 along x.  The assembly
completes and, after the correction, the sum over cells of the self-block of atom 0 has the
entry `-1` at (0,0): it is not the zero matrix. -/
theorem selfBlockSum_nonzero_two_atoms :
    (exCellMapOne.map Prod.snd).sum = (((1 : ℤ) * 1 * 1 : ℤ) : ℚ) ∧
    ∃ omegaSq : ℕ → matrix ℚ,
      assembleOmegaSq ![1, 1, 1] (fun _ => 2) (fun _ => (1 : ℚ)) exModes2 exDgrad2 exCellMapOne
        = Except.ok omegaSq ∧
      omegaSqSum exCellMapOne.length (fun iCell =>
        matrix_slice (omegaSq iCell) (3 * 0) (3 * (0 + 1)) (3 * 0) (3 * (0 + 1))) ≠ 0 := by
  refine ⟨by norm_num [exCellMapOne],
    enforceTranslationalInvariance (1 * 1 * 1) (fun _ => (1 : ℚ)) exModes2 exCellMapOne
      (hermitizeLoop exCellMapOne
        (remapToCells ![1, 1, 1] (fun _ => 2) exModes2 exDgrad2 exCellMapOne)).1, ?_, ?_⟩
  · unfold assembleOmegaSq
    rw [enforceHermiticity_of_closed exCellMapOne (by decide) _ (by decide)]
    rfl
  · intro h
    have h00 := congrFun (congrFun h 0) 0
    simp [omegaSqSum, matrix_slice, enforceTranslationalInvariance, omegaSqCorrection, Fmean,
      matrix_set, hermitizeLoop, hermitizePair, List.range_succ, exCellMapOne, cellKey,
      cellWeight, length_squared, dagger, Function.update, remapToCells, exModes2, exDgrad2,
      speciesMass, cellIndex, positiveRemainder, toInt16, toUInt16, Fin.ofNat] at h00
    norm_num at h00

end DumpClaims

end Phonon

/-! ## Claims on the state map of `Phonon::setup` -/

namespace Phonon

/-- C5: whenever the state-mapping part of `Phonon::setup` completes without a fatal error,
every supercell state index `qSup` has received exactly `prod(sup)` unit-cell states; if some
supercell index receives a different number the run aborts; and the mapping does complete
when every lookup succeeds and every index receives `prod(sup)` states. -/
theorem state_map_complete (nStates nSup : ℕ) (prodSup : ℤ) (plookFind : ℕ → Option ℕ)
    (iGround : ℕ → ℕ → vector3 ℤ) :
    (∀ sm, mapStates nStates nSup prodSup plookFind iGround = Except.ok sm →
      ∀ qSup, qSup < nSup → (contributors sm nStates qSup : ℤ) = prodSup) ∧
    ((∃ qSup, qSup < nSup ∧ (lookupCount plookFind nStates qSup : ℤ) ≠ prodSup) →
      ∃ msg, mapStates nStates nSup prodSup plookFind iGround = Except.error msg) ∧
    ((∀ q, q < nStates → plookFind q ≠ none) →
      (∀ qSup, qSup < nSup → (lookupCount plookFind nStates qSup : ℤ) = prodSup) →
      ∃ sm, mapStates nStates nSup prodSup plookFind iGround = Except.ok sm) := by
  refine ⟨?_, ?_, ?_⟩
  · intro sm h qSup hq
    obtain ⟨nq, hloop, hall⟩ := (mapStates_ok_iff _ _ _ _ _ _).1 h
    obtain ⟨_, _, _, hnq, hc⟩ := mapStatesLoop_inv plookFind iGround nStates sm nq hloop
    rw [hc qSup, ← hnq qSup]
    exact hall qSup hq
  · rintro ⟨qSup, hq, hne⟩
    cases hres : mapStates nStates nSup prodSup plookFind iGround with
    | error msg => exact ⟨msg, rfl⟩
    | ok sm =>
      exfalso
      obtain ⟨nq, hloop, hall⟩ := (mapStates_ok_iff _ _ _ _ _ _).1 hres
      obtain ⟨_, _, _, hnq, _⟩ := mapStatesLoop_inv plookFind iGround nStates sm nq hloop
      apply hne
      rw [← hnq qSup]
      exact hall qSup hq
  · intro hfound hall
    obtain ⟨sm, nq, hloop, _, hnq⟩ := mapStatesLoop_ok plookFind iGround nStates hfound
    refine ⟨sm, (mapStates_ok_iff _ _ _ _ _ _).2 ⟨nq, hloop, ?_⟩⟩
    intro qSup hq
    rw [hnq qSup]
    exact hall qSup hq

/-- Witness of `state_map_complete`: two unit-cell states folding onto one supercell state
with `prod(sup) = 2` complete, and the map has two contributors. -/
theorem state_map_complete_witness :
    ∃ sm, mapStates 2 1 2 exFind exIGround = Except.ok sm ∧
      (contributors sm 2 0 : ℤ) = 2 := by
  obtain ⟨sm, hsm⟩ := (state_map_complete 2 1 2 exFind exIGround).2.2 (by decide) (by decide)
  exact ⟨sm, hsm, (state_map_complete 2 1 2 exFind exIGround).1 sm hsm 0 (by decide)⟩

/-- C8: among the unit-cell states that the loop "Map states" sends to the same supercell
index, the ordinal `nqPrev` of a state is the number of earlier such states, so the ordinals
are strictly increasing with `q` (pairwise distinct), lie below the number `c` of
contributors and take every value `0, ..., c-1`; the band blocks
`[nqPrev*nBands, (nqPrev+1)*nBands)` of distinct contributors are disjoint, lie inside
`[0, nBands*c)`, and when `c = prod(sup)` they cover `[0, nBands*prod(sup))`, the supercell
band count set by setup. -/
theorem ordinals_enumerate_contributors (nStates : ℕ) (plookFind : ℕ → Option ℕ)
    (iGround : ℕ → ℕ → vector3 ℤ) (sm : ℕ → StateMapEntry) (nq : ℕ → ℕ) (nBands : ℕ)
    (prodSup : ℤ)
    (h : mapStatesLoop nStates plookFind iGround = Except.ok (sm, nq)) :
    (∀ q, q < nStates →
      (sm q).nqPrev = ((Finset.range q).filter (fun q' => (sm q').qSup = (sm q).qSup)).card) ∧
    (∀ q q', q < q' → q' < nStates → (sm q).qSup = (sm q').qSup →
      (sm q).nqPrev < (sm q').nqPrev) ∧
    (∀ q, q < nStates → (sm q).nqPrev < contributors sm nStates (sm q).qSup) ∧
    (∀ qSup k, k < contributors sm nStates qSup →
      ∃ q, q < nStates ∧ (sm q).qSup = qSup ∧ (sm q).nqPrev = k) ∧
    (∀ q q' b b', q < nStates → q' < nStates → q ≠ q' → (sm q).qSup = (sm q').qSup →
      b < nBands → b' < nBands →
      (sm q).nqPrev * nBands + b ≠ (sm q').nqPrev * nBands + b') ∧
    (∀ q b, q < nStates → b < nBands →
      (sm q).nqPrev * nBands + b < nBands * contributors sm nStates (sm q).qSup) ∧
    (∀ qSup, (contributors sm nStates qSup : ℤ) = prodSup →
      ∀ B : ℕ, (B : ℤ) < supNBands nBands prodSup →
        ∃ q b, q < nStates ∧ b < nBands ∧ (sm q).qSup = qSup ∧
          B = (sm q).nqPrev * nBands + b) := by
  obtain ⟨hfind, hord, _, _, hc⟩ := mapStatesLoop_inv plookFind iGround nStates sm nq h
  have hfound : ∀ q, q < nStates → plookFind q ≠ none := by
    intro q hq hn
    rw [hfind q hq] at hn
    cases hn
  have hlt : ∀ q q', q < q' → q' < nStates → (sm q).qSup = (sm q').qSup →
      (sm q).nqPrev < (sm q').nqPrev := by
    intro q q' hqq hq' hs
    rw [hord q (by omega), hord q' hq', ← hs]
    have h1 := lookupCount_succ plookFind q (sm q).qSup
    rw [if_pos (hfind q (by omega))] at h1
    have h2 := lookupCount_mono plookFind (sm q).qSup (show q + 1 ≤ q' from hqq)
    omega
  have hbelow : ∀ q, q < nStates → (sm q).nqPrev < contributors sm nStates (sm q).qSup := by
    intro q hq
    rw [hc, hord q hq]
    have h1 := lookupCount_succ plookFind q (sm q).qSup
    rw [if_pos (hfind q hq)] at h1
    have h2 := lookupCount_mono plookFind (sm q).qSup (show q + 1 ≤ nStates from hq)
    omega
  have hatt : ∀ qSup k, k < contributors sm nStates qSup →
      ∃ q, q < nStates ∧ (sm q).qSup = qSup ∧ (sm q).nqPrev = k := by
    intro qSup k hk
    rw [hc] at hk
    obtain ⟨q, hq, h1, h2⟩ := lookupCount_attained plookFind qSup nStates k hk
    have hs : (sm q).qSup = qSup := by
      have := hfind q hq
      rw [h1] at this
      exact (Option.some.inj this).symm
    exact ⟨q, hq, hs, by rw [hord q hq, hs, h2]⟩
  refine ⟨?_, hlt, hbelow, hatt, ?_, ?_, ?_⟩
  · intro q hq
    rw [hord q hq]
    have hsm' : ∀ q s, q < nStates → plookFind q = some s →
        sm q = ⟨s, iGround q s, lookupCount plookFind q s, []⟩ := by
      obtain ⟨sm', nq', hloop, hsm, _⟩ := mapStatesLoop_ok plookFind iGround nStates hfound
      rw [hloop] at h
      injection h with h
      rw [← (Prod.mk.inj h).1]
      exact hsm
    exact (contributors_eq_lookupCount plookFind iGround nStates sm hfound hsm' q
      (Nat.le_of_lt hq) (sm q).qSup).symm
  · intro q q' b b' hq hq' hne hs hb hb' heq
    rcases Nat.lt_or_gt_of_ne hne with hlt' | hlt'
    · have h1 := hlt q q' hlt' hq' hs
      have h2 : ((sm q).nqPrev + 1) * nBands ≤ (sm q').nqPrev * nBands :=
        Nat.mul_le_mul_right _ h1
      rw [Nat.add_mul, Nat.one_mul] at h2
      omega
    · have h1 := hlt q' q hlt' hq hs.symm
      have h2 : ((sm q').nqPrev + 1) * nBands ≤ (sm q).nqPrev * nBands :=
        Nat.mul_le_mul_right _ h1
      rw [Nat.add_mul, Nat.one_mul] at h2
      omega
  · intro q b hq hb
    have h1 := hbelow q hq
    have h2 : ((sm q).nqPrev + 1) * nBands ≤ contributors sm nStates (sm q).qSup * nBands :=
      Nat.mul_le_mul_right _ h1
    rw [Nat.add_mul, Nat.one_mul] at h2
    rw [Nat.mul_comm nBands]
    omega
  · intro qSup hcP B hB
    unfold supNBands at hB
    rw [← hcP] at hB
    have hB' : B < nBands * contributors sm nStates qSup := by exact_mod_cast hB
    have hN : 0 < nBands := by
      rcases Nat.eq_zero_or_pos nBands with h0 | h0
      · rw [h0] at hB'
        omega
      · exact h0
    have hk : B / nBands < contributors sm nStates qSup :=
      Nat.div_lt_of_lt_mul hB'
    obtain ⟨q, hq, hs, hk'⟩ := hatt qSup (B / nBands) hk
    refine ⟨q, B % nBands, hq, Nat.mod_lt _ hN, hs, ?_⟩
    rw [hk']
    exact (Nat.div_add_mod' B nBands).symm

/-- Witness of `ordinals_enumerate_contributors`: the two states of the example get the
ordinals 0 and 1. -/
theorem ordinals_enumerate_contributors_witness :
    ∃ sm nq, mapStatesLoop 2 exFind exIGround = Except.ok (sm, nq) ∧
      (sm 0).nqPrev < (sm 1).nqPrev := by
  obtain ⟨sm, nq, hloop, hsm, _⟩ := mapStatesLoop_ok exFind exIGround 2 (by decide)
  refine ⟨sm, nq, hloop, ?_⟩
  refine (ordinals_enumerate_contributors 2 exFind exIGround sm nq 1 2 hloop).2.1 0 1
    (by decide) (by decide) ?_
  rw [hsm 0 0 (by decide) (by decide), hsm 1 0 (by decide) (by decide)]

/-- C6 (as amended): provided that every plane wave of the owned supercell states and the
image of every unit-cell plane wave of the states folding into them lie in the box
`-iGbox[j] <= v[j] <= iGbox[j]` of the lookup table: for every unit-cell state `q` folding
into an owned supercell state `qSup` and every unit-cell plane wave `n`, if the remap
construction of `Phonon::setup` completes without a fatal error then `indexVec[n]` is a
non-negative index `m` of the supercell basis with
`basisSup.iGarr[m] = (sup[0]*iG[0], sup[1]*iG[1], sup[2]*iG[2]) + stateMap[q].iG`,
`iG = basis.iGarr[n]`; an image that is no supercell plane wave makes setup abort; and the
construction completes when every image is a supercell plane wave. -/
theorem remap_entries_resolve (qStart qStop nStates : ℕ) (sup iGbox : vector3 ℤ)
    (basisSup basis : ℕ → List (vector3 ℤ)) (sm : ℕ → StateMapEntry)
    (hboxSup : ∀ qSup, qStart ≤ qSup → qSup < qStop → ∀ v, v ∈ basisSup qSup → inBox iGbox v)
    (hboxImg : ∀ q, q < nStates → qStart ≤ (sm q).qSup → (sm q).qSup < qStop →
      ∀ v, v ∈ basis q → inBox iGbox (iGsupOf sup (sm q).iG v)) :
    (∀ sm', mapBasis qStart qStop nStates sup iGbox basisSup basis sm = Except.ok sm' →
      ∀ q n, q < nStates → qStart ≤ (sm q).qSup → (sm q).qSup < qStop →
        n < (basis q).length →
        ∃ m : ℕ, (sm' q).index.getD n (-1) = (m : ℤ) ∧ m < (basisSup (sm q).qSup).length ∧
          (basisSup (sm q).qSup).getD m 0 = iGsupOf sup (sm q).iG ((basis q).getD n 0)) ∧
    ((∃ q n, q < nStates ∧ qStart ≤ (sm q).qSup ∧ (sm q).qSup < qStop ∧ n < (basis q).length ∧
        iGsupOf sup (sm q).iG ((basis q).getD n 0) ∉ basisSup (sm q).qSup) →
      ∃ msg, mapBasis qStart qStop nStates sup iGbox basisSup basis sm = Except.error msg) ∧
    ((∀ q n, q < nStates → qStart ≤ (sm q).qSup → (sm q).qSup < qStop → n < (basis q).length →
        iGsupOf sup (sm q).iG ((basis q).getD n 0) ∈ basisSup (sm q).qSup) →
      ∃ sm', mapBasis qStart qStop nStates sup iGbox basisSup basis sm = Except.ok sm') := by
  have hlook : ∀ q n, q < nStates → qStart ≤ (sm q).qSup → (sm q).qSup < qStop →
      n < (basis q).length →
      (iGsupOf sup (sm q).iG ((basis q).getD n 0) ∉ basisSup (sm q).qSup ∧
        (indexVecOf sup iGbox (basisSup (sm q).qSup) (basis q) (sm q).iG).getD n (-1) = -1) ∨
      (∃ m : ℕ, m < (basisSup (sm q).qSup).length ∧
        (basisSup (sm q).qSup).getD m 0 = iGsupOf sup (sm q).iG ((basis q).getD n 0) ∧
        (indexVecOf sup iGbox (basisSup (sm q).qSup) (basis q) (sm q).iG).getD n (-1)
          = (m : ℤ)) := by
    intro q n hq h1 h2 hn
    rw [indexVecOf_getD _ _ _ _ _ n hn]
    exact table_lookup_in_box iGbox _ _ (hboxSup _ h1 h2)
      (hboxImg q hq h1 h2 _ (getD_mem_of_lt (basis q) 0 n hn))
  have hok : ∀ sm', mapBasis qStart qStop nStates sup iGbox basisSup basis sm = Except.ok sm' →
      ∀ q, q < nStates → qStart ≤ (sm q).qSup → (sm q).qSup < qStop →
        (∀ x, x ∈ indexVecOf sup iGbox (basisSup (sm q).qSup) (basis q) (sm q).iG → 0 ≤ x) ∧
        (sm' q).index = indexVecOf sup iGbox (basisSup (sm q).qSup) (basis q) (sm q).iG := by
    intro sm' h q hq h1 h2
    rw [mapBasis_eq] at h
    exact (mapBasis_fold_ok sup iGbox basisSup basis _ sm sm' h).2.1 ((sm q).qSup, q)
      ((mem_owned_pairs qStart qStop nStates _).2 ⟨⟨h1, h2⟩, hq⟩) rfl
  refine ⟨?_, ?_, ?_⟩
  · intro sm' h q n hq h1 h2 hn
    obtain ⟨hgood, hidx⟩ := hok sm' h q hq h1 h2
    rw [hidx]
    rcases hlook q n hq h1 h2 hn with ⟨_, hneg⟩ | ⟨m, hm, hcoord, hval⟩
    · exfalso
      have hmem : (indexVecOf sup iGbox (basisSup (sm q).qSup) (basis q) (sm q).iG).getD n (-1)
          ∈ indexVecOf sup iGbox (basisSup (sm q).qSup) (basis q) (sm q).iG :=
        getD_mem_of_lt _ _ n (by rw [indexVecOf_length]; exact hn)
      have := hgood _ hmem
      rw [hneg] at this
      omega
    · exact ⟨m, hval, hm, hcoord⟩
  · rintro ⟨q, n, hq, h1, h2, hn, hmiss⟩
    cases hres : mapBasis qStart qStop nStates sup iGbox basisSup basis sm with
    | error msg => exact ⟨msg, rfl⟩
    | ok sm' =>
      exfalso
      obtain ⟨hgood, _⟩ := hok sm' hres q hq h1 h2
      rcases hlook q n hq h1 h2 hn with ⟨_, hneg⟩ | ⟨m, hm, hcoord, _⟩
      · have hmem : (indexVecOf sup iGbox (basisSup (sm q).qSup) (basis q) (sm q).iG).getD n (-1)
            ∈ indexVecOf sup iGbox (basisSup (sm q).qSup) (basis q) (sm q).iG :=
          getD_mem_of_lt _ _ n (by rw [indexVecOf_length]; exact hn)
        have := hgood _ hmem
        rw [hneg] at this
        omega
      · apply hmiss
        rw [← hcoord]
        exact getD_mem_of_lt _ _ m hm
  · intro hall
    rw [mapBasis_eq]
    apply mapBasis_fold_total
    intro p hp hmatch x hx
    obtain ⟨⟨h1, h2⟩, hq⟩ := (mem_owned_pairs qStart qStop nStates p).1 hp
    rw [← hmatch] at h1 h2 hx
    obtain ⟨n, hn, hget⟩ := exists_getD_of_mem _ (-1) x hx
    rw [indexVecOf_length] at hn
    rcases hlook p.2 n hq h1 h2 hn with ⟨hnot, _⟩ | ⟨m, _, _, hval⟩
    · exact absurd (hall p.2 n hq h1 h2 hn) hnot
    · rw [← hget, hval]
      exact Int.natCast_nonneg m

/-- Witness of `remap_entries_resolve`: the second plane wave `(-1,0,0)` of unit-cell state 1
(offset `(1,0,0)`, `sup = (2,1,1)`) has the image `(-1,0,0)`, found in the supercell basis. -/
theorem remap_entries_resolve_witness :
    ∃ sm', mapBasis 0 1 2 exSup exBox exBasisSup exBasis exStateMap = Except.ok sm' ∧
      ∃ m : ℕ, (sm' 1).index.getD 1 (-1) = (m : ℤ) ∧ m < (exBasisSup 0).length ∧
        (exBasisSup 0).getD m 0 = iGsupOf exSup ![1, 0, 0] ![-1, 0, 0] := by
  have hboxSup : ∀ qSup, 0 ≤ qSup → qSup < 1 → ∀ v, v ∈ exBasisSup qSup → inBox exBox v := by
    intro qSup _ h1
    have h0 : qSup = 0 := by omega
    subst h0
    decide
  have hboxImg : ∀ q, q < 2 → 0 ≤ (exStateMap q).qSup → (exStateMap q).qSup < 1 →
      ∀ v, v ∈ exBasis q → inBox exBox (iGsupOf exSup (exStateMap q).iG v) := by
    intro q hq _ _
    interval_cases q <;> decide
  have hall : ∀ q n, q < 2 → 0 ≤ (exStateMap q).qSup → (exStateMap q).qSup < 1 →
      n < (exBasis q).length →
      iGsupOf exSup (exStateMap q).iG ((exBasis q).getD n 0) ∈ exBasisSup (exStateMap q).qSup := by
    intro q n hq _ _ hn
    interval_cases q
    · have hn3 : n < 3 := hn
      interval_cases n <;> decide
    · have hn2 : n < 2 := hn
      interval_cases n <;> decide
  obtain ⟨sm', hsm'⟩ := (remap_entries_resolve 0 1 2 exSup exBox exBasisSup exBasis exStateMap
    hboxSup hboxImg).2.2 hall
  exact ⟨sm', hsm', (remap_entries_resolve 0 1 2 exSup exBox exBasisSup exBasis exStateMap
    hboxSup hboxImg).1 sm' hsm' 1 1 (by decide) (by decide) (by decide) (by decide)⟩

/-- C6 (counterexample): `iGbox = (1,1,1)` (pitch `(9,3,1)`, 27 slots), `sup = (1,1,1)`, the
supercell basis `[(0,1,-1)]` inside the box and the unit-cell plane wave `(0,0,2)` of a
single k-point, which "Map states" folds onto supercell state 0 with offset 0.  The image `(0,0,2)` is no supercell plane wave and lies outside the box; its slot
`9 + 3 + 3 = 15` is the slot of `(0,1,-1)`.  The remap construction completes, and the entry
of plane wave 0 is the index 0 of the supercell plane wave `(0,1,-1)`, whose coordinates are
not those of the image. -/
theorem remap_entry_aliased_outside_box :
    mapStates 1 1 1 (fun _ => some 0) (fun _ _ => 0) = Except.ok exStateMapOne ∧
    (∀ v, v ∈ exBasisSupAlias 0 → inBox exBoxOne v) ∧
    slotOf exBoxOne (iGsupOf exSupOne (exStateMapOne 0).iG ((exBasisAlias 0).getD 0 0)) = 15 ∧
    slotOf exBoxOne ((exBasisSupAlias 0).getD 0 0) = 15 ∧
    mapBasis 0 1 1 exSupOne exBoxOne exBasisSupAlias exBasisAlias exStateMapOne
      = Except.ok exStateMapAlias ∧
    (exStateMapAlias 0).index.getD 0 (-1) = 0 ∧
    (exBasisSupAlias (exStateMapOne 0).qSup).getD 0 0
      ≠ iGsupOf exSupOne (exStateMapOne 0).iG ((exBasisAlias 0).getD 0 0) ∧
    iGsupOf exSupOne (exStateMapOne 0).iG ((exBasisAlias 0).getD 0 0)
      ∉ exBasisSupAlias (exStateMapOne 0).qSup :=
  ⟨mapStates_one, by decide, by decide, by decide, mapBasis_alias, by decide, by decide,
    by decide⟩

end Phonon

/-! ## Claims on `Phonon::setSupState` -/

namespace Phonon

section SynthClaims

variable {R K : Type} [Field R] [StarRing R] [TrivialStar R]
  [Field K] [StarRing K] [Algebra R K] [StarModule R K]

/-- C10: `Phonon::setSupState` is idempotent: for every prior supercell state and unchanged
unit-cell states, calling it twice in succession leaves the supercell orbitals `C`, the
fillings `F`, the auxiliary matrices `B` and the flag `HauxInitialized` (and the copy `Y`)
equal to their values after the first call. -/
theorem setSupState_idempotent (inp : SynthInput R K) (v : SupVars R K) :
    (setSupState inp (setSupState inp v)).C = (setSupState inp v).C ∧
    (setSupState inp (setSupState inp v)).F = (setSupState inp v).F ∧
    (setSupState inp (setSupState inp v)).B = (setSupState inp v).B ∧
    (setSupState inp (setSupState inp v)).HauxInitialized
      = (setSupState inp v).HauxInitialized ∧
    (setSupState inp (setSupState inp v)).Y = (setSupState inp v).Y := by
  have hC : (setSupState inp (setSupState inp v)).C = (setSupState inp v).C := by
    funext Q B t
    rw [setSupState_C inp (setSupState inp v), setSupState_C inp v]
    by_cases hm : inp.isMine Q
    · rw [if_pos hm, if_pos hm]
    · rw [if_neg hm, if_neg hm]
      have hz : (∑ q in Finset.range inp.nStates,
          if inp.isMine (inp.stateMap q).qSup ∧ (inp.stateMap q).qSup = Q
          then contribution inp q B t else 0) = 0 := by
        apply Finset.sum_eq_zero
        intro q _
        rw [if_neg]
        rintro ⟨h1, h2⟩
        rw [h2] at h1
        exact hm h1
      rw [hz, add_zero, add_zero]
  refine ⟨hC, ?_, ?_, ?_, ?_⟩
  · funext Q k
    rw [(setSupState_fields inp (setSupState inp v)).2.1, (setSupState_fields inp v).2.1]
    by_cases hex : ∃ q, q < inp.nStates ∧ (inp.isMine (inp.stateMap q).qSup ∧
        (inp.stateMap q).qSup = Q ∧ inp.nBands * (inp.stateMap q).nqPrev ≤ k ∧
        k < inp.nBands * (inp.stateMap q).nqPrev + inp.nBands)
    · exact (mainLoop_F inp inp.nStates).1 _ _ Q k hex
    · rw [(mainLoop_F inp inp.nStates).2 _ Q k hex, (zeroOwned_spec inp _).2.2.1,
        (setSupState_fields inp v).2.1]
  · funext Q i j
    rw [(setSupState_fields inp (setSupState inp v)).2.2.1, (setSupState_fields inp v).2.2.1]
    by_cases hex : ∃ q, q < inp.nStates ∧ (inp.aux = true ∧
        inp.isMine (inp.stateMap q).qSup ∧ (inp.stateMap q).qSup = Q ∧
        inp.nBands * (inp.stateMap q).nqPrev ≤ i ∧
        i < inp.nBands * (inp.stateMap q).nqPrev + inp.nBands ∧
        inp.nBands * (inp.stateMap q).nqPrev ≤ j ∧
        j < inp.nBands * (inp.stateMap q).nqPrev + inp.nBands)
    · exact (mainLoop_B inp inp.nStates).1 _ _ Q i j hex
    · rw [(mainLoop_B inp inp.nStates).2 _ Q i j hex, (zeroOwned_spec inp _).2.1 Q,
        (mainLoop_B inp inp.nStates).2 _ Q i j hex, (zeroOwned_spec inp v).2.1 Q]
      by_cases hz : inp.isMine Q ∧ inp.aux = true
      · rw [if_pos hz, if_pos hz]
      · rw [if_neg hz, if_neg hz, (setSupState_fields inp v).2.2.1,
          (mainLoop_B inp inp.nStates).2 _ Q i j hex, (zeroOwned_spec inp v).2.1 Q, if_neg hz]
  · rw [(setSupState_fields inp (setSupState inp v)).2.2.2.1,
      (setSupState_fields inp v).2.2.2.1]
    by_cases ha : inp.aux = true
    · rw [if_pos ha, if_pos ha]
    · rw [if_neg ha, if_neg ha]
  · funext Q
    rw [(setSupState_fields inp (setSupState inp v)).2.2.2.2 Q, hC,
      (setSupState_fields inp v).2.2.2.2 Q]
    by_cases hm : inp.isMine Q
    · rw [if_pos hm, if_pos hm]
    · rw [if_neg hm, if_neg hm]

/-- Witness of `setSupState_idempotent`: the example synthesis applied twice. -/
theorem setSupState_idempotent_witness :
    (setSupState exSynth (setSupState exSynth exSupVars)).C = (setSupState exSynth exSupVars).C ∧
    (setSupState exSynth (setSupState exSynth exSupVars)).HauxInitialized = true := by
  have h := setSupState_idempotent exSynth exSupVars
  refine ⟨h.1, ?_⟩
  rw [h.2.2.2.1]
  rfl

/-- C7 (as amended): provided that, for every unit-cell state mapped to an owned supercell
state, the remap table `index` has one entry per unit-cell plane wave and its entries are
pairwise distinct indices of the supercell basis (`0 <= index[n] < nbasisSup`), that
different unit-cell states of one supercell state carry different ordinals `nqPrev`
(`SynthInput.wellFormed`), and that the products `sup[0]*sup[1]` and `sup[0]*sup[1]*sup[2]`
are representable in `int`: after `Phonon::setSupState`, for every unit-cell state `q` mapped
to an owned supercell state `qSup`, every band `b`, spinor component `s` and unit-cell plane
wave `n`, the supercell coefficient at band `b + nqPrev*nBands` and position
`s*nbasisSup + index[n]` equals `C[q](b, s*nbasis + n)` times `1/sqrt(prod(sup))`; and every
coefficient of an owned supercell orbital that is not the destination of some unit-cell
plane wave is zero. -/
theorem synthesized_coefficients (sqrt : R → R) (sup : vector3 ℤ) (inp : SynthInput R K)
    (v : SupVars R K)
    (hint1 : -2147483648 ≤ sup 0 * sup 1 ∧ sup 0 * sup 1 < 2147483648)
    (hint2 : -2147483648 ≤ sup 0 * sup 1 * sup 2 ∧ sup 0 * sup 1 * sup 2 < 2147483648)
    (hwf : inp.wellFormed) :
    (∀ q b s n, q < inp.nStates → inp.isMine (inp.stateMap q).qSup → b < inp.nBands →
      s < inp.nSpinor → n < inp.nbasis q →
      (setSupStateOfSup sqrt sup inp v).C (inp.stateMap q).qSup
          (b + (inp.stateMap q).nqPrev * inp.nBands)
          (((s * inp.nbasisSup (inp.stateMap q).qSup : ℕ) : ℤ)
            + (inp.stateMap q).index.getD n 0)
        = (1 / sqrt ((sup 0 * sup 1 * sup 2 : ℤ) : R))
            • inp.C q b ((s * inp.nbasis q + n : ℕ) : ℤ)) ∧
    (∀ Q B t, inp.isMine Q →
      (¬ ∃ q b s n, q < inp.nStates ∧ (inp.stateMap q).qSup = Q ∧ b < inp.nBands ∧
        s < inp.nSpinor ∧ n < inp.nbasis q ∧ B = b + (inp.stateMap q).nqPrev * inp.nBands ∧
        t = ((s * inp.nbasisSup Q : ℕ) : ℤ) + (inp.stateMap q).index.getD n 0) →
      (setSupStateOfSup sqrt sup inp v).C Q B t = 0) := by
  have hwf' : ({ inp with scaleFac := scaleFacOf sqrt sup } : SynthInput R K).wellFormed := hwf
  constructor
  · intro q b s n hq hm hb hs hn
    rw [Nat.mul_comm (inp.stateMap q).nqPrev inp.nBands, ← scaleFacOf_eq sqrt sup hint1 hint2]
    exact synthesized_at_target { inp with scaleFac := scaleFacOf sqrt sup } v hwf' q b s n
      hq hm hb hs hn
  · intro Q B t hm hno
    by_contra hne
    obtain ⟨q, b, s, n, hq, hQ, hb, hs, hn, hB, ht⟩ :=
      synthesized_source { inp with scaleFac := scaleFacOf sqrt sup } v Q B t hm hne
    apply hno
    refine ⟨q, b, s, n, hq, hQ, hb, hs, ?_, ?_, ht⟩
    · rw [← hwf.1 q hq (by rw [hQ]; exact hm)]
      exact hn
    · rw [Nat.mul_comm]
      exact hB

/-- Witness of `synthesized_coefficients`: `sup = (2,2,1)`; state 2 of the example writes
`1/sqrt(4)` times its coefficient 1 at band 2, position 2 of supercell state 0. -/
theorem synthesized_coefficients_witness :
    (-2147483648 ≤ exSupFour 0 * exSupFour 1 ∧ exSupFour 0 * exSupFour 1 < 2147483648) ∧
    (-2147483648 ≤ exSupFour 0 * exSupFour 1 * exSupFour 2 ∧
      exSupFour 0 * exSupFour 1 * exSupFour 2 < 2147483648) ∧
    exSynth.wellFormed ∧
    (setSupStateOfSup exSqrt exSupFour exSynth exSupVars).C 0 2 2
      = (1 / exSqrt ((exSupFour 0 * exSupFour 1 * exSupFour 2 : ℤ) : ℚ)) • (1 : ℚ) :=
  ⟨by decide, by decide, exSynth_wellFormed,
    (synthesized_coefficients exSqrt exSupFour exSynth exSupVars (by decide) (by decide)
      exSynth_wellFormed).1 2 0 0 0 (by decide) (by decide) (by decide) (by decide) (by decide)⟩

/-- C7 (counterexample): `sup = (1,1,1)` and the state map that the remap construction of
`Phonon::setup` completes with when the image `(0,0,2)` lies outside the box `(1,1,1)`: the
table `[0, 0]` for the plane waves `(0,0,2)` and `(0,1,-1)` of unit-cell state 0.  The scatter
adds both coefficients, 1 and 2, into position 0 of band 0 of supercell state 0, so the
supercell coefficient at position `index[0]` is 3, while `C[0](0, 0) / sqrt(prod(sup))` is 1
(and at position `index[1]`, while `C[0](0, 1) / sqrt(prod(sup))` is 2). -/
theorem synthesized_coefficient_sums_aliased :
    mapStates 1 1 1 (fun _ => some 0) (fun _ _ => 0) = Except.ok exStateMapOne ∧
    mapBasis 0 1 1 exSupOne exBoxOne exBasisSupAlias exBasisAlias exStateMapOne
      = Except.ok exSynthAlias.stateMap ∧
    (exSynthAlias.stateMap 0).index = [0, 0] ∧
    (setSupStateOfSup exSqrt exSupOne exSynthAlias exSupVars).C (exSynthAlias.stateMap 0).qSup
        (0 + (exSynthAlias.stateMap 0).nqPrev * exSynthAlias.nBands)
        (((0 * exSynthAlias.nbasisSup (exSynthAlias.stateMap 0).qSup : ℕ) : ℤ)
          + (exSynthAlias.stateMap 0).index.getD 0 0) = 3 ∧
    (1 / exSqrt ((exSupOne 0 * exSupOne 1 * exSupOne 2 : ℤ) : ℚ))
        • exSynthAlias.C 0 0 ((0 * exSynthAlias.nbasis 0 + 0 : ℕ) : ℤ) = 1 ∧
    (1 / exSqrt ((exSupOne 0 * exSupOne 1 * exSupOne 2 : ℤ) : ℚ))
        • exSynthAlias.C 0 0 ((0 * exSynthAlias.nbasis 0 + 1 : ℕ) : ℤ) = 2 := by
  have hs : scaleFacOf exSqrt exSupOne = 1 := by
    rw [scaleFacOf_eq _ _ (by decide) (by decide)]
    simp [exSqrt, exSupOne]
  have hC : (setSupStateOfSup exSqrt exSupOne exSynthAlias exSupVars).C 0 0 0 = 3 := by
    unfold setSupStateOfSup
    rw [setSupState_C]
    simp [contribution, SynthInput.isMine, exSynthAlias, exStateMapAlias, exStateMapOne,
      setIndex, hs, Finset.sum_range_succ]
    norm_num
  refine ⟨mapStates_one, mapBasis_alias, by decide, hC, ?_, ?_⟩
  · simp [exSqrt, exSupOne, exSynthAlias]
  · simp [exSqrt, exSupOne, exSynthAlias]

/-- C9 (as amended): a supercell orbital (band `b + nqPrev*nBands` of an owned supercell
state) is synthesized from a single unit-cell orbital, band `b` of one contributing state,
scaled by `scaleFac = 1/sqrt(prod(sup))` and written to distinct positions; its sum of squared
coefficient magnitudes is `scaleFac^2` times that of the unit-cell orbital, so `prod(sup)`
times the supercell sum equals the unit-cell sum, and a unit-cell orbital of unit norm gives
`prod(sup)` times the supercell sum equal to 1. -/
theorem synthesized_norm_scaling (inp : SynthInput R K) (v : SupVars R K)
    (hwf : inp.wellFormed) (prodSup : ℤ)
    (hscale : inp.scaleFac * inp.scaleFac * (prodSup : R) = 1)
    (q b : ℕ) (hq : q < inp.nStates) (hm : inp.isMine (inp.stateMap q).qSup)
    (hb : b < inp.nBands) :
    normSq inp.nSpinor (inp.nbasisSup (inp.stateMap q).qSup)
        ((setSupState inp v).C (inp.stateMap q).qSup
          (b + (inp.stateMap q).nqPrev * inp.nBands))
      = (inp.scaleFac * inp.scaleFac) • normSq inp.nSpinor (inp.nbasis q) (inp.C q b) ∧
    (prodSup : R) • normSq inp.nSpinor (inp.nbasisSup (inp.stateMap q).qSup)
        ((setSupState inp v).C (inp.stateMap q).qSup
          (b + (inp.stateMap q).nqPrev * inp.nBands))
      = normSq inp.nSpinor (inp.nbasis q) (inp.C q b) ∧
    (normSq inp.nSpinor (inp.nbasis q) (inp.C q b) = 1 →
      (prodSup : R) • normSq inp.nSpinor (inp.nbasisSup (inp.stateMap q).qSup)
        ((setSupState inp v).C (inp.stateMap q).qSup
          (b + (inp.stateMap q).nqPrev * inp.nBands)) = 1) := by
  have h1 := synthesized_normSq inp v hwf q b hq hm hb
  rw [Nat.mul_comm inp.nBands] at h1
  have h2 : (prodSup : R) • normSq inp.nSpinor (inp.nbasisSup (inp.stateMap q).qSup)
        ((setSupState inp v).C (inp.stateMap q).qSup
          (b + (inp.stateMap q).nqPrev * inp.nBands))
      = normSq inp.nSpinor (inp.nbasis q) (inp.C q b) := by
    rw [h1, smul_smul, mul_comm, hscale, one_smul]
  exact ⟨h1, h2, fun hu => by rw [h2, hu]⟩

/-- Witness of `synthesized_norm_scaling`: in the example (`prod(sup) = 4`, `scaleFac = 1/2`)
four times the squared norm of the synthesized band 0 is 1. -/
theorem synthesized_norm_scaling_witness :
    exSynth.wellFormed ∧ exSynth.scaleFac * exSynth.scaleFac * ((4 : ℤ) : ℚ) = 1 ∧
    ((4 : ℤ) : ℚ) • normSq exSynth.nSpinor (exSynth.nbasisSup (exSynth.stateMap 0).qSup)
      ((setSupState exSynth exSupVars).C (exSynth.stateMap 0).qSup
        (0 + (exSynth.stateMap 0).nqPrev * exSynth.nBands)) = 1 :=
  ⟨exSynth_wellFormed, by norm_num [exSynth],
    (synthesized_norm_scaling exSynth exSupVars exSynth_wellFormed 4 (by norm_num [exSynth])
      0 0 (by decide) (by decide) (by decide)).2.2 (exSynth_unit_norm 0)⟩

/-- C9 (counterexample): `prod(sup) = 4`, `scaleFac = 1/sqrt(4) = 1/2`, four unit-cell orbitals
of unit norm written into the disjoint band blocks 0, 1, 2, 3.  The synthesized supercell
orbital of band 0 has the sum of squared coefficient magnitudes `1/4`, not 1. -/
theorem synthesized_orbital_not_unit_norm :
    (∀ q, q < 4 → normSq exSynth.nSpinor (exSynth.nbasis q) (exSynth.C q 0) = 1) ∧
    exSynth.scaleFac * exSynth.scaleFac * 4 = 1 ∧
    normSq exSynth.nSpinor (exSynth.nbasisSup 0) ((setSupState exSynth exSupVars).C 0 0) = 1 / 4 ∧
    normSq exSynth.nSpinor (exSynth.nbasisSup 0) ((setSupState exSynth exSupVars).C 0 0) ≠ 1 := by
  have h := synthesized_normSq exSynth exSupVars exSynth_wellFormed 0 0 (by decide) (by decide)
    (by decide)
  rw [exSynth_unit_norm 0] at h
  have h4 : normSq exSynth.nSpinor (exSynth.nbasisSup 0)
      ((setSupState exSynth exSupVars).C 0 0) = 1 / 4 := by
    have e : (exSynth.scaleFac * exSynth.scaleFac) • (1 : ℚ) = 1 / 4 := by
      norm_num [exSynth]
    rw [← e, ← h]
    rfl
  refine ⟨fun q _ => exSynth_unit_norm q, by norm_num [exSynth], h4, ?_⟩
  rw [h4]
  norm_num

end SynthClaims

end Phonon

/-! ## Claims on the checks of `Phonon::setup` -/

namespace Phonon

/-- C14: for all replication counts `sup` and foldings `kfold` with `kfold[j] % sup[j] == 0`
for `j = 0, 1, 2` (the remainder being defined: `sup[j]` non-zero, not `INT_MIN % -1`), with
symmetries off and the single k-point at the zone centre, the checks of `Phonon::setup`
succeed and set `eSup.kfold[j] = kfold[j] / sup[j]` for every `j`, an exact quotient:
`sup[j] * eSup.kfold[j] = kfold[j]`. -/
theorem setup_checks_succeed {R : Type} [Field R] [DecidableEq R]
    (sup kfold kfoldSup0 : vector3 ℤ) (k : vector3 R)
    (hdef : ∀ j, sup j ≠ 0 ∧ ¬ (kfold j = -2147483648 ∧ sup j = -1))
    (hdiv : ∀ j, Int.tmod (kfold j) (sup j) = 0) (hk : k = 0) :
    setupChecks sup SymmetryMode.SymmetriesNone [k] kfold kfoldSup0
        = Except.ok (fun j => Int.tdiv (kfold j) (sup j)) ∧
      ∀ j, sup j * Int.tdiv (kfold j) (sup j) = kfold j := by
  constructor
  · have hsup : length_squared sup ≠ 0 := by
      intro h
      have h0 := (length_squared_eq_zero_iff sup).mp h
      exact (hdef 0).1 (by rw [h0]; rfl)
    have hk0 : vector3.length_squared k = 0 := by
      subst hk
      simp [vector3.length_squared]
    unfold setupChecks
    rw [if_neg hsup]
    simp only [ne_eq, not_true_eq_false, if_false, List.length_singleton, lt_self_iff_false,
      List.head?_cons, hk0]
    rw [kfold_fold_unfold, kfoldStep_ok sup kfold _ 0 (hdef 0) (hdiv 0),
      kfoldStep_ok sup kfold _ 1 (hdef 1) (hdiv 1), kfoldStep_ok sup kfold _ 2 (hdef 2) (hdiv 2)]
    congr 1
    funext j
    fin_cases j <;> simp [Function.update]
  · intro j
    exact Int.mul_tdiv_cancel' (Int.dvd_of_tmod_eq_zero (hdiv j))

/-- C14 (witness): `kfold = (4,2,2)` and `sup = (2,1,1)` give `eSup.kfold = (2,2,2)`. -/
theorem setup_checks_succeed_witness :
    (∀ j, exSup j ≠ 0 ∧ ¬ ((![4, 2, 2] : vector3 ℤ) j = -2147483648 ∧ exSup j = -1)) ∧
    (∀ j, Int.tmod ((![4, 2, 2] : vector3 ℤ) j) (exSup j) = 0) ∧
    (setupChecks exSup SymmetryMode.SymmetriesNone [(0 : vector3 ℚ)] ![4, 2, 2] ![4, 2, 2]
        = Except.ok (fun j => Int.tdiv ((![4, 2, 2] : vector3 ℤ) j) (exSup j)) ∧
      ∀ j, exSup j * Int.tdiv ((![4, 2, 2] : vector3 ℤ) j) (exSup j)
        = (![4, 2, 2] : vector3 ℤ) j) :=
  ⟨by decide, by decide,
    setup_checks_succeed exSup ![4, 2, 2] ![4, 2, 2] (0 : vector3 ℚ) (by decide) (by decide) rfl⟩

/-- C15: whenever, for some lattice direction `j`, the folding `kfold[j]` is not an integer
multiple of `sup[j]` (the remainders being defined and the k-point list non-empty),
`Phonon::setup` ends with a fatal error; when the earlier checks pass (symmetries off, single
k-point at the zone centre) the error is the one of line 52 for the smallest such `j`, with
`kfold[j]`, `sup[j]` and `j` in the message. -/
theorem setup_kfold_not_multiple {R : Type} [Field R] [DecidableEq R]
    (sup kfold kfoldSup0 : vector3 ℤ) (symmMode : SymmetryMode) (qnums : List (vector3 R))
    (j : Fin 3)
    (hdef : ∀ i, sup i ≠ 0 ∧ ¬ (kfold i = -2147483648 ∧ sup i = -1))
    (hq : qnums ≠ []) (hj : ¬ sup j ∣ kfold j) (hmin : ∀ i, i < j → sup i ∣ kfold i) :
    (∃ err, setupChecks sup symmMode qnums kfold kfoldSup0 = Except.error err ∧
        err.isDie = true) ∧
      (symmMode = SymmetryMode.SymmetriesNone → (∃ k, qnums = [k] ∧ k = 0) →
        setupChecks sup symmMode qnums kfold kfoldSup0
          = Except.error (SetupError.kfoldNotMultiple (kfold j) (sup j) j)) := by
  have hloop : ∀ v : vector3 ℤ,
      ([0, 1, 2] : List (Fin 3)).foldl (kfoldStep sup kfold) (.ok v)
        = .error (.kfoldNotMultiple (kfold j) (sup j) j) := by
    intro v
    have hjm : Int.tmod (kfold j) (sup j) ≠ 0 := fun h => hj (Int.dvd_of_tmod_eq_zero h)
    have hlt : ∀ i, i < j → Int.tmod (kfold i) (sup i) = 0 :=
      fun i hi => Int.tmod_eq_zero_of_dvd (hmin i hi)
    rw [kfold_fold_unfold]
    fin_cases j
    · rw [kfoldStep_die sup kfold _ 0 (hdef 0) hjm]
      rfl
    · rw [kfoldStep_ok sup kfold _ 0 (hdef 0) (hlt 0 (by decide)),
        kfoldStep_die sup kfold _ 1 (hdef 1) hjm]
      rfl
    · rw [kfoldStep_ok sup kfold _ 0 (hdef 0) (hlt 0 (by decide)),
        kfoldStep_ok sup kfold _ 1 (hdef 1) (hlt 1 (by decide)),
        kfoldStep_die sup kfold _ 2 (hdef 2) hjm]
      rfl
  constructor
  · unfold setupChecks
    split_ifs with h1 h2 h3
    · exact ⟨_, rfl, rfl⟩
    · exact ⟨_, rfl, rfl⟩
    · exact ⟨_, rfl, rfl⟩
    · cases qnums with
      | nil => exact absurd rfl hq
      | cons k rest =>
        simp only [List.head?_cons]
        split_ifs with h4
        · exact ⟨_, rfl, rfl⟩
        · exact ⟨_, hloop _, rfl⟩
  · rintro hs ⟨k, hqk, hk⟩
    have hsup : length_squared sup ≠ 0 := by
      intro h
      have h0 := (length_squared_eq_zero_iff sup).mp h
      exact (hdef 0).1 (by rw [h0]; rfl)
    have hk0 : vector3.length_squared k = 0 := by
      subst hk
      simp [vector3.length_squared]
    subst hs hqk
    unfold setupChecks
    rw [if_neg hsup]
    simp only [ne_eq, not_true_eq_false, if_false, List.length_singleton, lt_self_iff_false,
      List.head?_cons, hk0]
    exact hloop _

/-- C15 (witness): `kfold = (4,3,3)` and `sup = (2,2,2)`: directions 1 and 2 fail, the error
names direction 1. -/
theorem setup_kfold_not_multiple_witness :
    (∀ i, (![2, 2, 2] : vector3 ℤ) i ≠ 0 ∧
      ¬ ((![4, 3, 3] : vector3 ℤ) i = -2147483648 ∧ (![2, 2, 2] : vector3 ℤ) i = -1)) ∧
    exQnumsGamma ≠ [] ∧
    ¬ (![2, 2, 2] : vector3 ℤ) 1 ∣ (![4, 3, 3] : vector3 ℤ) 1 ∧
    (∀ i : Fin 3, i < 1 → (![2, 2, 2] : vector3 ℤ) i ∣ (![4, 3, 3] : vector3 ℤ) i) ∧
    ((∃ err, setupChecks ![2, 2, 2] SymmetryMode.SymmetriesNone exQnumsGamma ![4, 3, 3]
          ![4, 3, 3] = Except.error err ∧ err.isDie = true) ∧
      (SymmetryMode.SymmetriesNone = SymmetryMode.SymmetriesNone →
        (∃ k, exQnumsGamma = [k] ∧ k = 0) →
        setupChecks ![2, 2, 2] SymmetryMode.SymmetriesNone exQnumsGamma ![4, 3, 3] ![4, 3, 3]
          = Except.error (SetupError.kfoldNotMultiple ((![4, 3, 3] : vector3 ℤ) 1)
              ((![2, 2, 2] : vector3 ℤ) 1) 1))) :=
  ⟨by decide, by simp [exQnumsGamma], by decide, by decide,
    setup_kfold_not_multiple ![2, 2, 2] ![4, 3, 3] ![4, 3, 3] SymmetryMode.SymmetriesNone
      exQnumsGamma 1 (by decide) (by simp [exQnumsGamma]) (by decide) (by decide)⟩

/-- C16: whenever symmetry use is enabled (mode other than `SymmetriesNone`), or the k-point
list has more than one k-point, or it has a single k-point with non-zero coordinates,
`Phonon::setup` ends with a fatal error of `die`: the one of line 39 when `sup` is unset,
otherwise "phonon does not support symmetries" when symmetries are on and "phonon requires a
Gamma-centered uniform kpoint mesh" when they are off. -/
theorem setup_rejects_symmetries_and_kpoints {R : Type} [LinearOrderedField R]
    [DecidableEq R] (sup kfold kfoldSup0 : vector3 ℤ) (symmMode : SymmetryMode)
    (qnums : List (vector3 R))
    (h : symmMode ≠ SymmetryMode.SymmetriesNone ∨ 1 < qnums.length ∨
      ∃ k, qnums = [k] ∧ k ≠ 0) :
    (∃ err, setupChecks sup symmMode qnums kfold kfoldSup0 = Except.error err ∧
        err.isDie = true ∧
        (err = SetupError.supercellUnspecified ∨ err = SetupError.symmetriesUnsupported ∨
          err = SetupError.notGammaCentered)) ∧
      (length_squared sup ≠ 0 →
        setupChecks sup symmMode qnums kfold kfoldSup0
          = Except.error (if symmMode ≠ SymmetryMode.SymmetriesNone
              then SetupError.symmetriesUnsupported else SetupError.notGammaCentered)) := by
  have key : length_squared sup ≠ 0 →
      setupChecks sup symmMode qnums kfold kfoldSup0
        = Except.error (if symmMode ≠ SymmetryMode.SymmetriesNone
            then SetupError.symmetriesUnsupported else SetupError.notGammaCentered) := by
    intro hsup
    unfold setupChecks
    rw [if_neg hsup]
    by_cases hs : symmMode ≠ SymmetryMode.SymmetriesNone
    · rw [if_pos hs, if_pos hs]
    · rw [if_neg hs, if_neg hs]
      rcases h with h | h | ⟨k, hqk, hk⟩
      · exact absurd h hs
      · rw [if_pos h]
      · subst hqk
        have hk0 : vector3.length_squared k ≠ 0 :=
          fun h0 => hk ((vector3_length_squared_eq_zero_iff k).mp h0)
        simp only [List.length_singleton, lt_self_iff_false, if_false, List.head?_cons]
        rw [if_pos hk0]
  refine ⟨?_, key⟩
  by_cases hsup : length_squared sup = 0
  · refine ⟨SetupError.supercellUnspecified, ?_, rfl, Or.inl rfl⟩
    unfold setupChecks
    rw [if_pos hsup]
  · refine ⟨_, key hsup, ?_, ?_⟩
    · split_ifs <;> rfl
    · split_ifs
      · exact Or.inr (Or.inl rfl)
      · exact Or.inr (Or.inr rfl)

/-- C16 (witness): symmetries off, `sup = (2,1,1)` and the single k-point `(1/2,0,0)`: the run
ends with "phonon requires a Gamma-centered uniform kpoint mesh". -/
theorem setup_rejects_symmetries_and_kpoints_witness :
    (SymmetryMode.SymmetriesNone ≠ SymmetryMode.SymmetriesNone ∨ 1 < exQnumsShifted.length ∨
      ∃ k, exQnumsShifted = [k] ∧ k ≠ 0) ∧
    ((∃ err, setupChecks exSup SymmetryMode.SymmetriesNone exQnumsShifted ![2, 1, 1] ![2, 1, 1]
          = Except.error err ∧ err.isDie = true ∧
        (err = SetupError.supercellUnspecified ∨ err = SetupError.symmetriesUnsupported ∨
          err = SetupError.notGammaCentered)) ∧
      (length_squared exSup ≠ 0 →
        setupChecks exSup SymmetryMode.SymmetriesNone exQnumsShifted ![2, 1, 1] ![2, 1, 1]
          = Except.error (if SymmetryMode.SymmetriesNone ≠ SymmetryMode.SymmetriesNone
              then SetupError.symmetriesUnsupported else SetupError.notGammaCentered))) :=
  have hk : (![1 / 2, 0, 0] : vector3 ℚ) ≠ 0 := by
    intro h
    have h0 := congrFun h 0
    norm_num at h0
  ⟨Or.inr (Or.inr ⟨_, rfl, hk⟩),
    setup_rejects_symmetries_and_kpoints exSup ![2, 1, 1] ![2, 1, 1]
      SymmetryMode.SymmetriesNone exQnumsShifted (Or.inr (Or.inr ⟨_, rfl, hk⟩))⟩

/-- C17 (as amended): the checks of `Phonon::setup` end with the fatal error "phonon supercell
must be specified" exactly when `sup` is unset (all three components zero); no other check
looks at the sign of the components. -/
theorem setup_supercell_unspecified_iff {R : Type} [Field R] [DecidableEq R]
    (sup kfold kfoldSup0 : vector3 ℤ) (symmMode : SymmetryMode) (qnums : List (vector3 R)) :
    setupChecks sup symmMode qnums kfold kfoldSup0
        = Except.error SetupError.supercellUnspecified ↔ sup = 0 := by
  constructor
  · intro h
    by_contra hne
    have hsup : length_squared sup ≠ 0 := fun h0 => hne ((length_squared_eq_zero_iff sup).mp h0)
    unfold setupChecks at h
    rw [if_neg hsup] at h
    by_cases h2 : symmMode ≠ SymmetryMode.SymmetriesNone
    · rw [if_pos h2] at h
      cases h
    · rw [if_neg h2] at h
      by_cases h3 : 1 < qnums.length
      · rw [if_pos h3] at h
        cases h
      · rw [if_neg h3] at h
        cases qnums with
        | nil => cases h
        | cons k rest =>
          simp only [List.head?_cons] at h
          by_cases h4 : vector3.length_squared k ≠ 0
          · rw [if_pos h4] at h
            cases h
          · rw [if_neg h4] at h
            obtain ⟨j, hj | hj⟩ := kfold_fold_error sup kfold kfoldSup0 _ h
            · cases hj
            · cases hj
  · intro h
    unfold setupChecks
    rw [if_pos ((length_squared_eq_zero_iff sup).mpr h)]

/-- C17 (counterexample): `sup = (-2,-1,1)` has negative components, and with the foldings
`kfold = (2,1,1)`, symmetries off and the single k-point at the zone centre every check of
`Phonon::setup` passes; the supercell folding becomes `(-1,-1,1)`. -/
theorem setup_accepts_negative_sup :
    (∃ j, exSupNegative j < 0) ∧
    setupChecks exSupNegative SymmetryMode.SymmetriesNone exQnumsGamma ![2, 1, 1] ![2, 1, 1]
      = Except.ok ![-1, -1, 1] := by
  refine ⟨⟨0, by decide⟩, ?_⟩
  have hls : length_squared exSupNegative ≠ 0 := by decide
  have hk0 : vector3.length_squared (![0, 0, 0] : vector3 ℚ) = 0 := by
    simp [vector3.length_squared]
  unfold setupChecks
  rw [if_neg hls]
  simp only [ne_eq, not_true_eq_false, if_false, exQnumsGamma, List.length_singleton,
    lt_self_iff_false, List.head?_cons, hk0]
  rw [kfold_fold_unfold, kfoldStep_ok exSupNegative _ _ 0 (by decide) (by decide),
    kfoldStep_ok exSupNegative _ _ 1 (by decide) (by decide),
    kfoldStep_ok exSupNegative _ _ 2 (by decide) (by decide)]
  congr 1
  funext j
  fin_cases j <;> decide

end Phonon

/-! ## Claims on the replication of the atoms and the cell index -/

namespace Phonon

/-- C13: after the atom replication of `Phonon::setup`, for a species with `n` unit-cell
positions and `sup` with positive components, the supercell species has exactly
`prod(sup)*n` positions; the image of unit-cell atom `a` in the cell `iR = (i0,i1,i2)`,
`0 <= iR[j] < sup[j]`, stands at index `((i0*sup[1] + i1)*sup[2] + i2)*n + a` and equals
`invSup*(pos[a] + iR)`; and every index of the list is the index of exactly one pair of a
cell and an atom, so each pair `(pos, iR)` occurs once and nothing else occurs. -/
theorem replicated_atoms_enumerate {R : Type} [Ring R] (sup : vector3 ℤ) (invSup : Matrix (Fin 3) (Fin 3) R)
    (atpos : List (vector3 R)) (hpos : ∀ j, 0 < sup j) :
    ((replicateAtoms sup invSup atpos).length : ℤ)
        = sup 0 * sup 1 * sup 2 * (atpos.length : ℤ) ∧
      (∀ i0 i1 i2 a : ℕ, (i0 : ℤ) < sup 0 → (i1 : ℤ) < sup 1 → (i2 : ℤ) < sup 2 →
        a < atpos.length →
        imageIndex sup atpos.length i0 i1 i2 a < (replicateAtoms sup invSup atpos).length ∧
        (replicateAtoms sup invSup atpos).getD (imageIndex sup atpos.length i0 i1 i2 a) 0
          = invSup.mulVec (addOffset (atpos.getD a 0) (offsetOf i0 i1 i2))) ∧
      (∀ k, k < (replicateAtoms sup invSup atpos).length →
        ∃! t : ℕ × ℕ × ℕ × ℕ,
          ((t.1 : ℤ) < sup 0 ∧ (t.2.1 : ℤ) < sup 1 ∧ (t.2.2.1 : ℤ) < sup 2 ∧
            t.2.2.2 < atpos.length) ∧
          imageIndex sup atpos.length t.1 t.2.1 t.2.2.1 t.2.2.2 = k) := by
  obtain ⟨hlen, hget⟩ := replicateAtoms_spec sup invSup atpos
  have hs : ∀ d, ((sup d).toNat : ℤ) = sup d := fun d => Int.toNat_of_nonneg (hpos d).le
  refine ⟨?_, ?_, ?_⟩
  · rw [hlen]
    push_cast
    rw [hs 0, hs 1, hs 2]
    ring
  · intro i0 i1 i2 a h0 h1 h2 ha
    have h0' := Int.lt_toNat.mpr h0
    have h1' := Int.lt_toNat.mpr h1
    have h2' := Int.lt_toNat.mpr h2
    refine ⟨?_, hget i0 i1 i2 a h0' h1' h2' ha⟩
    rw [hlen]
    have hidx : imageIndex sup atpos.length i0 i1 i2 a
        = i0 * ((sup 1).toNat * ((sup 2).toNat * atpos.length))
          + (i1 * ((sup 2).toNat * atpos.length) + (i2 * atpos.length + a)) := by
      unfold imageIndex
      ring
    rw [hidx]
    exact mul_add_lt _ _ _ _ h0' (mul_add_lt _ _ _ _ h1' (mul_add_lt _ _ _ _ h2' ha))
  · intro k hk
    rw [hlen] at hk
    simpa only [Int.lt_toNat] using imageIndex_bijective sup atpos.length k hk

/-- C13 (witness): `sup = (2,1,1)` and two unit-cell atoms give four supercell positions. -/
theorem replicated_atoms_enumerate_witness :
    (∀ j, 0 < exSup j) ∧
    (((replicateAtoms exSup exInvSup exAtpos).length : ℤ)
        = exSup 0 * exSup 1 * exSup 2 * (exAtpos.length : ℤ) ∧
      (∀ i0 i1 i2 a : ℕ, (i0 : ℤ) < exSup 0 → (i1 : ℤ) < exSup 1 → (i2 : ℤ) < exSup 2 →
        a < exAtpos.length →
        imageIndex exSup exAtpos.length i0 i1 i2 a
          < (replicateAtoms exSup exInvSup exAtpos).length ∧
        (replicateAtoms exSup exInvSup exAtpos).getD
            (imageIndex exSup exAtpos.length i0 i1 i2 a) 0
          = exInvSup.mulVec (addOffset (exAtpos.getD a 0) (offsetOf i0 i1 i2))) ∧
      (∀ k, k < (replicateAtoms exSup exInvSup exAtpos).length →
        ∃! t : ℕ × ℕ × ℕ × ℕ,
          ((t.1 : ℤ) < exSup 0 ∧ (t.2.1 : ℤ) < exSup 1 ∧ (t.2.2.1 : ℤ) < exSup 2 ∧
            t.2.2.2 < exAtpos.length) ∧
          imageIndex exSup exAtpos.length t.1 t.2.1 t.2.2.1 t.2.2.2 = k)) :=
  ⟨by decide, replicated_atoms_enumerate exSup exInvSup exAtpos (by decide)⟩

end Phonon

/-! ## Claims on the displacement loop and the output files of `Phonon::dump` -/

namespace Phonon

/-- C11: for every mode and every step `dr`, one iteration of the displacement loop calls
`step(dir, dr)` and later `step(dir, -dr)` with the same direction vector (1 at the mode's
species, atom and direction, 0 elsewhere) and the same magnitude; the first call moves the
mode's coordinate by `dr`; with `step` adding `alpha*dir` to the positions, the positions
after the iteration equal those before it, and after all modes the geometry equals the
unperturbed one. -/
theorem displacement_restored {R C : Type} [Ring R] (dr : R) (st : DumpState R C)
    (mode : Mode) (modes : List Mode) :
    (displaceMode dr st mode).log
        = st.log ++ [DumpEvent.step (unitDirection mode) dr st.cntrl.dragWavefunctions,
            DumpEvent.compute, DumpEvent.setSupState, DumpEvent.getHsub,
            DumpEvent.step (unitDirection mode) (-dr) false] ∧
      (∀ sp a d, (unitDirection mode : ℕ → ℕ → vector3 R) sp a d
        = if sp = mode.sp ∧ a = mode.atom ∧ d.val = mode.dir then 1 else 0) ∧
      (∀ d : Fin 3, d.val = mode.dir →
        (iminStep st (unitDirection mode) dr).atpos mode.sp mode.atom d
          = st.atpos mode.sp mode.atom d + dr) ∧
      (displaceMode dr st mode).atpos = st.atpos ∧
      (displacementLoop dr modes st).atpos = st.atpos := by
  refine ⟨displaceMode_log dr st mode, fun _ _ _ => rfl, ?_, displaceMode_atpos dr st mode,
    (displacementLoop_spec dr modes st).1⟩
  intro d hd
  simp [iminStep, unitDirection, hd]

/-- C20: in every iteration of the displacement loop the restoring call `step(dir, -dr)`, the
last call of the iteration, is made with `eSup.cntrl.dragWavefunctions` equal to false, while
the displacing call sees the flag as it was; after the iteration `eSup.cntrl` (the flag and
every other setting) equals its value before the iteration, and so it does after the whole
loop. -/
theorem drag_flag_restored {R C : Type} [Ring R] (dr : R) (st : DumpState R C)
    (mode : Mode) (modes : List Mode) :
    (displaceMode dr st mode).log.getLast?
        = some (DumpEvent.step (unitDirection mode) (-dr) false) ∧
      ((displaceMode dr st mode).log.drop st.log.length).head?
        = some (DumpEvent.step (unitDirection mode) dr st.cntrl.dragWavefunctions) ∧
      (displaceMode dr st mode).cntrl = st.cntrl ∧
      (displacementLoop dr modes st).cntrl = st.cntrl := by
  refine ⟨?_, ?_, displaceMode_cntrl dr st mode, (displacementLoop_spec dr modes st).2.1⟩
  · rw [displaceMode_log]
    simp [modeEvents]
  · rw [displaceMode_log]
    simp [modeEvents]

/-- C19 (as amended): in `Phonon::dump` the unperturbed calculation calls `setSupState`,
`imin.compute`, `setSupState`, `getHsub`, and each mode then calls, in this order,
`step(dir, dr)`, `imin.compute`, `setSupState`, `getHsub`, `step(dir, -dr)`.  Hence every
`getHsub` directly follows a `setSupState`, as does the gradient evaluation of the
unperturbed calculation; the gradient evaluation of a mode directly follows the
displacement. -/
theorem dump_call_order {R C : Type} [Ring R] (dr : R) (modes : List Mode)
    (st : DumpState R C) :
    (dumpDriver dr modes st).log
        = st.log ++ [DumpEvent.setSupState, DumpEvent.compute, DumpEvent.setSupState,
            DumpEvent.getHsub]
          ++ modes.flatMap (fun mode =>
            [DumpEvent.step (unitDirection mode) dr st.cntrl.dragWavefunctions,
              DumpEvent.compute, DumpEvent.setSupState, DumpEvent.getHsub,
              DumpEvent.step (unitDirection mode) (-dr) false]) ∧
      List.Chain' (fun a b : DumpEvent R =>
          b.kind = EventKind.getHsub → a.kind = EventKind.setSupState)
        ((dumpDriver dr modes st).log.drop st.log.length) := by
  refine ⟨dumpDriver_log dr modes st, ?_⟩
  rw [dumpDriver_log, List.append_assoc, List.drop_left, List.chain'_append]
  obtain ⟨hc, hh⟩ := modeEvents_chain dr st.cntrl.dragWavefunctions modes
  refine ⟨by simp [DumpEvent.kind], hc, ?_⟩
  intro x _ y hy hk
  rw [hh y hy] at hk
  cases hk

/-- C19 (counterexample): one mode, `dr = 1/100`.  The calls are `setSupState`, `compute`,
`setSupState`, `getHsub`, `step`, `compute`, `setSupState`, `getHsub`, `step`; call number 5
is the gradient evaluation of the mode, call number 4 before it is the displacement, and no
`setSupState` lies between the two. -/
theorem gradient_after_displacement_not_resynthesized :
    (dumpDriver (1 / 100 : ℚ) [⟨0, 0, 0⟩] exDumpState).log.map DumpEvent.kind
        = [EventKind.setSupState, EventKind.compute, EventKind.setSupState,
            EventKind.getHsub, EventKind.step, EventKind.compute, EventKind.setSupState,
            EventKind.getHsub, EventKind.step] ∧
      ¬ resynthesizedBefore
        ((dumpDriver (1 / 100 : ℚ) [⟨0, 0, 0⟩] exDumpState).log.map DumpEvent.kind) 5 := by
  have hk : (dumpDriver (1 / 100 : ℚ) [⟨0, 0, 0⟩] exDumpState).log.map DumpEvent.kind
      = [EventKind.setSupState, EventKind.compute, EventKind.setSupState,
          EventKind.getHsub, EventKind.step, EventKind.compute, EventKind.setSupState,
          EventKind.getHsub, EventKind.step] := by
    rw [dumpDriver_log]
    rfl
  refine ⟨hk, ?_⟩
  rw [hk]
  rintro ⟨k, hk5, hS, hno⟩
  interval_cases k
  · exact hno 4 (by decide) (by decide) rfl
  · cases hS
  · exact hno 4 (by decide) (by decide) rfl
  · cases hS
  · cases hS

/-- C18 (behaviour of the code): when `fopen` fails for the frequency-squared file, the head
process still calls `write_real` and `fclose` on the null stream and goes on to open the
basis file; when `fopen` fails for the basis file, it still calls `fprintf` and `fclose` on
the null stream.  No call of the block ends the run. -/
theorem dump_writes_through_failed_open {R : Type} [Zero R] (fp : Option ℕ) (nCells : ℕ)
    (modes : List Mode) (speciesName : ℕ → String) (invsqrtM : ℕ → R) :
    (FileEvent.write_real none 0
        ∈ writeOutputs true none fp (nCells + 1) modes speciesName invsqrtM ∧
      FileEvent.fclose none
        ∈ writeOutputs true none fp (nCells + 1) modes speciesName invsqrtM ∧
      FileEvent.fopen "phononBasis"
        ∈ writeOutputs true none fp (nCells + 1) modes speciesName invsqrtM) ∧
    (FileEvent.fprintfHeader none
        ∈ writeOutputs true fp none nCells modes speciesName invsqrtM ∧
      FileEvent.fclose none
        ∈ writeOutputs true fp none nCells modes speciesName invsqrtM) := by
  simp [writeOutputs]

end Phonon

/-! ## Mode list and mass weighting of `Phonon::dump` -/

namespace Phonon

/-- The three modes of one atom, directions 0, 1, 2. -/
theorem push_three_directions (sp a : ℕ) (acc : List Mode) :
    (List.range 3).foldl (fun acc dir => acc ++ [(⟨sp, a, dir⟩ : Mode)]) acc
      = acc ++ [⟨sp, a, 0⟩, ⟨sp, a, 1⟩, ⟨sp, a, 2⟩] := by
  have h : List.range 3 = [0, 1, 2] := rfl
  rw [h]
  simp

/-- The mode list as a concatenation over species and atoms. -/
theorem buildModes_eq (nSpecies : ℕ) (nAtpos : ℕ → ℕ) :
    buildModes nSpecies nAtpos
      = (List.range nSpecies).flatMap fun sp =>
          (List.range (nAtpos sp)).flatMap fun a =>
            [(⟨sp, a, 0⟩ : Mode), ⟨sp, a, 1⟩, ⟨sp, a, 2⟩] := by
  unfold buildModes
  rw [foldl_append_flatMap _ (fun sp => (List.range (nAtpos sp)).flatMap fun a =>
    [(⟨sp, a, 0⟩ : Mode), ⟨sp, a, 1⟩, ⟨sp, a, 2⟩])]
  · simp
  intro acc0 sp
  rw [foldl_append_flatMap _ (fun a => [(⟨sp, a, 0⟩ : Mode), ⟨sp, a, 1⟩, ⟨sp, a, 2⟩])]
  intro acc1 a
  exact push_three_directions sp a acc1

/-- The number of atoms before species `sp + 1`. -/
theorem atomOffset_succ (nAtpos : ℕ → ℕ) (sp : ℕ) :
    atomOffset nAtpos (sp + 1) = atomOffset nAtpos sp + nAtpos sp :=
  Finset.sum_range_succ _ _

/-- Every atom ordinal below the total belongs to one species and one atom of it. -/
theorem atomOffset_decode (nAtpos : ℕ → ℕ) (nSpecies t : ℕ)
    (ht : t < atomOffset nAtpos nSpecies) :
    ∃ sp a, sp < nSpecies ∧ a < nAtpos sp ∧ t = atomOffset nAtpos sp + a := by
  induction nSpecies with
  | zero => simp [atomOffset] at ht
  | succ n ih =>
    rw [atomOffset_succ] at ht
    by_cases h : t < atomOffset nAtpos n
    · obtain ⟨sp, a, hsp, ha, he⟩ := ih h
      exact ⟨sp, a, Nat.lt_succ_of_lt hsp, ha, he⟩
    · exact ⟨n, t - atomOffset nAtpos n, Nat.lt_succ_self n, by omega, by omega⟩

/-- Length and entries of the mode list. -/
theorem buildModes_spec (nSpecies : ℕ) (nAtpos : ℕ → ℕ) :
    (buildModes nSpecies nAtpos).length = 3 * atomOffset nAtpos nSpecies ∧
      ∀ sp a d, sp < nSpecies → a < nAtpos sp → d < 3 →
        (buildModes nSpecies nAtpos).getD (3 * (atomOffset nAtpos sp + a) + d) ⟨0, 0, 0⟩
          = ⟨sp, a, d⟩ := by
  rw [buildModes_eq]
  induction nSpecies with
  | zero => exact ⟨by simp [atomOffset], fun sp a d hsp => absurd hsp (Nat.not_lt_zero sp)⟩
  | succ n ih =>
    obtain ⟨hlen, hget⟩ := ih
    obtain ⟨blen, bget⟩ := flatMap_blocks (⟨0, 0, 0⟩ : Mode) 3
      (fun a => [(⟨n, a, 0⟩ : Mode), ⟨n, a, 1⟩, ⟨n, a, 2⟩]) (nAtpos n) (fun _ _ => rfl)
    have hrw : (List.range (n + 1)).flatMap (fun sp => (List.range (nAtpos sp)).flatMap fun a =>
          [(⟨sp, a, 0⟩ : Mode), ⟨sp, a, 1⟩, ⟨sp, a, 2⟩])
        = ((List.range n).flatMap fun sp => (List.range (nAtpos sp)).flatMap fun a =>
            [(⟨sp, a, 0⟩ : Mode), ⟨sp, a, 1⟩, ⟨sp, a, 2⟩])
          ++ (List.range (nAtpos n)).flatMap fun a =>
            [(⟨n, a, 0⟩ : Mode), ⟨n, a, 1⟩, ⟨n, a, 2⟩] := by
      rw [List.range_succ, List.flatMap_append]
      simp
    rw [hrw]
    refine ⟨?_, ?_⟩
    · rw [List.length_append, hlen, blen, atomOffset_succ]
      ring
    · intro sp a d hsp ha hd
      rcases Nat.lt_succ_iff_lt_or_eq.mp hsp with h | h
      · have hle : atomOffset nAtpos (sp + 1) ≤ atomOffset nAtpos n := by
          unfold atomOffset
          exact Finset.sum_le_sum_of_subset (Finset.range_mono h)
        rw [atomOffset_succ] at hle
        rw [List.getD_append _ _ _ _ (by rw [hlen]; omega)]
        exact hget sp a d h ha hd
      · subst h
        rw [List.getD_append_right _ _ _ _ (by rw [hlen]; omega), hlen]
        have e : 3 * (atomOffset nAtpos sp + a) + d - 3 * atomOffset nAtpos sp = a * 3 + d := by
          omega
        rw [e, bget a d ha hd]
        interval_cases d <;> rfl

/-! ### Mass weighting -/

/-- The loop over the species scales the vectors of each species once. -/
theorem species_scaling_fold {R : Type} [Field R] (c : ℕ → R) (g : ℕ → ℤ → vector3 R)
    (n sp : ℕ) (a : ℤ) (d : Fin 3) :
    (List.range n).foldl
        (fun (g : ℕ → ℤ → vector3 R) sp => Function.update g sp (fun a d => g sp a d * c sp))
        g sp a d
      = if sp < n then g sp a d * c sp else g sp a d := by
  induction n with
  | zero => simp
  | succ n ih =>
    rw [List.range_succ, List.foldl_append, List.foldl_cons, List.foldl_nil]
    by_cases h : sp = n
    · subst h
      rw [Function.update_same, ih, if_neg (lt_irrefl _), if_pos (Nat.lt_succ_self _)]
    · rw [Function.update_noteq h, ih]
      by_cases h2 : sp < n
      · rw [if_pos h2, if_pos (Nat.lt_succ_of_lt h2)]
      · rw [if_neg h2, if_neg (by omega)]

/-- The weighting of a mode reads the force derivatives of that mode only. -/
theorem massWeightMode_self {R : Type} [Field R] (nSpecies : ℕ) (c : ℕ → R) (modes : List Mode)
    (dg dg2 : ℕ → ℕ → ℤ → vector3 R) (i : ℕ) (h : dg i = dg2 i) :
    massWeightMode nSpecies c modes dg i i = massWeightMode nSpecies c modes dg2 i i := by
  unfold massWeightMode
  simp only [Function.update_same, h]

/-- The loop over the modes weights each mode once, from its value before the loop. -/
theorem massWeight_fold {R : Type} [Field R] (nSpecies : ℕ) (c : ℕ → R) (modes : List Mode)
    (dgrad : ℕ → ℕ → ℤ → vector3 R) (n iMode : ℕ) :
    (List.range n).foldl (massWeightMode nSpecies c modes) dgrad iMode
      = if iMode < n then massWeightMode nSpecies c modes dgrad iMode iMode
        else dgrad iMode := by
  induction n with
  | zero => simp
  | succ n ih =>
    rw [List.range_succ, List.foldl_append, List.foldl_cons, List.foldl_nil]
    by_cases h : iMode = n
    · subst h
      have hself : (List.range iMode).foldl (massWeightMode nSpecies c modes) dgrad iMode
          = dgrad iMode := by rw [ih, if_neg (lt_irrefl _)]
      rw [if_pos (Nat.lt_succ_self _)]
      exact massWeightMode_self nSpecies c modes _ _ iMode hself
    · have hstep : ∀ dg : ℕ → ℕ → ℤ → vector3 R,
          massWeightMode nSpecies c modes dg n iMode = dg iMode := by
        intro dg
        unfold massWeightMode
        simp only [Function.update_noteq h]
      rw [hstep, ih]
      by_cases h2 : iMode < n
      · rw [if_pos h2, if_pos (Nat.lt_succ_of_lt h2)]
      · rw [if_neg h2, if_neg (by omega)]

/-- Entry of the mass-weighted force derivatives. -/
theorem massWeight_apply {R : Type} [Field R] (nSpecies : ℕ) (c : ℕ → R) (modes : List Mode)
    (dgrad : ℕ → ℕ → ℤ → vector3 R) (iMode sp : ℕ) (a : ℤ) (d : Fin 3)
    (hi : iMode < modes.length) (hsp : sp < nSpecies) :
    massWeight nSpecies c modes dgrad iMode sp a d
      = dgrad iMode sp a d * c (modes.getD iMode ⟨0, 0, 0⟩).sp * c sp := by
  unfold massWeight
  rw [massWeight_fold, if_pos hi]
  unfold massWeightMode
  simp only [Function.update_same]
  rw [species_scaling_fold, if_pos hsp]

end Phonon

/-! ## Claims on the mode list, the mass weighting, the basis file and `positiveRemainder` -/

namespace Phonon

/-- C21: after the mass-weighting step of `Phonon::dump`, for every mode `i` and every
supercell atom of species `sp`, the force-derivative vector equals the finite-difference
value `(grad - grad0)*(1/dr)` multiplied by `1/sqrt(M_i) * 1/sqrt(M_sp)`, where `M_i` is the
mass of the displaced atom's species and `M_sp` the mass of the responding atom's species,
both in atomic units (`mass * amu`); the factor is symmetric in the two masses. -/
theorem mass_weighting_symmetric {R : Type} [Field R] (sqrt : R → R) (amu : R) (mass : ℕ → R)
    (nSpecies : ℕ) (modes : List Mode) (grad : ℕ → ℕ → ℤ → vector3 R)
    (grad0 : ℕ → ℤ → vector3 R) (dr : R) (iMode sp : ℕ) (a : ℤ) (d : Fin 3)
    (hi : iMode < modes.length) (hsp : sp < nSpecies) :
    massWeight nSpecies (invsqrtM sqrt amu mass) modes
        (fun i => finiteDifference (grad i) grad0 dr) iMode sp a d
      = (grad iMode sp a d - grad0 sp a d) * (1 / dr)
        * (1 / sqrt (mass (modes.getD iMode ⟨0, 0, 0⟩).sp * amu))
        * (1 / sqrt (mass sp * amu)) ∧
    (1 / sqrt (mass (modes.getD iMode ⟨0, 0, 0⟩).sp * amu)) * (1 / sqrt (mass sp * amu))
      = (1 / sqrt (mass sp * amu)) * (1 / sqrt (mass (modes.getD iMode ⟨0, 0, 0⟩).sp * amu)) :=
  ⟨massWeight_apply nSpecies (invsqrtM sqrt amu mass) modes _ iMode sp a d hi hsp,
    mul_comm _ _⟩

/-- C21 (witness): one species of mass 4 (`amu = 1`, `sqrt(4) = 2`), two atoms, mode 0. -/
theorem mass_weighting_symmetric_witness :
    (0 < exModes2.length ∧ 0 < 1) ∧
    (massWeight 1 (invsqrtM exSqrt 1 exMass) exModes2
        (fun _ => finiteDifference (fun _ _ _ => (1 : ℚ)) (fun _ _ _ => 0) (1 / 100)) 0 0 0 0
      = ((1 : ℚ) - 0) * (1 / (1 / 100))
        * (1 / exSqrt (exMass (exModes2.getD 0 ⟨0, 0, 0⟩).sp * 1))
        * (1 / exSqrt (exMass 0 * 1)) ∧
    (1 / exSqrt (exMass (exModes2.getD 0 ⟨0, 0, 0⟩).sp * 1)) * (1 / exSqrt (exMass 0 * 1))
      = (1 / exSqrt (exMass 0 * 1)) * (1 / exSqrt (exMass (exModes2.getD 0 ⟨0, 0, 0⟩).sp * 1))) :=
  ⟨⟨by decide, by decide⟩,
    mass_weighting_symmetric exSqrt 1 exMass 1 exModes2 (fun _ _ _ _ => (1 : ℚ))
      (fun _ _ _ => 0) (1 / 100) 0 0 0 0 (by decide) (by decide)⟩

/-- C23: the mode list built in `Phonon::dump` has exactly `3*N` entries, `N` being the total
number of unit-cell atoms over all species, so `nAtoms = modes.size()/3 = N`; atom `a` of
species `sp` has the ordinal `t = (atoms of the earlier species) + a` (species-major, then
atom), and the entries `3t`, `3t+1`, `3t+2` are the modes of that atom with directions 0, 1,
2; every ordinal below `N` belongs to exactly such an atom. -/
theorem mode_list_order (nSpecies : ℕ) (nAtpos : ℕ → ℕ) :
    (buildModes nSpecies nAtpos).length = 3 * atomOffset nAtpos nSpecies ∧
      (buildModes nSpecies nAtpos).length / 3 = atomOffset nAtpos nSpecies ∧
      (∀ sp a d, sp < nSpecies → a < nAtpos sp → d < 3 →
        (buildModes nSpecies nAtpos).getD (3 * (atomOffset nAtpos sp + a) + d) ⟨0, 0, 0⟩
          = ⟨sp, a, d⟩) ∧
      (∀ t, t < atomOffset nAtpos nSpecies →
        ∃ sp a, sp < nSpecies ∧ a < nAtpos sp ∧ t = atomOffset nAtpos sp + a ∧
          ∀ d, d < 3 → (buildModes nSpecies nAtpos).getD (3 * t + d) ⟨0, 0, 0⟩ = ⟨sp, a, d⟩) := by
  obtain ⟨hlen, hget⟩ := buildModes_spec nSpecies nAtpos
  refine ⟨hlen, by rw [hlen]; omega, hget, ?_⟩
  intro t ht
  obtain ⟨sp, a, hsp, ha, he⟩ := atomOffset_decode nAtpos nSpecies t ht
  refine ⟨sp, a, hsp, ha, he, fun d hd => ?_⟩
  rw [he]
  exact hget sp a d hsp ha hd

/-- A line that holds the fields of one mode and ends. -/
theorem textLines_mode_line {R : Type} (name : String) (atom : ℕ) (r : vector3 R)
    (rest : List (TextPiece R)) :
    textLines (TextPiece.modeFields name atom r :: TextPiece.newline :: rest)
      = [TextPiece.modeFields name atom r] :: textLines rest := by
  simp only [textLines]

/-- The lines of the text written by the loop over the modes: one line per mode. -/
theorem textLines_mode_lines {R : Type} [Zero R] (speciesName : ℕ → String) (c : ℕ → R)
    (modes : List Mode) :
    textLines (modes.flatMap fun m => [modeLine speciesName c m, TextPiece.newline])
      = modes.map fun m => [modeLine speciesName c m] := by
  induction modes with
  | nil => rfl
  | cons m rest ih =>
    rw [List.flatMap_cons, List.map_cons, ← ih]
    exact textLines_mode_line _ _ _ _

/-- C24 (behaviour of the code): the header is written without an end of line, so the first
line of the basis file holds the header text followed by the fields of the first mode; the
later lines hold the fields of one mode each. -/
theorem basis_header_shares_first_line {R : Type} [Zero R] (fpOmegaSq fpBasis : Option ℕ)
    (nCells : ℕ) (mode : Mode) (rest : List Mode) (speciesName : ℕ → String) (c : ℕ → R) :
    textLines (basisText
        (writeOutputs true fpOmegaSq fpBasis nCells (mode :: rest) speciesName c))
      = [TextPiece.header, modeLine speciesName c mode]
        :: rest.map (fun m => [modeLine speciesName c m]) := by
  have htext : basisText
      (writeOutputs true fpOmegaSq fpBasis nCells (mode :: rest) speciesName c)
      = TextPiece.header ::
        (mode :: rest).flatMap fun m => [modeLine speciesName c m, TextPiece.newline] := by
    simp [basisText, writeOutputs, FileEvent.text, List.flatMap_append, List.flatMap_map,
      modeLine, Function.comp_def]
  rw [htext, List.flatMap_cons]
  have hl : textLines
      (modeLine speciesName c mode :: TextPiece.newline ::
        rest.flatMap fun m => [modeLine speciesName c m, TextPiece.newline])
      = [modeLine speciesName c mode] :: rest.map (fun m => [modeLine speciesName c m]) := by
    rw [← textLines_mode_lines]
    exact textLines_mode_line _ _ _ _
  have hh : ∀ (l : List (TextPiece R)) (line : List (TextPiece R))
      (lines : List (List (TextPiece R))), textLines l = line :: lines →
      textLines (TextPiece.header :: l) = (TextPiece.header :: line) :: lines := by
    intro l line lines h
    rw [textLines, h]
  exact hh _ _ _ hl

/-- C25: for every 16-bit signed `x` and every 16-bit unsigned `y > 0`,
`positiveRemainder(x, y)` returns `z` with `0 <= z < y` and `z` congruent to `x` modulo `y`
(`y` divides `x - z`); it is the remainder of the floored division. -/
theorem positiveRemainder_range (x y : ℤ) (hx : -32768 ≤ x ∧ x < 32768)
    (hy : 0 < y ∧ y < 65536) :
    0 ≤ positiveRemainder x y ∧ positiveRemainder x y < y ∧
      y ∣ x - positiveRemainder x y ∧ positiveRemainder x y = x % y := by
  have h := positiveRemainder_eq_emod x y hx.1 hx.2 hy.1 hy.2
  rw [toInt16_of_range x hx.1 hx.2, toUInt16_of_range y hy.1.le hy.2] at h
  rw [h]
  refine ⟨Int.emod_nonneg _ (ne_of_gt hy.1), Int.emod_lt_of_pos _ hy.1, ?_, rfl⟩
  exact ⟨x / y, by have := Int.emod_add_ediv x y; omega⟩

/-- C25 (witness): `positiveRemainder(-7, 3) = 2`. -/
theorem positiveRemainder_range_witness :
    ((-32768 : ℤ) ≤ -7 ∧ (-7 : ℤ) < 32768) ∧ ((0 : ℤ) < 3 ∧ (3 : ℤ) < 65536) ∧
    (0 ≤ positiveRemainder (-7) 3 ∧ positiveRemainder (-7) 3 < 3 ∧
      (3 : ℤ) ∣ -7 - positiveRemainder (-7) 3 ∧ positiveRemainder (-7) 3 = -7 % 3) :=
  ⟨by decide, by decide, positiveRemainder_range (-7) 3 (by decide) (by decide)⟩

end Phonon

/-! ## `EnumStringMap` and the operators of `DataMultiplet` -/

namespace Util

/-- Adding one more pair at the end is one more call of `addEntry`. -/
theorem build_append {E : Type} [DecidableEq E] (pairs : List (E × String)) (e : E)
    (s : String) :
    EnumStringMap.build (pairs ++ [(e, s)]) = (EnumStringMap.build pairs).addEntry e s := by
  unfold EnumStringMap.build
  rw [List.foldl_append]
  rfl

/-- The keys of `stringToEnum` are the registered strings, each with an enum registered with
it. -/
theorem stringToEnum_build {E : Type} [DecidableEq E] (pairs : List (E × String))
    (key : String) :
    (key ∉ pairs.map Prod.snd → (EnumStringMap.build pairs).stringToEnum key = none) ∧
      (key ∈ pairs.map Prod.snd →
        ∃ v, (EnumStringMap.build pairs).stringToEnum key = some v ∧ (v, key) ∈ pairs) := by
  induction pairs using List.reverseRecOn with
  | nil => exact ⟨fun _ => rfl, fun h => by simp at h⟩
  | append_singleton l p ih =>
    obtain ⟨e, s⟩ := p
    rw [build_append]
    by_cases hk : key = s
    · subst hk
      refine ⟨fun h => absurd (by simp) h, fun _ => ⟨e, ?_, by simp⟩⟩
      simp [EnumStringMap.addEntry]
    · have hupd : ((EnumStringMap.build l).addEntry e s).stringToEnum key
          = (EnumStringMap.build l).stringToEnum key := by
        simp [EnumStringMap.addEntry, Function.update_noteq hk]
      rw [hupd]
      constructor
      · intro h
        exact ih.1 (fun hm => h (by simp [hm]))
      · intro h
        have hm : key ∈ l.map Prod.snd := by
          simp only [List.map_append, List.map_cons, List.map_nil, List.mem_append,
            List.mem_singleton] at h
          rcases h with h | h
          · exact h
          · exact absurd h hk
        obtain ⟨v, hv, hmem⟩ := ih.2 hm
        exact ⟨v, hv, List.mem_append_left _ hmem⟩

/-- With pairwise distinct strings every registered string maps to its own enum. -/
theorem stringToEnum_of_nodup {E : Type} [DecidableEq E] (pairs : List (E × String))
    (hs : (pairs.map Prod.snd).Nodup) (p : E × String) (hp : p ∈ pairs) :
    (EnumStringMap.build pairs).stringToEnum p.2 = some p.1 := by
  induction pairs using List.reverseRecOn with
  | nil => simp at hp
  | append_singleton l q ih =>
    obtain ⟨e, s⟩ := q
    rw [build_append]
    rw [List.map_append, List.nodup_append] at hs
    obtain ⟨hl, -, hdis⟩ := hs
    rcases List.mem_append.mp hp with h | h
    · have hne : p.2 ≠ s := by
        intro he
        exact hdis (List.mem_map_of_mem Prod.snd h) (by simp [he])
      simp only [EnumStringMap.addEntry, Function.update_noteq hne]
      exact ih hl h
    · simp only [List.mem_singleton] at h
      subst h
      simp [EnumStringMap.addEntry]

/-- With pairwise distinct enums every registered enum maps to its own string. -/
theorem enumToString_of_nodup {E : Type} [DecidableEq E] (pairs : List (E × String))
    (he : (pairs.map Prod.fst).Nodup) (p : E × String) (hp : p ∈ pairs) :
    (EnumStringMap.build pairs).enumToString p.1 = some p.2 := by
  induction pairs using List.reverseRecOn with
  | nil => simp at hp
  | append_singleton l q ih =>
    obtain ⟨e, s⟩ := q
    rw [build_append]
    rw [List.map_append, List.nodup_append] at he
    obtain ⟨hl, -, hdis⟩ := he
    rcases List.mem_append.mp hp with h | h
    · have hne : p.1 ≠ e := by
        intro hh
        exact hdis (List.mem_map_of_mem Prod.fst h) (by simp [hh])
      simp only [EnumStringMap.addEntry, Function.update_noteq hne]
      exact ih hl h
    · simp only [List.mem_singleton] at h
      subst h
      simp [EnumStringMap.addEntry]

/-- C27: for an `EnumStringMap` built from the pairs `(e1, s1), (e2, s2), ...`,
`getEnum(key, e)` returns false and leaves `e` unchanged when `key` is none of the
registered strings, and otherwise returns true and sets `e` to an enum registered with that
string; when the registered enums and the registered strings are pairwise distinct,
`getString(e_i)` is `s_i` and `getEnum(s_i, e)` returns true with `e = e_i`, for every
registered pair. -/
theorem enum_string_map_lookup {E : Type} [DecidableEq E] (pairs : List (E × String))
    (key : String) (e : E) :
    (key ∉ pairs.map Prod.snd → (EnumStringMap.build pairs).getEnum key e = (false, e)) ∧
      (key ∈ pairs.map Prod.snd →
        ∃ v, (v, key) ∈ pairs ∧ (EnumStringMap.build pairs).getEnum key e = (true, v)) ∧
      ((pairs.map Prod.fst).Nodup → (pairs.map Prod.snd).Nodup → ∀ p, p ∈ pairs →
        (EnumStringMap.build pairs).getString p.1 = some p.2 ∧
        (EnumStringMap.build pairs).getEnum p.2 e = (true, p.1)) := by
  refine ⟨?_, ?_, ?_⟩
  · intro h
    unfold EnumStringMap.getEnum
    rw [(stringToEnum_build pairs key).1 h]
  · intro h
    obtain ⟨v, hv, hmem⟩ := (stringToEnum_build pairs key).2 h
    refine ⟨v, hmem, ?_⟩
    unfold EnumStringMap.getEnum
    rw [hv]
  · intro he hs p hp
    refine ⟨enumToString_of_nodup pairs he p hp, ?_⟩
    unfold EnumStringMap.getEnum
    rw [stringToEnum_of_nodup pairs hs p hp]

/-- C27 (witness): the three pairs of the example; "Manual" gives 2, "Off" is not found. -/
theorem enum_string_map_lookup_witness :
    ("Off" ∉ exPairs.map Prod.snd ∧ (exPairs.map Prod.fst).Nodup ∧
      (exPairs.map Prod.snd).Nodup ∧ ((2 : ℕ), "Manual") ∈ exPairs) ∧
    (EnumStringMap.build exPairs).getEnum "Off" 7 = (false, 7) ∧
    (EnumStringMap.build exPairs).getString 2 = some "Manual" ∧
    (EnumStringMap.build exPairs).getEnum "Manual" 7 = (true, 2) :=
  ⟨⟨by decide, by decide, by decide, by decide⟩,
    (enum_string_map_lookup exPairs "Off" 7).1 (by decide),
    ((enum_string_map_lookup exPairs "Manual" 7).2.2 (by decide) (by decide)
      (2, "Manual") (by decide)).1,
    ((enum_string_map_lookup exPairs "Manual" 7).2.2 (by decide) (by decide)
      (2, "Manual") (by decide)).2⟩

end Util

namespace DataMultiplet

section OperatorLemmas

variable {R D : Type} [CommRing R] [CommRing D] [Algebra R D] {N : ℕ}

/-- The overloads with a destructible input whose body assigns to that input return the
value of the input-preserving overload and leave the operand passed as `const` unchanged:
`operator*(in1&&, in2)`, `operator*(in1&&, in2&&)`, `operator+(in1, in2&&)`,
`operator+(in1&&, in2)`, `operator-(in1, in2&&)` (computed as `(in2 -= in1) *= -1`, equal to
`in1 - in2`), `operator-(in1&&, in2)`, and those with a singlet or a scalar. -/
theorem destructible_overloads_agree (in1 in2 : Multiplet D N) (inS : D) (scaleFac : R) :
    ((mulDestructFirst in1 in2).result = (mulPreserve in1 in2).result ∧
        (mulDestructFirst in1 in2).second = in2) ∧
      ((mulDestructBoth in1 in2).result = (mulPreserve in1 in2).result) ∧
      ((addDestructSecond (R := R) in1 in2).result = (addPreserve (R := R) in1 in2).result ∧
        (addDestructSecond (R := R) in1 in2).first = in1) ∧
      ((addDestructFirst (R := R) in1 in2).result = (addPreserve (R := R) in1 in2).result ∧
        (addDestructFirst (R := R) in1 in2).second = in2) ∧
      ((subDestructSecond (R := R) in1 in2).result = (subPreserve (R := R) in1 in2).result ∧
        (subDestructSecond (R := R) in1 in2).result = in1 - in2 ∧
        (subDestructSecond (R := R) in1 in2).first = in1) ∧
      ((subDestructFirst (R := R) in1 in2).result = (subPreserve (R := R) in1 in2).result ∧
        (subDestructFirst (R := R) in1 in2).second = in2) ∧
      ((mulSingletDestruct inS in1).result = (mulSingletPreserve in1 inS).result ∧
        (mulSingletDestruct inS in1).first = inS) ∧
      ((scaleDestruct scaleFac in1).result = (scalePreserve in1 scaleFac).result) ∧
      ((subSingletDestruct (R := R) inS in2).result
          = (fun i => inS - in2 i) ∧
        (subSingletDestruct (R := R) inS in2).first = inS) := by
  refine ⟨⟨rfl, rfl⟩, rfl, ⟨?_, rfl⟩, ⟨rfl, rfl⟩, ⟨?_, ?_, rfl⟩, ⟨rfl, rfl⟩, ⟨rfl, rfl⟩, rfl,
    ⟨?_, rfl⟩⟩
  · funext i
    simp [addDestructSecond, addPreserve, addAssign, axpy, add_comm]
  · funext i
    simp [subDestructSecond, subPreserve, subAssign, scaleAssign, axpy, add_comm]
  · funext i
    simp [subDestructSecond, subAssign, scaleAssign, axpy, sub_eq_add_neg, add_comm]
  · funext i
    simp [subSingletDestruct, scaleAssign, axpySinglet, sub_eq_add_neg, add_comm]

/-- C26 (behaviour of the code): the body of `operator*(const TptrMul& in2, TptrMul&& in1)`
reads `return in2 *= in1;`.  As written it returns the componentwise product, but it assigns
the product to `in2`, the operand declared `const`, and leaves the destructible operand `in1`
as it was. -/
theorem mul_const_operand_overwritten (in2 in1 : Multiplet D N) :
    (mulDestructSecond in2 in1).result = (fun i => in2 i * in1 i) ∧
      (mulDestructSecond in2 in1).first = (fun i => in2 i * in1 i) ∧
      (mulDestructSecond in2 in1).second = in1 ∧
      (mulDestructSecond (fun _ : Fin 1 => (2 : ℚ)) (fun _ => 3)).first
        ≠ (fun _ : Fin 1 => (2 : ℚ)) := by
  refine ⟨rfl, rfl, rfl, ?_⟩
  intro h
  have h0 := congrFun h 0
  simp [mulDestructSecond, mulAssign] at h0

end OperatorLemmas

end DataMultiplet

/-! ## Occupations of the atomic orbitals -/

namespace SpeciesInfo

/-- The orbitals in the order of the loop that fills `eigMap`, each with its eigenvalue. -/
theorem buildEigMap_eq {R : Type} [LinearOrder R] (nL : ℕ) (nP : ℕ → ℕ)
    (atomEigs : ℕ → ℕ → R) :
    buildEigMap nL nP atomEigs
      = ((List.range nL).flatMap fun l =>
          (List.range (nP l)).map fun p => (atomEigs l p, (l, p))).foldl
        (fun m o => eigMapInsert o.1 o.2 m) [] := by
  unfold buildEigMap
  generalize ([] : List (R × (ℕ × ℕ))) = acc
  induction nL generalizing acc with
  | zero => simp
  | succ n ih =>
    rw [List.range_succ, List.foldl_append, List.flatMap_append, List.foldl_append, ih]
    simp [List.foldl_map]

/-- Insertion of a new key keeps the keys ascending and adds the entry. -/
theorem eigMapInsert_spec {R : Type} [LinearOrder R] (key : R) (val : ℕ × ℕ)
    (m : List (R × (ℕ × ℕ))) (hs : m.Pairwise (fun a b => a.1 < b.1))
    (hk : key ∉ m.map Prod.fst) :
    (eigMapInsert key val m).Pairwise (fun a b => a.1 < b.1) ∧
      (eigMapInsert key val m).Perm ((key, val) :: m) := by
  induction m with
  | nil => exact ⟨by simp [eigMapInsert], List.Perm.refl _⟩
  | cons x rest ih =>
    obtain ⟨k, v⟩ := x
    rw [List.pairwise_cons] at hs
    obtain ⟨hhead, htail⟩ := hs
    have hkne : key ≠ k := fun h => hk (by simp [h])
    have hkrest : key ∉ rest.map Prod.fst := fun h => hk (by simp [h])
    unfold eigMapInsert
    by_cases h1 : key < k
    · rw [if_pos h1]
      refine ⟨?_, List.Perm.refl _⟩
      rw [List.pairwise_cons]
      refine ⟨?_, List.pairwise_cons.mpr ⟨hhead, htail⟩⟩
      intro a ha
      rcases List.mem_cons.mp ha with h | h
      · rw [h]
        exact h1
      · exact lt_trans h1 (hhead a h)
    · rw [if_neg h1, if_neg hkne]
      obtain ⟨hs2, hp2⟩ := ih htail hkrest
      have hlt : k < key := lt_of_le_of_ne (not_lt.mp h1) (Ne.symm hkne)
      refine ⟨?_, ?_⟩
      · rw [List.pairwise_cons]
        refine ⟨?_, hs2⟩
        intro a ha
        rcases List.mem_cons.mp (hp2.mem_iff.mp ha) with h | h
        · rw [h]
          exact hlt
        · exact hhead a h
      · exact (List.Perm.cons _ hp2).trans (List.Perm.swap _ _ _)

/-- Inserting entries with pairwise distinct new keys gives the entries in ascending order
of the keys. -/
theorem eigMap_fold_spec {R : Type} [LinearOrder R] (os m : List (R × (ℕ × ℕ)))
    (hs : m.Pairwise (fun a b => a.1 < b.1)) (hn : ((m ++ os).map Prod.fst).Nodup) :
    (os.foldl (fun m o => eigMapInsert o.1 o.2 m) m).Pairwise (fun a b => a.1 < b.1) ∧
      (os.foldl (fun m o => eigMapInsert o.1 o.2 m) m).Perm (m ++ os) := by
  induction os generalizing m with
  | nil => simpa using hs
  | cons o rest ih =>
    rw [List.foldl_cons]
    have hperm : (m ++ o :: rest).Perm (o :: (m ++ rest)) := List.perm_middle
    have hn2 : ((o :: (m ++ rest)).map Prod.fst).Nodup :=
      (List.Perm.nodup_iff (hperm.map Prod.fst)).mp hn
    rw [List.map_cons, List.nodup_cons] at hn2
    have hk : o.1 ∉ m.map Prod.fst := fun h => hn2.1 (by
      rw [List.map_append]
      exact List.mem_append_left _ h)
    obtain ⟨hs1, hp1⟩ := eigMapInsert_spec o.1 o.2 m hs hk
    have hp1b : (eigMapInsert o.1 o.2 m ++ rest).Perm (o :: (m ++ rest)) :=
      List.Perm.append_right rest hp1
    have hn3 : ((eigMapInsert o.1 o.2 m ++ rest).map Prod.fst).Nodup := by
      rw [List.Perm.nodup_iff (hp1b.map Prod.fst), List.map_cons, List.nodup_cons]
      exact hn2
    obtain ⟨hs4, hp4⟩ := ih (eigMapInsert o.1 o.2 m) hs1 hn3
    exact ⟨hs4, hp4.trans (hp1b.trans hperm.symm)⟩

/-- Membership in the list of the orbitals. -/
theorem mem_orbitals {R : Type} (nL : ℕ) (nP : ℕ → ℕ) (atomEigs : ℕ → ℕ → R)
    (o : R × (ℕ × ℕ)) :
    o ∈ ((List.range nL).flatMap fun l =>
        (List.range (nP l)).map fun p => (atomEigs l p, (l, p)))
      ↔ o.2.1 < nL ∧ o.2.2 < nP o.2.1 ∧ o.1 = atomEigs o.2.1 o.2.2 := by
  obtain ⟨e, l, p⟩ := o
  simp only [List.mem_flatMap, List.mem_range, List.mem_map, Prod.mk.injEq]
  constructor
  · rintro ⟨l0, hl0, p0, hp0, he, hl, hp⟩
    subst hl hp
    exact ⟨hl0, hp0, he.symm⟩
  · rintro ⟨hl, hp, he⟩
    exact ⟨l, hl, p, hp, he.symm, rfl, rfl⟩

/-- The orbitals of the list have pairwise distinct indices `(l, p)`. -/
theorem orbitals_nodup {R : Type} (nL : ℕ) (nP : ℕ → ℕ) (atomEigs : ℕ → ℕ → R) :
    (((List.range nL).flatMap fun l =>
        (List.range (nP l)).map fun p => (atomEigs l p, (l, p))).map Prod.snd).Nodup := by
  rw [List.map_flatMap, List.nodup_flatMap]
  constructor
  · intro l _
    rw [List.map_map]
    exact (List.nodup_range _).map_on (fun x _ y _ h => by simpa using h)
  · apply (List.nodup_range nL).pairwise_of_forall_ne
    intro a _ b _ hab
    intro x hx1 hx2
    simp only [List.map_map, List.mem_map, List.mem_range, Function.comp] at hx1 hx2
    obtain ⟨p, -, rfl⟩ := hx1
    obtain ⟨q, -, hq⟩ := hx2
    exact hab (by simpa using (congrArg Prod.fst hq).symm)

/-- Entry of `atomF` after the assignment `atomF[l][p] = f`. -/
theorem update_occupation {R : Type} (F : ℕ → ℕ → R) (l p : ℕ) (f : R) (l2 p2 : ℕ) :
    Function.update F l (Function.update (F l) p f) l2 p2
      = if l2 = l ∧ p2 = p then f else F l2 p2 := by
  by_cases hl : l2 = l
  · subst hl
    rw [Function.update_same]
    by_cases hp : p2 = p
    · subst hp
      rw [Function.update_same, if_pos ⟨rfl, rfl⟩]
    · rw [Function.update_noteq hp, if_neg (fun h => hp h.2)]
  · rw [Function.update_noteq hl, if_neg (fun h => hl h.1)]

/-- The capacity is not negative. -/
theorem capacity_nonneg {R : Type} [LinearOrderedField R] (l : ℕ) : (0 : R) ≤ capacity l :=
  Nat.cast_nonneg _

/-- The capacity is `2*(2l+1)` when the product fits into 32 bits. -/
theorem capacity_eq {R : Type} [LinearOrderedField R] (l : ℕ) (hl : l < 1073741824) :
    (capacity l : R) = 2 * (2 * (l : R) + 1) := by
  unfold capacity
  rw [Nat.mod_eq_of_lt (by omega)]
  push_cast
  ring

/-- The loop over the entries of `eigMap`, for entries of pairwise distinct indices, started
with `Favail = A >= 0`: the electrons left over, the bounds of the occupations, the entries
left alone, the order of filling, and what a positive remainder means. -/
theorem fill_spec {R : Type} [LinearOrderedField R] (S : List (R × (ℕ × ℕ)))
    (hn : (S.map Prod.snd).Nodup) (F : ℕ → ℕ → R) (A : R) (hA : 0 ≤ A) :
    0 ≤ (S.foldl fillStep (F, A)).2 ∧
      (S.foldl fillStep (F, A)).2
        = A - (S.map fun e => (S.foldl fillStep (F, A)).1 e.2.1 e.2.2).sum ∧
      (∀ e, e ∈ S → 0 ≤ (S.foldl fillStep (F, A)).1 e.2.1 e.2.2 ∧
        (S.foldl fillStep (F, A)).1 e.2.1 e.2.2 ≤ capacity e.2.1) ∧
      (∀ l p, (l, p) ∉ S.map Prod.snd → (S.foldl fillStep (F, A)).1 l p = F l p) ∧
      S.Pairwise (fun e e2 => (S.foldl fillStep (F, A)).1 e2.2.1 e2.2.2 ≠ 0 →
        (S.foldl fillStep (F, A)).1 e.2.1 e.2.2 = capacity e.2.1) ∧
      (0 < (S.foldl fillStep (F, A)).2 →
        ∀ e, e ∈ S → (S.foldl fillStep (F, A)).1 e.2.1 e.2.2 = capacity e.2.1) := by
  induction S using List.reverseRecOn with
  | nil => simp [hA]
  | append_singleton S0 x ih =>
    rw [List.map_append, List.nodup_append] at hn
    obtain ⟨hn0, -, hdis⟩ := hn
    obtain ⟨h1, h2, h3, h4, h5, h6⟩ := ih hn0
    have hx : x.2 ∉ S0.map Prod.snd := fun h => hdis h (by simp)
    rw [List.foldl_append, List.foldl_cons, List.foldl_nil]
    set st := S0.foldl fillStep (F, A) with hst
    have hcap : (0 : R) ≤ capacity x.2.1 := capacity_nonneg _
    have hnew : ∀ l p, (fillStep st x).1 l p
        = if l = x.2.1 ∧ p = x.2.2 then min st.2 (capacity x.2.1) else st.1 l p := by
      intro l p
      unfold fillStep
      exact update_occupation _ _ _ _ _ _
    have hsnd : (fillStep st x).2 = st.2 - min st.2 (capacity x.2.1) := rfl
    have hold : ∀ e, e ∈ S0 → (fillStep st x).1 e.2.1 e.2.2 = st.1 e.2.1 e.2.2 := by
      intro e he
      rw [hnew, if_neg]
      rintro ⟨ha, hb⟩
      exact hx (List.mem_map.mpr ⟨e, he, Prod.ext ha hb⟩)
    have hself : (fillStep st x).1 x.2.1 x.2.2 = min st.2 (capacity x.2.1) := by
      rw [hnew, if_pos ⟨rfl, rfl⟩]
    have hmap : (S0.map fun e => (fillStep st x).1 e.2.1 e.2.2)
        = S0.map fun e => st.1 e.2.1 e.2.2 :=
      List.map_congr_left (fun e he => hold e he)
    refine ⟨?_, ?_, ?_, ?_, ?_, ?_⟩
    · rw [hsnd]
      exact sub_nonneg.mpr (min_le_left _ _)
    · rw [hsnd, List.map_append, List.sum_append, hmap, List.map_cons, List.map_nil,
        List.sum_cons, List.sum_nil, hself, add_zero]
      rw [h2]
      ring
    · intro e he
      rcases List.mem_append.mp he with h | h
      · rw [hold e h]
        exact h3 e h
      · rw [List.mem_singleton] at h
        subst h
        rw [hself]
        exact ⟨le_min h1 hcap, min_le_right _ _⟩
    · intro l p hlp
      rw [hnew, if_neg]
      · exact h4 l p (fun h => hlp (by
          rw [List.map_append]
          exact List.mem_append_left _ h))
      · rintro ⟨ha, hb⟩
        exact hlp (by
          rw [List.map_append]
          exact List.mem_append_right _ (by simp [ha, hb]))
    · rw [List.pairwise_append]
      refine ⟨?_, List.pairwise_singleton _ _, ?_⟩
      · have h5b : S0.Pairwise (fun e e2 => e ∈ S0 ∧ e2 ∈ S0 ∧
            (st.1 e2.2.1 e2.2.2 ≠ 0 → st.1 e.2.1 e.2.2 = capacity e.2.1)) := by
          rw [List.pairwise_iff_forall_sublist] at h5 ⊢
          intro a b hab
          exact ⟨hab.subset (by simp), hab.subset (by simp), h5 hab⟩
        refine h5b.imp ?_
        rintro a b ⟨ha, hb, hab⟩
        rw [hold a ha, hold b hb]
        exact hab
      · intro a ha b hb
        rw [List.mem_singleton] at hb
        subst hb
        rw [hself, hold a ha]
        intro hne
        have hpos : 0 < st.2 := by
          rcases lt_or_eq_of_le h1 with h | h
          · exact h
          · exfalso
            apply hne
            rw [← h]
            exact min_eq_left hcap
        exact h6 hpos a ha
    · intro hpos e he
      rw [hsnd] at hpos
      have hlt : min st.2 (capacity x.2.1) < st.2 := sub_pos.mp hpos
      have hcapx : capacity x.2.1 < st.2 := by
        rcases min_choice st.2 (capacity x.2.1) with h | h
        · rw [h] at hlt
          exact absurd hlt (lt_irrefl _)
        · rw [h] at hlt
          exact hlt
      rcases List.mem_append.mp he with h | h
      · rw [hold e h]
        exact h6 (lt_of_le_of_lt hcap hcapx) e h
      · rw [List.mem_singleton] at h
        subst h
        rw [hself]
        exact min_eq_right hcapx.le

/-- The occupations of the entries add up to `min(A, total capacity)`. -/
theorem fill_sum_min {R : Type} [LinearOrderedField R] (S : List (R × (ℕ × ℕ)))
    (hn : (S.map Prod.snd).Nodup) (F : ℕ → ℕ → R) (A : R) (hA : 0 ≤ A) :
    (S.map fun e => (S.foldl fillStep (F, A)).1 e.2.1 e.2.2).sum
      = min A (S.map fun e => (capacity e.2.1 : R)).sum := by
  obtain ⟨h1, h2, h3, -, -, h6⟩ := fill_spec S hn F A hA
  rcases lt_or_eq_of_le h1 with hpos | hzero
  · have hall : (S.map fun e => (S.foldl fillStep (F, A)).1 e.2.1 e.2.2)
        = S.map fun e => (capacity e.2.1 : R) :=
      List.map_congr_left (fun e he => h6 hpos e he)
    rw [hall] at h2 ⊢
    rw [min_eq_right]
    linarith
  · have hle : (S.map fun e => (S.foldl fillStep (F, A)).1 e.2.1 e.2.2).sum
        ≤ (S.map fun e => (capacity e.2.1 : R)).sum :=
      List.sum_le_sum (fun e he => (h3 e he).2)
    have hA2 : (S.map fun e => (S.foldl fillStep (F, A)).1 e.2.1 e.2.2).sum = A := by
      linarith
    rw [hA2] at hle ⊢
    exact (min_eq_left hle).symm

/-- A sum over the list of the orbitals is a double sum over `l` and `p`. -/
theorem sum_orbitals {R : Type} [LinearOrderedField R] (nL : ℕ) (nP : ℕ → ℕ)
    (atomEigs : ℕ → ℕ → R) (g : ℕ → ℕ → R) :
    (((List.range nL).flatMap fun l =>
        (List.range (nP l)).map fun p => (atomEigs l p, (l, p))).map
          fun o => g o.2.1 o.2.2).sum
      = ∑ l in Finset.range nL, ∑ p in Finset.range (nP l), g l p := by
  induction nL with
  | zero => simp
  | succ n ih =>
    rw [List.range_succ, List.flatMap_append, List.map_append, List.sum_append, ih,
      Finset.sum_range_succ]
    congr 1
    simp only [List.flatMap_cons, List.flatMap_nil, List.append_nil, List.map_map]
    rfl

/-- In a list ascending in the keys, a relation that holds from each entry to the later ones
holds from each entry to those of larger key. -/
theorem pairwise_by_key {R : Type} [LinearOrder R] (T : R × (ℕ × ℕ) → R × (ℕ × ℕ) → Prop)
    (S : List (R × (ℕ × ℕ))) (hs : S.Pairwise (fun a b => a.1 < b.1)) (hT : S.Pairwise T)
    (a b : R × (ℕ × ℕ)) (ha : a ∈ S) (hb : b ∈ S) (hab : a.1 < b.1) : T a b := by
  induction S with
  | nil => simp at ha
  | cons x rest ih =>
    rw [List.pairwise_cons] at hs hT
    rcases List.mem_cons.mp ha with h1 | h1
    · rcases List.mem_cons.mp hb with h2 | h2
      · rw [h1, h2] at hab
        exact absurd hab (lt_irrefl _)
      · rw [h1]
        exact hT.1 b h2
    · rcases List.mem_cons.mp hb with h2 | h2
      · have := hs.1 a h1
        rw [h2] at hab
        exact absurd (lt_trans hab this) (lt_irrefl _)
      · exact ih hs.2 hT.2 h1 h2

/-- With pairwise distinct eigenvalues `eigMap` holds every orbital once, in ascending order
of the eigenvalues. -/
theorem buildEigMap_spec {R : Type} [LinearOrder R] (nL : ℕ) (nP : ℕ → ℕ)
    (atomEigs : ℕ → ℕ → R)
    (hinj : ∀ l p l2 p2, l < nL → p < nP l → l2 < nL → p2 < nP l2 →
      atomEigs l p = atomEigs l2 p2 → l = l2 ∧ p = p2) :
    (buildEigMap nL nP atomEigs).Pairwise (fun a b => a.1 < b.1) ∧
      (buildEigMap nL nP atomEigs).Perm ((List.range nL).flatMap fun l =>
        (List.range (nP l)).map fun p => (atomEigs l p, (l, p))) := by
  rw [buildEigMap_eq]
  have hnd : (((List.range nL).flatMap fun l =>
      (List.range (nP l)).map fun p => (atomEigs l p, (l, p))).map Prod.fst).Nodup := by
    have hsnd := orbitals_nodup nL nP atomEigs
    refine List.Nodup.map_on ?_ (List.Nodup.of_map Prod.snd hsnd)
    intro x hx y hy hxy
    rw [mem_orbitals] at hx hy
    obtain ⟨hx1, hx2, hx3⟩ := hx
    obtain ⟨hy1, hy2, hy3⟩ := hy
    have := hinj _ _ _ _ hx1 hx2 hy1 hy2 (by rw [← hx3, ← hy3, hxy])
    exact Prod.ext hxy (Prod.ext this.1 this.2)
  have := eigMap_fold_spec _ ([] : List (R × (ℕ × ℕ))) List.Pairwise.nil
    (by simpa using hnd)
  simpa using this

end SpeciesInfo

/-! ## Claim on the occupations of the atomic orbitals -/

namespace SpeciesInfo

/-- C30: in `SpeciesInfo::setupAtomFillings`, for every `Z >= 0` and every set of orbitals
with pairwise distinct eigenvalues (fewer than `2^30` values of `l`, so that `2*(2*l+1)` fits
its `unsigned`), the occupations satisfy `0 <= atomF[l][p] <= 2*(2l+1)`, their sum equals
`min(Z, sum of the capacities 2*(2l+1))`, and an orbital has non-zero occupation only if
every orbital with a lower eigenvalue is filled to capacity. -/
theorem atom_fillings_aufbau {R : Type} [LinearOrderedField R] (Z : R) (nL : ℕ) (nP : ℕ → ℕ)
    (atomEigs : ℕ → ℕ → R) (atomF0 : ℕ → ℕ → R) (hZ : 0 ≤ Z) (hL : nL ≤ 1073741824)
    (hinj : ∀ l p l2 p2, l < nL → p < nP l → l2 < nL → p2 < nP l2 →
      atomEigs l p = atomEigs l2 p2 → l = l2 ∧ p = p2) :
    (∀ l p, l < nL → p < nP l →
        0 ≤ (setupAtomFillings Z nL nP atomEigs atomF0).1 l p ∧
        (setupAtomFillings Z nL nP atomEigs atomF0).1 l p ≤ 2 * (2 * (l : R) + 1)) ∧
      (∑ l in Finset.range nL, ∑ p in Finset.range (nP l),
          (setupAtomFillings Z nL nP atomEigs atomF0).1 l p
        = min Z (∑ l in Finset.range nL, ∑ _p in Finset.range (nP l),
            2 * (2 * (l : R) + 1))) ∧
      (∀ l p l2 p2, l < nL → p < nP l → l2 < nL → p2 < nP l2 →
        (setupAtomFillings Z nL nP atomEigs atomF0).1 l p ≠ 0 →
        atomEigs l2 p2 < atomEigs l p →
        (setupAtomFillings Z nL nP atomEigs atomF0).1 l2 p2 = 2 * (2 * (l2 : R) + 1)) := by
  obtain ⟨hsorted, hperm⟩ := buildEigMap_spec nL nP atomEigs hinj
  have hnS : ((buildEigMap nL nP atomEigs).map Prod.snd).Nodup :=
    (List.Perm.nodup_iff (hperm.map Prod.snd)).mpr (orbitals_nodup nL nP atomEigs)
  obtain ⟨-, -, h3, -, h5, -⟩ := fill_spec (buildEigMap nL nP atomEigs) hnS atomF0 Z hZ
  have hsum := fill_sum_min (buildEigMap nL nP atomEigs) hnS atomF0 Z hZ
  have hmem : ∀ l p, l < nL → p < nP l →
      (atomEigs l p, (l, p)) ∈ buildEigMap nL nP atomEigs := by
    intro l p hl hp
    rw [hperm.mem_iff, mem_orbitals]
    exact ⟨hl, hp, rfl⟩
  unfold setupAtomFillings
  refine ⟨?_, ?_, ?_⟩
  · intro l p hl hp
    have := h3 _ (hmem l p hl hp)
    rw [capacity_eq l (lt_of_lt_of_le hl hL)] at this
    exact this
  · rw [← sum_orbitals nL nP atomEigs
        (fun l p => ((buildEigMap nL nP atomEigs).foldl fillStep (atomF0, Z)).1 l p),
      ← (hperm.map _).sum_eq, hsum, (hperm.map _).sum_eq,
      sum_orbitals nL nP atomEigs (fun l _ => (capacity l : R))]
    congr 1
    apply Finset.sum_congr rfl
    intro l hl
    rw [Finset.mem_range] at hl
    apply Finset.sum_congr rfl
    intro p _
    exact capacity_eq l (lt_of_lt_of_le hl hL)
  · intro l p l2 p2 hl hp hl2 hp2 hne hlt
    have := pairwise_by_key _ _ hsorted h5 (atomEigs l2 p2, (l2, p2)) (atomEigs l p, (l, p))
      (hmem l2 p2 hl2 hp2) (hmem l p hl hp) hlt hne
    rw [capacity_eq l2 (lt_of_lt_of_le hl2 hL)] at this
    exact this

/-- C30 (witness): `Z = 3`, an s orbital of eigenvalue `-1` and a p orbital of eigenvalue
`-1/2`. -/
theorem atom_fillings_aufbau_witness :
    ((0 : ℚ) ≤ 3 ∧ 2 ≤ 1073741824 ∧
      ∀ l p l2 p2, l < 2 → p < 1 → l2 < 2 → p2 < 1 →
        exEigs l p = exEigs l2 p2 → l = l2 ∧ p = p2) ∧
    ((∀ l p, l < 2 → p < 1 →
        0 ≤ (setupAtomFillings (3 : ℚ) 2 (fun _ => 1) exEigs (fun _ _ => 0)).1 l p ∧
        (setupAtomFillings (3 : ℚ) 2 (fun _ => 1) exEigs (fun _ _ => 0)).1 l p
          ≤ 2 * (2 * (l : ℚ) + 1)) ∧
      (∑ l in Finset.range 2, ∑ p in Finset.range 1,
          (setupAtomFillings (3 : ℚ) 2 (fun _ => 1) exEigs (fun _ _ => 0)).1 l p
        = min 3 (∑ l in Finset.range 2, ∑ _p in Finset.range 1, 2 * (2 * (l : ℚ) + 1))) ∧
      (∀ l p l2 p2, l < 2 → p < 1 → l2 < 2 → p2 < 1 →
        (setupAtomFillings (3 : ℚ) 2 (fun _ => 1) exEigs (fun _ _ => 0)).1 l p ≠ 0 →
        exEigs l2 p2 < exEigs l p →
        (setupAtomFillings (3 : ℚ) 2 (fun _ => 1) exEigs (fun _ _ => 0)).1 l2 p2
          = 2 * (2 * (l2 : ℚ) + 1))) :=
  have hinj : ∀ l p l2 p2, l < 2 → p < 1 → l2 < 2 → p2 < 1 →
      exEigs l p = exEigs l2 p2 → l = l2 ∧ p = p2 := by
    intro l p l2 p2 hl hp hl2 hp2 h
    interval_cases l <;> interval_cases l2 <;> interval_cases p <;> interval_cases p2 <;>
      simp [exEigs] at h ⊢ <;> norm_num at h
  ⟨⟨by norm_num, by norm_num, hinj⟩,
    atom_fillings_aufbau (3 : ℚ) 2 (fun _ => 1) exEigs (fun _ _ => 0) (by norm_num)
      (by norm_num) hinj⟩

end SpeciesInfo

/-! ## Sum rule and realness of the assembled blocks -/

namespace Phonon

section AssemblyClaims

variable {R K : Type} [Field R] [StarRing R] [TrivialStar R]
  [Field K] [StarRing K] [Algebra R K] [StarModule R K]

/-- The correction leaves every entry outside the on-diagonal 3x3 self-blocks as it was. -/
theorem correction_off_diagonal (P : ℤ) (mass : ℕ → R) (modes : List Mode)
    (cellMap : List (vector3 ℤ × R)) (B : ℕ → matrix K) (iCell i j : ℕ)
    (h : ¬ (i / 3 = j / 3 ∧ i / 3 < modes.length / 3)) :
    enforceTranslationalInvariance P mass modes cellMap B iCell i j = B iCell i j := by
  unfold enforceTranslationalInvariance
  by_cases hc : iCell < cellMap.length
  · rw [if_pos hc, Matrix.sub_apply, Matrix.smul_apply, omegaSqCorrection_entry, if_neg h,
      smul_zero, sub_zero]
  · rw [if_neg hc]

/-- C28: given a cell map whose weights sum to `prod(sup)` (non-zero) and non-zero masses,
after the translational-invariance correction of `Phonon::dump` the sum over the atoms `a` of
`m_a` times the sum over the cells of the on-diagonal 3x3 self-block of atom `a` is the zero
matrix, for any number of atoms; and the correction changes only the on-diagonal 3x3
self-blocks: every entry `(i, j)` whose modes belong to two different atoms
(`i/3 != j/3`) is unchanged. -/
theorem weighted_selfBlockSum_zero [CharZero R] (P : ℤ) (mass : ℕ → R) (modes : List Mode)
    (cellMap : List (vector3 ℤ × R)) (B : ℕ → matrix K)
    (hw : (cellMap.map Prod.snd).sum = (P : R)) (hP : P ≠ 0)
    (hm : ∀ a, a < modes.length / 3 → speciesMass mass modes a ≠ 0) :
    (∑ a in Finset.range (modes.length / 3), speciesMass mass modes a •
        omegaSqSum cellMap.length (fun iCell => matrix_slice
          (enforceTranslationalInvariance P mass modes cellMap B iCell)
          (3 * a) (3 * (a + 1)) (3 * a) (3 * (a + 1))) = 0) ∧
      (∀ iCell i j, i / 3 ≠ j / 3 →
        enforceTranslationalInvariance P mass modes cellMap B iCell i j = B iCell i j) := by
  refine ⟨?_, fun iCell i j h =>
    correction_off_diagonal P mass modes cellMap B iCell i j (fun hc => h hc.1)⟩
  have hPR : (P : R) ≠ 0 := Int.cast_ne_zero.2 hP
  rcases Nat.eq_zero_or_pos (modes.length / 3) with hn0 | hnpos
  · rw [hn0]
    simp
  have hnA : ((modes.length / 3 : ℕ) : R) ≠ 0 := Nat.cast_ne_zero.2 (by omega)
  have hterm : ∀ a ∈ Finset.range (modes.length / 3), speciesMass mass modes a •
      omegaSqSum cellMap.length (fun iCell => matrix_slice
        (enforceTranslationalInvariance P mass modes cellMap B iCell)
        (3 * a) (3 * (a + 1)) (3 * a) (3 * (a + 1)))
      = speciesMass mass modes a • matrix_slice (omegaSqSum cellMap.length B)
          (3 * a) (3 * (a + 1)) (3 * a) (3 * (a + 1))
        - (P : R) • Fmean P mass modes (omegaSqSum cellMap.length B) := by
    intro a ha
    rw [Finset.mem_range] at ha
    rw [selfBlockSum_after P mass modes cellMap B a ha, hw, smul_sub, smul_smul, smul_smul]
    congr 2
    have := hm a ha
    field_simp
  rw [Finset.sum_congr rfl hterm, Finset.sum_sub_distrib, Finset.sum_const, Finset.card_range,
    sub_eq_zero]
  rw [Fmean_eq, Finset.smul_sum, Finset.smul_sum]
  apply Finset.sum_congr rfl
  intro b _
  rw [smul_comm (speciesMass mass modes b), smul_smul, ← Nat.cast_smul_eq_nsmul R, smul_smul,
    smul_comm]
  congr 1
  have hcast : ((((modes.length / 3 : ℕ) : ℤ) * P : ℤ) : R)
      = ((modes.length / 3 : ℕ) : R) * (P : R) := by
    rw [Int.cast_mul, Int.cast_natCast]
  rw [hcast]
  have : ((modes.length / 3 : ℕ) : R) * ((P : R) * (1 / (((modes.length / 3 : ℕ) : R) * (P : R))))
      = 1 := by
    field_simp
  rw [this, one_smul]

/-- C28 (witness): one atom of mass 1, `sup = (2,1,1)`, weights 1/2, 1, 1/2. -/
theorem weighted_selfBlockSum_zero_witness :
    ((exCellMap.map Prod.snd).sum = (((2 : ℤ)) : ℚ) ∧ (2 : ℤ) ≠ 0 ∧
      ∀ a, a < exModes1.length / 3 → speciesMass (fun _ => (1 : ℚ)) exModes1 a ≠ 0) ∧
    ((∑ a in Finset.range (exModes1.length / 3), speciesMass (fun _ => (1 : ℚ)) exModes1 a •
        omegaSqSum exCellMap.length (fun iCell => matrix_slice
          (enforceTranslationalInvariance 2 (fun _ => (1 : ℚ)) exModes1 exCellMap exBlocks
            iCell)
          (3 * a) (3 * (a + 1)) (3 * a) (3 * (a + 1))) = 0) ∧
      (∀ iCell i j, i / 3 ≠ j / 3 →
        enforceTranslationalInvariance 2 (fun _ => (1 : ℚ)) exModes1 exCellMap exBlocks
          iCell i j = exBlocks iCell i j)) :=
  ⟨⟨by norm_num [exCellMap], by decide, fun a _ => by simp [speciesMass]⟩,
    weighted_selfBlockSum_zero 2 (fun _ => (1 : ℚ)) exModes1 exCellMap exBlocks
      (by norm_num [exCellMap]) (by decide) (fun a _ => by simp [speciesMass])⟩

/-! ### Real entries -/

theorem isReal_zero : IsRealMatrix R (0 : matrix K) :=
  fun _ _ => ⟨0, by simp⟩

theorem isReal_add (A B : matrix K) (hA : IsRealMatrix R A) (hB : IsRealMatrix R B) :
    IsRealMatrix R (A + B) := by
  intro i j
  obtain ⟨a, ha⟩ := hA i j
  obtain ⟨b, hb⟩ := hB i j
  exact ⟨a + b, by rw [Matrix.add_apply, ha, hb, RingHom.map_add]⟩

theorem isReal_sub (A B : matrix K) (hA : IsRealMatrix R A) (hB : IsRealMatrix R B) :
    IsRealMatrix R (A - B) := by
  intro i j
  obtain ⟨a, ha⟩ := hA i j
  obtain ⟨b, hb⟩ := hB i j
  exact ⟨a - b, by rw [Matrix.sub_apply, ha, hb, RingHom.map_sub]⟩

theorem isReal_smul (c : R) (A : matrix K) (hA : IsRealMatrix R A) :
    IsRealMatrix R (c • A) := by
  intro i j
  obtain ⟨a, ha⟩ := hA i j
  exact ⟨c * a, by rw [Matrix.smul_apply, ha, Algebra.smul_def, RingHom.map_mul]⟩

theorem isReal_dagger (A : matrix K) (hA : IsRealMatrix R A) : IsRealMatrix R (dagger A) := by
  intro i j
  obtain ⟨a, ha⟩ := hA j i
  refine ⟨a, ?_⟩
  unfold dagger
  rw [conjTranspose_apply, ha, ← algebraMap_star_comm, star_trivial]

theorem isReal_slice (A : matrix K) (hA : IsRealMatrix R A) (r0 r1 c0 c1 : ℕ) :
    IsRealMatrix R (matrix_slice A r0 r1 c0 c1) := by
  intro i j
  unfold matrix_slice
  split_ifs
  · exact hA _ _
  · exact ⟨0, by simp⟩

theorem isReal_set (A B : matrix K) (hA : IsRealMatrix R A) (hB : IsRealMatrix R B)
    (r0 r1 c0 c1 : ℕ) : IsRealMatrix R (matrix_set A r0 r1 c0 c1 B) := by
  intro i j
  rw [matrix_set_apply]
  split_ifs
  · exact hB _ _
  · exact hA _ _

/-- A property kept by every step of a loop holds after the loop. -/
theorem foldl_invariant {S X : Type} (Q : S → Prop) (step : S → X → S)
    (h : ∀ s x, Q s → Q (step s x)) (l : List X) (s : S) (hs : Q s) : Q (l.foldl step s) := by
  induction l generalizing s with
  | nil => exact hs
  | cons x rest ih => exact ih _ (h s x hs)

/-- The blocks after the cell mapping are real. -/
theorem remapToCells_real (sup : vector3 ℤ) (nAtpos : ℕ → ℕ) (modes : List Mode)
    (dgrad : ℕ → ℕ → ℤ → vector3 R) (cellMap : List (vector3 ℤ × R)) (iCell : ℕ) :
    IsRealMatrix R (remapToCells sup nAtpos modes dgrad cellMap iCell : matrix K) := by
  intro i j
  unfold remapToCells
  split_ifs
  · exact ⟨_, rfl⟩
  · exact ⟨0, by simp⟩

/-- The Hermitization loop keeps the blocks real. -/
theorem hermitizeLoop_real (cellMap : List (vector3 ℤ × R)) (M : ℕ → matrix K)
    (hM : ∀ iCell, IsRealMatrix R (M iCell)) (iCell : ℕ) :
    IsRealMatrix R ((hermitizeLoop cellMap M).1 iCell) := by
  have hpair : ∀ (i1 : ℕ) (st : (ℕ → matrix K) × ℕ) (i2 : ℕ),
      (∀ c, IsRealMatrix R (st.1 c)) →
      ∀ c, IsRealMatrix R ((hermitizePair cellMap i1 st i2).1 c) := by
    intro i1 st i2 hst c
    by_cases hcond : length_squared (cellKey cellMap i1 + cellKey cellMap i2) = 0 ∧ i1 ≤ i2
    · have hMr : IsRealMatrix R ((1 / 2 : R) • (st.1 i1 + dagger (st.1 i2))) :=
        isReal_smul _ _ (isReal_add _ _ (hst i1) (isReal_dagger _ (hst i2)))
      have hval : (hermitizePair cellMap i1 st i2).1
          = Function.update (Function.update st.1 i1
              ((1 / 2 : R) • (st.1 i1 + dagger (st.1 i2)))) i2
              (dagger ((1 / 2 : R) • (st.1 i1 + dagger (st.1 i2)))) := by
        unfold hermitizePair
        simp only []
        rw [if_pos hcond]
      rw [hval]
      by_cases h2 : c = i2
      · subst h2
        rw [Function.update_same]
        exact isReal_dagger _ hMr
      · rw [Function.update_noteq h2]
        by_cases h1 : c = i1
        · subst h1
          rw [Function.update_same]
          exact hMr
        · rw [Function.update_noteq h1]
          exact hst c
    · have hval : hermitizePair cellMap i1 st i2 = st := by
        unfold hermitizePair
        simp only []
        rw [if_neg hcond]
      rw [hval]
      exact hst c
  unfold hermitizeLoop
  refine foldl_invariant (fun st : (ℕ → matrix K) × ℕ => ∀ c, IsRealMatrix R (st.1 c)) _ ?_ _ _
    hM iCell
  intro st i1 hst
  exact foldl_invariant (fun st : (ℕ → matrix K) × ℕ => ∀ c, IsRealMatrix R (st.1 c)) _
    (fun s x hs => hpair i1 s x hs) _ st hst

/-- The sum-rule correction keeps the blocks real. -/
theorem enforceTranslationalInvariance_real (P : ℤ) (mass : ℕ → R) (modes : List Mode)
    (cellMap : List (vector3 ℤ × R)) (B : ℕ → matrix K)
    (hB : ∀ iCell, IsRealMatrix R (B iCell)) (iCell : ℕ) :
    IsRealMatrix R (enforceTranslationalInvariance P mass modes cellMap B iCell) := by
  have hsum : IsRealMatrix R (omegaSqSum cellMap.length B) := by
    unfold omegaSqSum
    exact foldl_invariant (fun A : matrix K => IsRealMatrix R A) _
      (fun A c hA => isReal_add _ _ hA (hB c)) _ _ isReal_zero
  have hF : IsRealMatrix R (Fmean P mass modes (omegaSqSum cellMap.length B)) := by
    unfold Fmean
    exact foldl_invariant (fun A : matrix K => IsRealMatrix R A) _
      (fun A a hA => isReal_add _ _ hA
        (isReal_smul _ _ (isReal_smul _ _ (isReal_slice _ hsum _ _ _ _)))) _ _ isReal_zero
  have hcorr : IsRealMatrix R (omegaSqCorrection mass modes
      (Fmean P mass modes (omegaSqSum cellMap.length B))) := by
    unfold omegaSqCorrection
    exact foldl_invariant (fun A : matrix K => IsRealMatrix R A) _
      (fun A a hA => isReal_set _ _ hA (isReal_smul _ _ hF) _ _ _ _) _ _ isReal_zero
  unfold enforceTranslationalInvariance
  split_ifs
  · exact isReal_sub _ _ (hB iCell) (isReal_smul _ _ hcorr)
  · exact hB iCell

/-- C22: with real force derivatives, cell weights and masses, every entry of every block
`omegaSq[cell]` assembled by `Phonon::dump` (cell mapping, Hermitization and sum-rule
correction) is real: it is the image of a real number and equals its own conjugate, so its
imaginary part is zero and writing only the real parts loses nothing. -/
theorem assembled_blocks_real (sup : vector3 ℤ) (nAtpos : ℕ → ℕ) (mass : ℕ → R)
    (modes : List Mode) (dgrad : ℕ → ℕ → ℤ → vector3 R) (cellMap : List (vector3 ℤ × R))
    (omegaSq : ℕ → matrix K)
    (h : assembleOmegaSq sup nAtpos mass modes dgrad cellMap = Except.ok omegaSq) :
    ∀ iCell i j, (∃ r : R, omegaSq iCell i j = algebraMap R K r) ∧
      star (omegaSq iCell i j) = omegaSq iCell i j := by
  have hreal : ∀ iCell, IsRealMatrix R (omegaSq iCell) := by
    unfold assembleOmegaSq enforceHermiticity at h
    simp only [] at h
    split_ifs at h with hc
    · simp only [Except.ok.injEq] at h
      rw [← h]
      intro iCell
      exact enforceTranslationalInvariance_real _ mass modes cellMap _
        (hermitizeLoop_real cellMap _ (remapToCells_real sup nAtpos modes dgrad cellMap)) iCell
  intro iCell i j
  obtain ⟨r, hr⟩ := hreal iCell i j
  refine ⟨⟨r, hr⟩, ?_⟩
  rw [hr, ← algebraMap_star_comm, star_trivial]

/-- C22 (witness): one atom, `sup = (2,1,1)`, the cell map with weights 1/2, 1, 1/2. -/
theorem assembled_blocks_real_witness :
    ∃ omegaSq : ℕ → matrix ℚ,
      assembleOmegaSq exSup (fun _ => 1) (fun _ => (1 : ℚ)) exModes1 exDgrad1 exCellMap
        = Except.ok omegaSq ∧
      ∀ iCell i j, (∃ r : ℚ, omegaSq iCell i j = algebraMap ℚ ℚ r) ∧
        star (omegaSq iCell i j) = omegaSq iCell i j :=
  have h : assembleOmegaSq exSup (fun _ => 1) (fun _ => (1 : ℚ)) exModes1 exDgrad1 exCellMap
      = Except.ok (enforceTranslationalInvariance (exSup 0 * exSup 1 * exSup 2)
          (fun _ => (1 : ℚ)) exModes1 exCellMap
          (hermitizeLoop exCellMap
            (remapToCells exSup (fun _ => 1) exModes1 exDgrad1 exCellMap :
              ℕ → matrix ℚ)).1) := by
    unfold assembleOmegaSq
    rw [enforceHermiticity_of_closed exCellMap (by decide) _ (by decide)]
  ⟨_, h, assembled_blocks_real exSup (fun _ => 1) (fun _ => (1 : ℚ)) exModes1
    exDgrad1 exCellMap _ h⟩

end AssemblyClaims

end Phonon

/-! ## The lookup table of the supercell plane waves -/

namespace Phonon

/-- Two digits of a mixed-radix number: the number stays below the product of the radices. -/
theorem int_digits_range (x y m n : ℤ) (hx : 0 ≤ x ∧ x < m) (hy : 0 ≤ y ∧ y < n) :
    0 ≤ x * n + y ∧ x * n + y < m * n := by
  have hn : 0 ≤ n := le_trans hy.1 hy.2.le
  constructor
  · have := mul_nonneg hx.1 hn
    linarith
  · have h1 : (x + 1) * n ≤ m * n := mul_le_mul_of_nonneg_right (by linarith) hn
    nlinarith

/-- The slot of a vector of the box, in digits of the shifted coordinates. -/
theorem slotOf_eq (iGbox v : vector3 ℤ) :
    slotOf iGbox v
      = ((v 0 + iGbox 0) * (2 * iGbox 1 + 1) + (v 1 + iGbox 1)) * (2 * iGbox 2 + 1)
        + (v 2 + iGbox 2) := by
  simp only [slotOf, dot, pitchOf, Pi.add_apply, Matrix.cons_val_zero, Matrix.cons_val_one,
    Matrix.head_cons, Matrix.cons_val_two, Matrix.tail_cons]
  ring

/-- The slots of the vectors of the box lie in the table. -/
theorem slotOf_range (iGbox v : vector3 ℤ) (hv : inBox iGbox v) :
    0 ≤ slotOf iGbox v ∧
      slotOf iGbox v < (2 * iGbox 0 + 1) * (2 * iGbox 1 + 1) * (2 * iGbox 2 + 1) := by
  have h0 := hv 0
  have h1 := hv 1
  have h2 := hv 2
  rw [slotOf_eq]
  have ha := int_digits_range (v 0 + iGbox 0) (v 1 + iGbox 1) (2 * iGbox 0 + 1)
    (2 * iGbox 1 + 1) ⟨by omega, by omega⟩ ⟨by omega, by omega⟩
  exact int_digits_range _ (v 2 + iGbox 2) _ (2 * iGbox 2 + 1) ha ⟨by omega, by omega⟩

/-- Every slot of the table is the slot of a vector of the box. -/
theorem slotOf_surj (iGbox : vector3 ℤ) (hb : ∀ j, 0 ≤ iGbox j) (t : ℤ) (ht0 : 0 ≤ t)
    (ht : t < (2 * iGbox 0 + 1) * (2 * iGbox 1 + 1) * (2 * iGbox 2 + 1)) :
    ∃ v, inBox iGbox v ∧ slotOf iGbox v = t := by
  have hb0 := hb 0
  have hb1 := hb 1
  have hb2 := hb 2
  have hn1 : 0 < 2 * iGbox 1 + 1 := by omega
  have hn2 : 0 < 2 * iGbox 2 + 1 := by omega
  have hq0 : 0 ≤ t / (2 * iGbox 2 + 1) := Int.ediv_nonneg ht0 hn2.le
  have hq : t / (2 * iGbox 2 + 1) < (2 * iGbox 0 + 1) * (2 * iGbox 1 + 1) :=
    Int.ediv_lt_of_lt_mul hn2 ht
  have hx0 : 0 ≤ t / (2 * iGbox 2 + 1) / (2 * iGbox 1 + 1) := Int.ediv_nonneg hq0 hn1.le
  have hx0' : t / (2 * iGbox 2 + 1) / (2 * iGbox 1 + 1) < 2 * iGbox 0 + 1 :=
    Int.ediv_lt_of_lt_mul hn1 hq
  have hx1 := Int.emod_nonneg (t / (2 * iGbox 2 + 1)) (ne_of_gt hn1)
  have hx1' := Int.emod_lt_of_pos (t / (2 * iGbox 2 + 1)) hn1
  have hx2 := Int.emod_nonneg t (ne_of_gt hn2)
  have hx2' := Int.emod_lt_of_pos t hn2
  refine ⟨![t / (2 * iGbox 2 + 1) / (2 * iGbox 1 + 1) - iGbox 0,
    t / (2 * iGbox 2 + 1) % (2 * iGbox 1 + 1) - iGbox 1,
    t % (2 * iGbox 2 + 1) - iGbox 2], ?_, ?_⟩
  · intro j
    fin_cases j
    · simp only [Fin.zero_eta, Matrix.cons_val_zero]
      omega
    · simp only [Fin.mk_one, Matrix.cons_val_one, Matrix.head_cons]
      omega
    · simp only [Fin.reduceFinMk, Matrix.cons_val_two, Matrix.tail_cons, Matrix.head_cons]
      omega
  · rw [slotOf_eq]
    simp only [Matrix.cons_val_zero, Matrix.cons_val_one, Matrix.head_cons,
      Matrix.cons_val_two, Matrix.tail_cons, sub_add_cancel]
    have e1 := Int.ediv_add_emod (t / (2 * iGbox 2 + 1)) (2 * iGbox 1 + 1)
    have e2 := Int.ediv_add_emod t (2 * iGbox 2 + 1)
    calc (t / (2 * iGbox 2 + 1) / (2 * iGbox 1 + 1) * (2 * iGbox 1 + 1)
            + t / (2 * iGbox 2 + 1) % (2 * iGbox 1 + 1)) * (2 * iGbox 2 + 1)
          + t % (2 * iGbox 2 + 1)
        = ((2 * iGbox 1 + 1) * (t / (2 * iGbox 2 + 1) / (2 * iGbox 1 + 1))
            + t / (2 * iGbox 2 + 1) % (2 * iGbox 1 + 1)) * (2 * iGbox 2 + 1)
          + t % (2 * iGbox 2 + 1) := by ring
      _ = (2 * iGbox 2 + 1) * (t / (2 * iGbox 2 + 1)) + t % (2 * iGbox 2 + 1) := by
          rw [e1]; ring
      _ = t := e2

/-- The remap table of a unit-cell state is injective when its construction completes. -/
theorem indexVecOf_inj (sup iGbox : vector3 ℤ) (iGarrSup iGarr : List (vector3 ℤ))
    (iG : vector3 ℤ) (hboxSup : ∀ v, v ∈ iGarrSup → inBox iGbox v)
    (hboxImg : ∀ v, v ∈ iGarr → inBox iGbox (iGsupOf sup iG v))
    (hsup : ∀ j, sup j ≠ 0) (hnd : iGarr.Nodup)
    (hpos : ∀ x, x ∈ indexVecOf sup iGbox iGarrSup iGarr iG → 0 ≤ x)
    (n n2 : ℕ) (hn : n < iGarr.length) (hn2 : n2 < iGarr.length)
    (h : (indexVecOf sup iGbox iGarrSup iGarr iG).getD n (-1)
      = (indexVecOf sup iGbox iGarrSup iGarr iG).getD n2 (-1)) : n = n2 := by
  have key : ∀ k, k < iGarr.length → ∃ m : ℕ,
      iGarrSup.getD m 0 = iGsupOf sup iG (iGarr.getD k 0) ∧
      (indexVecOf sup iGbox iGarrSup iGarr iG).getD k (-1) = (m : ℤ) := by
    intro k hk
    have hmem : (indexVecOf sup iGbox iGarrSup iGarr iG).getD k (-1)
        ∈ indexVecOf sup iGbox iGarrSup iGarr iG :=
      getD_mem_of_lt _ _ _ (by rw [indexVecOf_length]; exact hk)
    have h0 := hpos _ hmem
    rw [indexVecOf_getD _ _ _ _ _ _ hk] at h0 ⊢
    rcases table_lookup_in_box iGbox iGarrSup (iGsupOf sup iG (iGarr.getD k 0)) hboxSup
      (hboxImg _ (getD_mem_of_lt _ _ _ hk)) with ⟨-, hval⟩ | ⟨m, -, hget, hval⟩
    · rw [hval] at h0
      omega
    · exact ⟨m, hget, hval⟩
  obtain ⟨m, hm1, hm2⟩ := key n hn
  obtain ⟨m2, hm3, hm4⟩ := key n2 hn2
  rw [hm2, hm4] at h
  have hmm : m = m2 := by exact_mod_cast h
  subst hmm
  have himg : iGsupOf sup iG (iGarr.getD n 0) = iGsupOf sup iG (iGarr.getD n2 0) := by
    rw [← hm1, ← hm3]
  have hv := iGsupOf_inj sup iG _ _ hsup himg
  rw [List.getD_eq_getElem _ _ hn, List.getD_eq_getElem _ _ hn2] at hv
  exact (List.Nodup.getElem_inj_iff hnd).1 hv

/-- C29 (as amended): in the supercell lookup table of `Phonon::setup`, with
`pitch = ((2*b1+1)*(2*b2+1), 2*b2+1, 1)` for box half-widths `b = iGbox >= 0`, the linear
index `dot(pitch, v + iGbox)` is a bijection from the integer box
`-b[j] <= v[j] <= b[j]` onto `[0, (2*b0+1)*(2*b1+1)*(2*b2+1))`, so distinct supercell plane
waves inside the box occupy distinct slots, and the table holds `n` at the slot of plane wave
`n` when the supercell plane waves are pairwise distinct and inside the box; and provided that
the supercell plane waves and the images of the unit-cell plane waves lie inside the box, no
replication count is zero and the unit-cell plane waves are pairwise distinct, a remap table
without a negative entry (the assertion of line 141 passes) is injective: distinct unit-cell
plane waves get distinct supercell indices. -/
theorem lookup_slot_bijective (sup iGbox : vector3 ℤ) (iGarrSup iGarr : List (vector3 ℤ))
    (iG : vector3 ℤ) (hb : ∀ j, 0 ≤ iGbox j) :
    pitchOf iGbox = ![(2 * iGbox 1 + 1) * (2 * iGbox 2 + 1), 2 * iGbox 2 + 1, 1] ∧
      (∀ v, inBox iGbox v → 0 ≤ slotOf iGbox v ∧
        slotOf iGbox v < (2 * iGbox 0 + 1) * (2 * iGbox 1 + 1) * (2 * iGbox 2 + 1)) ∧
      (∀ v w, inBox iGbox v → inBox iGbox w → slotOf iGbox v = slotOf iGbox w → v = w) ∧
      (∀ t, 0 ≤ t → t < (2 * iGbox 0 + 1) * (2 * iGbox 1 + 1) * (2 * iGbox 2 + 1) →
        ∃ v, inBox iGbox v ∧ slotOf iGbox v = t) ∧
      ((∀ v, v ∈ iGarrSup → inBox iGbox v) → iGarrSup.Nodup →
        ∀ n, n < iGarrSup.length →
          supIndexTable iGbox iGarrSup (slotOf iGbox (iGarrSup.getD n 0)) = (n : ℤ)) ∧
      ((∀ v, v ∈ iGarrSup → inBox iGbox v) →
        (∀ v, v ∈ iGarr → inBox iGbox (iGsupOf sup iG v)) → (∀ j, sup j ≠ 0) →
        iGarr.Nodup → (∀ x, x ∈ indexVecOf sup iGbox iGarrSup iGarr iG → 0 ≤ x) →
        ∀ n n2, n < iGarr.length → n2 < iGarr.length →
          (indexVecOf sup iGbox iGarrSup iGarr iG).getD n (-1)
            = (indexVecOf sup iGbox iGarrSup iGarr iG).getD n2 (-1) → n = n2) := by
  refine ⟨?_, fun v hv => slotOf_range iGbox v hv,
    fun v w hv hw h => slotOf_inj iGbox v w hv hw h,
    fun t ht0 ht => slotOf_surj iGbox hb t ht0 ht,
    fun h1 h2 n hn => supIndexTable_stores iGbox iGarrSup h1 h2 n hn,
    fun h1 h2 h3 h4 h5 n n2 hn hn2 h =>
      indexVecOf_inj sup iGbox iGarrSup iGarr iG h1 h2 h3 h4 h5 n n2 hn hn2 h⟩
  unfold pitchOf
  simp only [one_mul]
  rw [mul_comm]

/-- Witness of `lookup_slot_bijective`: the box of half-widths `(2,1,1)` with the five
supercell plane waves and the three unit-cell plane waves of the example, `sup = (2,1,1)`,
offset 0.  All plane waves and images lie inside the box; the table holds 3 at the slot of
supercell plane wave 3, the remap table is `[0, 3, 4]`, and it is injective. -/
theorem lookup_slot_bijective_witness :
    (∀ j, 0 ≤ exBox j) ∧
    (∀ v, v ∈ exBasisSup 0 → inBox exBox v) ∧
    (∀ v, v ∈ exBasis 0 → inBox exBox (iGsupOf exSup 0 v)) ∧
    (∀ j, exSup j ≠ 0) ∧ (exBasisSup 0).Nodup ∧ (exBasis 0).Nodup ∧
    (∀ x, x ∈ indexVecOf exSup exBox (exBasisSup 0) (exBasis 0) 0 → 0 ≤ x) ∧
    indexVecOf exSup exBox (exBasisSup 0) (exBasis 0) 0 = [0, 3, 4] ∧
    supIndexTable exBox (exBasisSup 0) (slotOf exBox ((exBasisSup 0).getD 3 0)) = ((3 : ℕ) : ℤ) ∧
    (∀ n n2, n < (exBasis 0).length → n2 < (exBasis 0).length →
      (indexVecOf exSup exBox (exBasisSup 0) (exBasis 0) 0).getD n (-1)
        = (indexVecOf exSup exBox (exBasisSup 0) (exBasis 0) 0).getD n2 (-1) → n = n2) ∧
    (∀ v w, inBox exBox v → inBox exBox w → slotOf exBox v = slotOf exBox w → v = w) :=
  ⟨by decide, by decide, by decide, by decide, by decide, by decide, by decide,
    indexVecOf_example,
    (lookup_slot_bijective exSup exBox (exBasisSup 0) (exBasis 0) 0 (by decide)).2.2.2.2.1
      (by decide) (by decide) 3 (by decide),
    (lookup_slot_bijective exSup exBox (exBasisSup 0) (exBasis 0) 0 (by decide)).2.2.2.2.2
      (by decide) (by decide) (by decide) (by decide) (by decide),
    (lookup_slot_bijective exSup exBox (exBasisSup 0) (exBasis 0) 0 (by decide)).2.2.1⟩

/-- C29 (counterexample): `iGbox = (1,1,1)`, `sup = (1,1,1)`, offset 0, the supercell basis
`[(0,1,-1)]` inside the box and the pairwise distinct unit-cell plane waves `(0,0,2)` and
`(0,1,-1)`.  The image `(0,0,2)` lies outside the box and shares the slot 15 with `(0,1,-1)`;
the remap construction completes with the table `[0, 0]`: two distinct unit-cell plane waves
get the same supercell index. -/
theorem remap_table_not_injective_outside_box :
    mapStates 1 1 1 (fun _ => some 0) (fun _ _ => 0) = Except.ok exStateMapOne ∧
    (∀ j, 0 ≤ exBoxOne j) ∧ (∀ v, v ∈ exBasisSupAlias 0 → inBox exBoxOne v) ∧
    (∀ j, exSupOne j ≠ 0) ∧
    (exBasisAlias 0).Nodup ∧
    mapBasis 0 1 1 exSupOne exBoxOne exBasisSupAlias exBasisAlias exStateMapOne
      = Except.ok exStateMapAlias ∧
    (exStateMapAlias 0).index
      = indexVecOf exSupOne exBoxOne (exBasisSupAlias 0) (exBasisAlias 0) (exStateMapOne 0).iG ∧
    (exStateMapAlias 0).index = [0, 0] ∧
    (exStateMapAlias 0).index.getD 0 (-1) = (exStateMapAlias 0).index.getD 1 (-1) :=
  ⟨mapStates_one, by decide, by decide, by decide, by decide, mapBasis_alias, by decide,
    by decide, by decide⟩

end Phonon
